import Mathlib

/-!
Gaffer `Loop` node: a shallow embedding.

The definitions below translate `include/Gaffer/Loop.inl` into Lean. The
ownership tree is a tree of plugs; a plug pointer is the list of child indices
leading to the plug, written leaf first, so that the parent of a plug is the
tail of its path and the node itself is the empty path. A null pointer is
`none`.
-/

namespace Gaffer

/-! ## Ownership tree -/

/-- Direction of a plug, `Plug::In` or `Plug::Out`. -/
inductive Direction where
  | In
  | Out
  deriving DecidableEq, Repr

/-- Run-time type of a plug. An `IntPlug` is a `ValuePlug` that stores an
integer together with its default and minimum. -/
inductive PlugType where
  | plug
  | valuePlug
  | intPlug (defaultValue minValue value : Int)
  deriving DecidableEq, Repr

/-- Result of `runTimeCast<ValuePlug>`: does the cast succeed. -/
def PlugType.isValuePlug : PlugType → Bool
  | .plug => false
  | .valuePlug => true
  | .intPlug _ _ _ => true

/-- The attributes of a single plug, children apart. -/
structure PlugData where
  name : String
  direction : Direction
  typeId : PlugType
  dynamic : Bool
  acceptsDependencyCycles : Bool
  deriving DecidableEq, Repr

/-- A plug with its ordered, exclusively owned children. -/
inductive Plug where
  | mk (data : PlugData) (children : List Plug)

/-- Attributes of a plug. -/
def Plug.data : Plug → PlugData
  | .mk d _ => d

/-- Ordered children of a plug, `children()`. -/
def Plug.children : Plug → List Plug
  | .mk _ cs => cs

/-- Name of a plug, `getName()`. -/
def Plug.name (p : Plug) : String := p.data.name

/-- A pointer to a plug of the node: child indices, leaf first. -/
abbrev Path := List Nat

/-- A possibly null pointer to a plug. -/
abbrev PlugPtr := Option Path

/-- Follow child indices given root first. -/
def walk : List Plug → List Nat → Option Plug
  | _, [] => none
  | cs, [i] => cs[i]?
  | cs, i :: j :: rest =>
    match cs[i]? with
    | none => none
    | some c => walk c.children (j :: rest)

/-- Position of the first plug carrying the given name. -/
def findName (name : String) : List Plug → Option Nat
  | [] => none
  | c :: cs => if c.name = name then some 0 else (findName name cs).map (· + 1)

/-! ## Failures -/

/-- Ways in which a call can fail to return. -/
inductive Failure where
  /-- a member was accessed through a null pointer -/
  | nullDereference
  /-- a pointer was used at a type its target does not have -/
  | badCast
  /-- a failure raised by upstream `hash` or `compute` and propagated unchanged -/
  | upstream (code : Nat)
  /-- the evaluator ran out of fuel -/
  | outOfFuel
  /-- the last element of an empty vector was read -/
  | emptyBack
  deriving DecidableEq, Repr

/-! ## Context -/

/-- A context: string keys mapped to integer entries. Entries of other types
are not modelled. -/
abbrev Context := List (String × Int)

/-- Entry lookup, the first binding of the key. -/
def Context.find (c : Context) (key : String) : Option Int :=
  match c with
  | [] => none
  | (k, v) :: rest => if k = key then some v else Context.find rest key

/-- `context->get<int>( key, defaultValue )`. -/
def Context.get (c : Context) (key : String) (defaultValue : Int) : Int :=
  (Context.find c key).getD defaultValue

/-- `set<int>( key, value )` on a copy of the context: the key is overridden
or added, the original is untouched. -/
def Context.set (c : Context) (key : String) (value : Int) : Context :=
  match c with
  | [] => [(key, value)]
  | (k, v) :: rest => if k = key then (k, value) :: rest else (k, v) :: Context.set rest key value

/-- The ambient context of the evaluating thread: the innermost scoped context,
or the empty default context when nothing is scoped. -/
def current (stack : List Context) : Context :=
  stack.headD []

/-! ## The node -/

/-- State of a `Loop<BaseType>` node. -/
structure Loop where
  /-- `BaseType::children()` -/
  children : List Plug
  m_inPlugIndex : Nat
  m_outPlugIndex : Nat
  m_firstPlugIndex : Nat
  /-- whether `childAdded` is connected to `childAddedSignal()` -/
  childAddedConnected : Bool

namespace Loop

/-- The plug a pointer designates, if it designates one. -/
def plugAt (n : Loop) (p : Path) : Option Plug :=
  walk n.children p.reverse

/-- `plug->getName()`. -/
def getName (n : Loop) (p : Path) : String :=
  match n.plugAt p with
  | some q => q.name
  | none => ""

/-- `plug->children()`, or those of the node for the empty path. -/
def childrenOf (n : Loop) (p : Path) : List Plug :=
  match p with
  | [] => n.children
  | _ :: _ =>
    match n.plugAt p with
    | some q => q.children
    | none => []

/-- `BaseType::getChild<T>( index )` on the node: the child stored at the
index, cast statically. An index past the end yields no plug. -/
def getChildAt (n : Loop) (index : Nat) : PlugPtr :=
  if index < n.children.length then some [index] else none

/-- `parent->getChild<ValuePlug>( name )`: the first child with that name, or
null when there is none or when it is not a `ValuePlug`. -/
def getChild (n : Loop) (parent : Path) (name : String) : PlugPtr :=
  match findName name (n.childrenOf parent) with
  | none => none
  | some i =>
    match (n.childrenOf parent)[i]? with
    | none => none
    | some c => if c.data.typeId.isValuePlug then some (i :: parent) else none

/-- `Loop::nextPlug`. -/
def nextPlug (n : Loop) : PlugPtr :=
  if n.m_firstPlugIndex ≠ 0 then n.getChildAt n.m_firstPlugIndex else none

/-- `Loop::previousPlug`. -/
def previousPlug (n : Loop) : PlugPtr :=
  if n.m_firstPlugIndex ≠ 0 then n.getChildAt (n.m_firstPlugIndex + 1) else none

/-- `Loop::iterationsPlug`. -/
def iterationsPlug (n : Loop) : PlugPtr :=
  if n.m_firstPlugIndex ≠ 0 then n.getChildAt (n.m_firstPlugIndex + 2) else none

/-- `Loop::inPlugInternal`. -/
def inPlugInternal (n : Loop) : PlugPtr :=
  if n.m_inPlugIndex ≠ 0 then n.getChildAt n.m_inPlugIndex else none

/-- `Loop::outPlugInternal`. -/
def outPlugInternal (n : Loop) : PlugPtr :=
  if n.m_outPlugIndex ≠ 0 then n.getChildAt n.m_outPlugIndex else none

/-- `Loop::ancestorPlug`: climb from the plug to the child of the node that
contains it, pushing the name of every plug left behind onto `relativeName`.
The result is the ancestor together with the final `relativeName`. -/
def ancestorPlug (n : Loop) : Path → List String → PlugPtr × List String
  | [], relativeName => (none, relativeName)
  | [i], relativeName => (some [i], relativeName)
  | i :: j :: rest, relativeName =>
    ancestorPlug n (j :: rest) (relativeName ++ [n.getName (i :: j :: rest)])

/-- The loop of `Loop::descendantPlug` over names already put in iteration
order. Calling `getChild` through a null pointer is a failure. -/
def descendantWalk (n : Loop) : PlugPtr → List String → Except Failure PlugPtr
  | plug, [] => .ok plug
  | none, _ :: _ => .error .nullDereference
  | some p, name :: rest => descendantWalk n (n.getChild p name) rest

/-- `Loop::descendantPlug`: iterate over `relativeName` from its last element
to its first, replacing the plug by its child of that name. -/
def descendantPlug (n : Loop) (plug : PlugPtr) (relativeName : List String) :
    Except Failure PlugPtr :=
  descendantWalk n plug relativeName.reverse

end Loop

/-! ## Traversal of descendants -/

mutual
/-- All proper descendants of a plug located at the given path, parents before
children and siblings in order, each with its path. -/
def Plug.descendants : Plug → Path → List (Path × Plug)
  | .mk _ cs, p => descendantsFrom cs p 0
/-- Descendants contributed by a list of siblings whose first element has the
given index under the parent path. -/
def descendantsFrom : List Plug → Path → Nat → List (Path × Plug)
  | [], _, _ => []
  | c :: cs, p, i => (i :: p, c) :: (c.descendants (i :: p) ++ descendantsFrom cs p (i + 1))
end

namespace Loop

/-- Modelled from the spec: `RecursiveOutputPlugIterator`, which is declared
outside the sources at hand. It visits every descendant of the plug, at any
depth, and yields those that are output plugs. -/
def recursiveOutputPlugs (n : Loop) (p : Path) : List Path :=
  match n.plugAt p with
  | none => []
  | some q => ((q.descendants p).filter (fun d => d.2.data.direction = Direction.Out)).map (·.1)

/-- Services of the evaluation engine and of the base node type that the node
calls into. -/
structure Engine (H V : Type) where
  /-- `plug->hash()`: the hash of a plug under the ambient context -/
  plugHash : Path → Context → Except Failure H
  /-- `plug->getValue()`, as read by `setFrom`, under the ambient context -/
  plugValue : Path → Context → Except Failure V
  /-- `BaseType::hash( output, context, h )`, with the ambient context last -/
  baseHash : Path → Context → H → Context → Except Failure H
  /-- `BaseType::compute( output, context )`, with the ambient context last -/
  baseCompute : Path → Context → Context → Except Failure V
  /-- `BaseType::affects( input, outputs )`: the outputs it appends -/
  baseAffects : Path → List PlugPtr

/-- Constructor of `Context::Scope`: the context becomes the ambient one. -/
def scopeEnter (c : Context) (stack : List Context) : List Context :=
  c :: stack

/-- Destructor of `Context::Scope`: the previous ambient context is restored. -/
def scopeExit (stack : List Context) : List Context :=
  stack.tail

/-- `target->hash()` for the result of `descendantPlug`. -/
def hashOf {H V : Type} (E : Engine H V) (target : Except Failure PlugPtr) (ambient : Context) :
    Except Failure H :=
  match target with
  | .error f => .error f
  | .ok none => .error .nullDereference
  | .ok (some q) => E.plugHash q ambient

/-- `output->setFrom( target )` for the result of `descendantPlug`: the value
the output receives. -/
def setFrom {H V : Type} (E : Engine H V) (target : Except Failure PlugPtr) (ambient : Context) :
    Except Failure V :=
  match target with
  | .error f => .error f
  | .ok none => .error .nullDereference
  | .ok (some q) => E.plugValue q ambient

/-- `iterationsPlug()->getValue()`: the integer the plug stores. -/
def iterationsValue (n : Loop) : Except Failure Int :=
  match n.iterationsPlug with
  | none => .error .nullDereference
  | some p =>
    match n.plugAt p with
    | none => .error .badCast
    | some q =>
      match q.data.typeId with
      | .intPlug _ _ value => .ok value
      | _ => .error .badCast

/-- `Loop::hash`. The result is the hash assigned to `h`, or the failure that
ended the call, together with the stack of scoped contexts on exit. -/
def hash {H V : Type} (n : Loop) (E : Engine H V) (output : Path) (context : Context) (h : H)
    (stack : List Context) : Except Failure H × List Context :=
  let (ancestor, relativeName) := n.ancestorPlug output []
  if ancestor = n.previousPlug then
    let index := context.get "loop:index" 0
    if index ≥ 1 then
      let tmpContext := context.set "loop:index" (index - 1)
      let scopedStack := scopeEnter tmpContext stack
      (hashOf E (n.descendantPlug n.nextPlug relativeName) (current scopedStack),
        scopeExit scopedStack)
    else
      (hashOf E (n.descendantPlug n.inPlugInternal relativeName) (current stack), stack)
  else if ancestor = n.outPlugInternal then
    match n.iterationsValue with
    | .error f => (.error f, stack)
    | .ok iterations =>
      if iterations = 0 then
        (hashOf E (n.descendantPlug n.inPlugInternal relativeName) (current stack), stack)
      else
        let tmpContext := context.set "loop:index" (iterations - 1)
        let scopedStack := scopeEnter tmpContext stack
        (hashOf E (n.descendantPlug n.nextPlug relativeName) (current scopedStack),
        scopeExit scopedStack)
  else
    (E.baseHash output context h (current stack), stack)

/-- `Loop::compute`. The result is the value given to `output`, or the failure
that ended the call, together with the stack of scoped contexts on exit. -/
def compute {H V : Type} (n : Loop) (E : Engine H V) (output : Path) (context : Context)
    (stack : List Context) : Except Failure V × List Context :=
  let (ancestor, relativeName) := n.ancestorPlug output []
  if ancestor = n.previousPlug then
    let index := context.get "loop:index" 0
    if index ≥ 1 then
      let tmpContext := context.set "loop:index" (index - 1)
      let scopedStack := scopeEnter tmpContext stack
      (setFrom E (n.descendantPlug n.nextPlug relativeName) (current scopedStack),
        scopeExit scopedStack)
    else
      (setFrom E (n.descendantPlug n.inPlugInternal relativeName) (current stack), stack)
  else if ancestor = n.outPlugInternal then
    match n.iterationsValue with
    | .error f => (.error f, stack)
    | .ok iterations =>
      if iterations = 0 then
        (setFrom E (n.descendantPlug n.inPlugInternal relativeName) (current stack), stack)
      else
        let tmpContext := context.set "loop:index" (iterations - 1)
        let scopedStack := scopeEnter tmpContext stack
        (setFrom E (n.descendantPlug n.nextPlug relativeName) (current scopedStack),
        scopeExit scopedStack)
  else
    (E.baseCompute output context (current stack), stack)

/-- `runTimeCast<const ValuePlug>( input )` succeeds. -/
def isValuePlug (n : Loop) (p : Path) : Bool :=
  match n.plugAt p with
  | some q => q.data.typeId.isValuePlug
  | none => false

/-- `Loop::affects`: the final contents of `outputs`, which starts empty. -/
def affects {H V : Type} (n : Loop) (E : Engine H V) (input : Path) :
    Except Failure (List PlugPtr) :=
  let outputs := E.baseAffects input
  if some input = n.iterationsPlug then
    match n.outPlugInternal with
    | none => .error .nullDereference
    | some out =>
      if (n.childrenOf out).length ≠ 0 then
        .ok (outputs ++
          ((n.recursiveOutputPlugs out).filter (fun q => (n.childrenOf q).length = 0)).map some)
      else
        .ok (outputs ++ [some out])
  else if n.isValuePlug input then
    let (ancestor, relativeName) := n.ancestorPlug input []
    if ancestor = n.inPlugInternal ∨ ancestor = n.nextPlug then
      match n.descendantPlug n.outPlugInternal relativeName with
      | .error f => .error f
      | .ok o =>
        match n.descendantPlug n.previousPlug relativeName with
        | .error f => .error f
        | .ok p => .ok (outputs ++ [o, p])
    else
      .ok outputs
  else
    .ok outputs

/-! ## Evaluation around the node -/

/-- What a call consulted: an upstream plug under a context, or the base node
type for the requested plug with the context passed and the ambient one. -/
inductive Consulted where
  | plug (p : Path) (context : Context)
  | base (output : Path) (context : Context) (ambient : Context)
  deriving DecidableEq, Repr

/-- An engine that answers every request with a record of the request. -/
def recorder : Engine Consulted Consulted where
  plugHash := fun p c => .ok (.plug p c)
  plugValue := fun p c => .ok (.plug p c)
  baseHash := fun p c _ a => .ok (.base p c a)
  baseCompute := fun p c a => .ok (.base p c a)
  baseAffects := fun _ => []

/-- Answer a recorded request for a hash with a given engine. -/
def replayHash {H V : Type} (E : Engine H V) (h : H) : Except Failure Consulted → Except Failure H
  | .error f => .error f
  | .ok (.plug p c) => E.plugHash p c
  | .ok (.base p c a) => E.baseHash p c h a

/-- Answer a recorded request for a value with a given engine. -/
def replayValue {H V : Type} (E : Engine H V) : Except Failure Consulted → Except Failure V
  | .error f => .error f
  | .ok (.plug p c) => E.plugValue p c
  | .ok (.base p c a) => E.baseCompute p c a

/-- The graph around a node whose `next` is fed by a body reading `previous`:
the values reaching the plugs of `in`, and the function the body applies. -/
structure Wiring (V : Type) where
  /-- value reaching a plug of `in` under a context -/
  inValue : Path → Context → Except Failure V
  /-- the body: value of a plug of `next` from that of the matching plug of `previous` -/
  body : V → V
  /-- what `BaseType::compute` gives an output that is not the node's concern -/
  baseValue : Path → Context → Context → Except Failure V

/-- The engine as the node sees it from inside an evaluation: values of plugs
come from `getValue`, and outputs that are not the node's concern come from the
base node type, which makes no further request. -/
def engineFrom {V : Type} (W : Wiring V)
    (getValue : Path → Context → Except Failure (V × List (Path × Context))) :
    Engine Unit (V × List (Path × Context)) where
  plugHash := fun _ _ => .ok ()
  plugValue := getValue
  baseHash := fun _ _ _ _ => .ok ()
  baseCompute := fun q c a =>
    match W.baseValue q c a with
    | .error f => .error f
    | .ok v => .ok (v, [])
  baseAffects := fun _ => []

/-- Modelled from the spec: `ValuePlug::getValue` of the evaluation engine,
which lies outside the sources at hand, for the plugs of a node wired as in
`Wiring`. A plug of `in` takes the value reaching it; a plug of `next` takes
the body applied to the matching plug of `previous`, evaluated under the
context the request came with; any other plug is an output of the node and is
computed by `Loop::compute` with the requested context ambient. Every request
is logged, first to last, with the plug and context it was made for. -/
def evaluate {V : Type} (n : Loop) (W : Wiring V) :
    Nat → Path → Context → Except Failure (V × List (Path × Context))
  | 0, _, _ => .error .outOfFuel
  | fuel + 1, p, ctx =>
    let (ancestor, relativeName) := n.ancestorPlug p []
    if ancestor = n.nextPlug then
      match n.descendantPlug n.previousPlug relativeName with
      | .error f => .error f
      | .ok none => .error .nullDereference
      | .ok (some q) =>
        match evaluate n W fuel q ctx with
        | .error f => .error f
        | .ok (v, log) => .ok (W.body v, (p, ctx) :: log)
    else if ancestor = n.inPlugInternal then
      match W.inValue p ctx with
      | .error f => .error f
      | .ok v => .ok (v, [(p, ctx)])
    else
      match (n.compute (engineFrom W (evaluate n W fuel)) p ctx [ctx]).1 with
      | .error f => .error f
      | .ok (v, log) => .ok (v, (p, ctx) :: log)

/-- The node is in the state `setupPlugs` leaves it in: `next`, `previous` and
`iterations` follow the children the node had, among which `m_inPlugIndex` and
`m_outPlugIndex` designate two different plugs, neither of them the first
child. -/
structure Configured (n : Loop) : Prop where
  inIndex_ne_zero : n.m_inPlugIndex ≠ 0
  outIndex_ne_zero : n.m_outPlugIndex ≠ 0
  in_ne_out : n.m_inPlugIndex ≠ n.m_outPlugIndex
  in_lt_first : n.m_inPlugIndex < n.m_firstPlugIndex
  out_lt_first : n.m_outPlugIndex < n.m_firstPlugIndex
  first_le : n.m_firstPlugIndex + 3 ≤ n.children.length

/-- The names met when following child indices given root first. -/
def namesAlong : List Plug → List Nat → List String
  | _, [] => []
  | cs, i :: rest =>
    match cs[i]? with
    | none => []
    | some c => c.name :: namesAlong c.children rest

/-- The child names leading from the child of the node that contains the plug
down to the plug, nearest to the node first. -/
def namesBelowAncestor (n : Loop) (p : Path) : List String :=
  (namesAlong n.children p.reverse).tail

end Loop

/-- Names of a list of plugs, in order. -/
def namesOf (cs : List Plug) : List String :=
  cs.map Plug.name

mutual
/-- No two children of the plug share a name, and likewise below it. -/
def Plug.uniqueNames : Plug → Bool
  | .mk _ cs => decide ((namesOf cs).Nodup) && allUniqueNames cs
/-- Every plug of the list has `uniqueNames`. -/
def allUniqueNames : List Plug → Bool
  | [] => true
  | c :: cs => c.uniqueNames && allUniqueNames cs
end

namespace Loop

/-- The invariant of the ownership tree that siblings carry different names,
for the children of the node and everything below them. -/
def UniqueNames (n : Loop) : Prop :=
  (namesOf n.children).Nodup ∧ allUniqueNames n.children = true

/-- The plug `q` lies strictly below the plug `a`. -/
def IsDescendant (n : Loop) (a q : Path) : Prop :=
  (∃ s : List Nat, s ≠ [] ∧ q = s ++ a) ∧ (n.plugAt q).isSome = true

/-- The plug has no children. -/
def IsLeaf (n : Loop) (q : Path) : Prop :=
  n.childrenOf q = []

/-- The plug and each of its ancestors inside the node is a `ValuePlug`. -/
def ValuePlugChain (n : Loop) (p : Path) : Prop :=
  ∀ t : Path, t ≠ [] → t <:+ p → n.isValuePlug t = true

/-- The requests made when `next` is evaluated with `loop:index` equal to `k`
under a context otherwise equal to `ctx`, in the order they are made. -/
def nextLog (n : Loop) (ctx : Context) : Nat → List (Path × Context)
  | 0 =>
    [([n.m_firstPlugIndex], Context.set ctx "loop:index" 0),
      ([n.m_firstPlugIndex + 1], Context.set ctx "loop:index" 0),
      ([n.m_inPlugIndex], Context.set ctx "loop:index" 0)]
  | k + 1 =>
    ([n.m_firstPlugIndex], Context.set ctx "loop:index" ((k + 1 : Nat) : Int)) ::
      ([n.m_firstPlugIndex + 1], Context.set ctx "loop:index" ((k + 1 : Nat) : Int)) ::
      nextLog n ctx k

/-! ## Concrete nodes -/

/-- A `ValuePlug` without children. -/
def leafPlug (name : String) (direction : Direction) : Plug :=
  .mk ⟨name, direction, .valuePlug, false, false⟩ []

/-- A `ValuePlug` with the given children. -/
def compoundPlug (name : String) (direction : Direction) (children : List Plug) : Plug :=
  .mk ⟨name, direction, .valuePlug, false, false⟩ children

/-- A configured node over single-valued `in` and `out`, after the `user` plug
of the base type, with the given value stored in `iterations`. -/
def scalarLoop (iterations : Int) : Loop where
  children :=
    [leafPlug "user" .In, leafPlug "in" .In, leafPlug "out" .Out, leafPlug "next" .In,
      leafPlug "previous" .Out,
      .mk ⟨"iterations", .In, .intPlug 10 0 iterations, false, false⟩ []]
  m_inPlugIndex := 1
  m_outPlugIndex := 2
  m_firstPlugIndex := 3
  childAddedConnected := false

/-- A configured node whose `in` and `out` are structured: each has a leaf
`a` and a compound `b` holding a leaf `c`. -/
def structuredLoop (iterations : Int) : Loop where
  children :=
    [leafPlug "user" .In,
      compoundPlug "in" .In [leafPlug "a" .In, compoundPlug "b" .In [leafPlug "c" .In]],
      compoundPlug "out" .Out [leafPlug "a" .Out, compoundPlug "b" .Out [leafPlug "c" .Out]],
      compoundPlug "next" .In [leafPlug "a" .In, compoundPlug "b" .In [leafPlug "c" .In]],
      compoundPlug "previous" .Out [leafPlug "a" .Out, compoundPlug "b" .Out [leafPlug "c" .Out]],
      .mk ⟨"iterations", .In, .intPlug 10 0 iterations, false, false⟩ []]
  m_inPlugIndex := 1
  m_outPlugIndex := 2
  m_firstPlugIndex := 3
  childAddedConnected := false

/-- The wiring of the scenario: `in` holds 5 and the body adds 1. -/
def addOneWiring : Wiring Int where
  inValue := fun _ _ => .ok 5
  body := fun v => v + 1
  baseValue := fun _ _ _ => .error (.upstream 0)

/-- A wiring whose `in` is fed by something that depends on the context: its
value is the `loop:index` entry, or 0 without one. The body adds 1. -/
def indexReadingWiring : Wiring Int where
  inValue := fun _ c => .ok (Context.get c "loop:index" 0)
  body := fun v => v + 1
  baseValue := fun _ _ _ => .error (.upstream 0)

/-- An engine over integers that hashes a plug to the sum of its path and
delegates nothing. -/
def pathSumEngine : Engine Int Int where
  plugHash := fun p _ => .ok (p.foldl (fun acc i => acc + (i : Int)) 0)
  plugValue := fun p _ => .ok (p.foldl (fun acc i => acc + (i : Int)) 0)
  baseHash := fun _ _ h _ => .ok h
  baseCompute := fun _ _ _ => .ok 0
  baseAffects := fun _ => []

end Loop


/-! ## Construction and set-up -/

/-- `setFlags( Plug::Dynamic, enable )` on the attributes of a plug. -/
def PlugData.setDynamic (d : PlugData) (enable : Bool) : PlugData :=
  { d with dynamic := enable }

/-- `setFlags( Plug::AcceptsDependencyCycles, enable )` on the attributes of a
plug. -/
def PlugData.setAcceptsDependencyCycles (d : PlugData) (enable : Bool) : PlugData :=
  { d with acceptsDependencyCycles := enable }

/-- `plug->setFlags( Plug::Dynamic, enable )`: the plug itself only. -/
def Plug.setDynamic : Plug → Bool → Plug
  | .mk d cs, enable => .mk (d.setDynamic enable) cs

/-- `plug->setFlags( Plug::AcceptsDependencyCycles, enable )`: the plug itself
only. -/
def Plug.setAcceptsDependencyCycles : Plug → Bool → Plug
  | .mk d cs, enable => .mk (d.setAcceptsDependencyCycles enable) cs

mutual
/-- The loop over `RecursivePlugIterator( plug )` that calls
`setFlags( Plug::AcceptsDependencyCycles, true )` on every plug below the given
one, at any depth; the plug itself is left as it is. -/
def Plug.acceptCyclesBelow : Plug → Plug
  | .mk d cs => .mk d (acceptCyclesAll cs)
/-- The same loop over a list of siblings together with everything below
them. -/
def acceptCyclesAll : List Plug → List Plug
  | [] => []
  | c :: cs =>
    (c.acceptCyclesBelow.setAcceptsDependencyCycles true) :: acceptCyclesAll cs
end

mutual
/-- Modelled from the spec: `createCounterpart( name, direction )`, defined
outside the sources at hand. The counterpart has the type, flags and structure
of the plug, under the given name and with the given direction at every
level. -/
def Plug.createCounterpart : Plug → String → Direction → Plug
  | .mk d cs, name, direction =>
    .mk { d with name := name, direction := direction } (counterpartsOf cs direction)
/-- Counterparts of a list of children, each under its own name. -/
def counterpartsOf : List Plug → Direction → List Plug
  | [], _ => []
  | .mk d cs :: rest, direction =>
    .mk { d with direction := direction } (counterpartsOf cs direction) ::
      counterpartsOf rest direction
end

/-- `new IntPlug( name, direction, defaultValue, minValue )`: a plug without
children that holds its default value and carries the default flags. -/
def newIntPlug (name : String) (direction : Direction) (defaultValue minValue : Int) : Plug :=
  .mk ⟨name, direction, .intPlug defaultValue minValue defaultValue, false, false⟩ []

/-- Replace the element at an index by its image; an index past the end
changes nothing. -/
def modifyAt (f : Plug → Plug) : Nat → List Plug → List Plug
  | _, [] => []
  | 0, c :: cs => f c :: cs
  | i + 1, c :: cs => c :: modifyAt f i cs

/-- Apply a change to the plug reached by child indices given root first. -/
def modifyAlong (f : Plug → Plug) : List Nat → List Plug → List Plug
  | [], cs => cs
  | [i], cs => modifyAt f i cs
  | i :: j :: rest, cs =>
    modifyAt (fun c => .mk c.data (modifyAlong f (j :: rest) c.children)) i cs

namespace Loop

/-- A member call `plug->...` that changes the plug: a failure through a null
pointer, the changed node otherwise. -/
def updatePlug (n : Loop) (plug : PlugPtr) (f : Plug → Plug) : Except Failure Loop :=
  match plug with
  | none => .error .nullDereference
  | some p => .ok { n with children := modifyAlong f p.reverse n.children }

/-- Modelled from the spec: `BaseType::addChild( child )` on the node, defined
outside the sources at hand. The child becomes the last child and
`childAddedSignal()` is emitted, which runs the slot when `childAdded` is
connected at that moment. -/
def addChildWith (slot : Loop → Except Failure Loop) (n : Loop) (child : Plug) :
    Except Failure Loop :=
  let added : Loop := { n with children := n.children ++ [child] }
  if added.childAddedConnected then slot added else .ok added

/-- `Loop::setupPlugs`, with `Loop::childAdded` as the slot that a nested
emission of `childAddedSignal()` would run. Fuel bounds the nesting of
`setupPlugs` inside its own calls of `addChild`. -/
def setupPlugs : Nat → Loop → Except Failure (Bool × Loop)
  | 0, _ => .error .outOfFuel
  | fuel + 1, n =>
    match n.getChild [] "in", n.getChild [] "out" with
    | some inPath, some outPath =>
      match n.plugAt inPath, n.plugAt outPath with
      | some inPlug, some outPlug =>
        let childAdded : Loop → Except Failure Loop := fun m =>
          match setupPlugs fuel m with
          | .error f => .error f
          | .ok r => .ok r.2
        let n1 : Loop := { n with childAddedConnected := false }
        let n2 : Loop :=
          { n1 with m_inPlugIndex := inPath.headD 0, m_outPlugIndex := outPath.headD 0 }
        match addChildWith childAdded n2 (inPlug.createCounterpart "next" .In) with
        | .error f => .error f
        | .ok n3 =>
          match addChildWith childAdded n3 (outPlug.createCounterpart "previous" .Out) with
          | .error f => .error f
          | .ok n4 =>
            match addChildWith childAdded n4 (newIntPlug "iterations" .In 10 0) with
            | .error f => .error f
            | .ok n5 =>
              let n6 : Loop := { n5 with m_firstPlugIndex := n5.children.length - 3 }
              match n6.updatePlug n6.nextPlug (fun p => p.setDynamic false) with
              | .error f => .error f
              | .ok n7 =>
                match n7.updatePlug n7.previousPlug (fun p => p.setDynamic false) with
                | .error f => .error f
                | .ok n8 =>
                  match n8.updatePlug n8.previousPlug
                      (fun p => p.setAcceptsDependencyCycles true) with
                  | .error f => .error f
                  | .ok n9 =>
                    match n9.updatePlug n9.previousPlug (fun p => p.acceptCyclesBelow) with
                    | .error f => .error f
                    | .ok n10 => .ok (true, n10)
      | _, _ => .error .nullDereference
    | _, _ => .ok (false, n)

/-- `Loop::childAdded`: the slot connected to `childAddedSignal()`. -/
def childAdded (fuel : Nat) (n : Loop) : Except Failure Loop :=
  match setupPlugs fuel n with
  | .error f => .error f
  | .ok r => .ok r.2

/-- `addChild( child )` called on the node from outside. -/
def addChild (fuel : Nat) (n : Loop) (child : Plug) : Except Failure Loop :=
  addChildWith (childAdded fuel) n child

/-- Children added one after the other. -/
def addChildren (fuel : Nat) : Loop → List Plug → Except Failure Loop
  | n, [] => .ok n
  | n, c :: cs =>
    match addChild fuel n c with
    | .error f => .error f
    | .ok m => addChildren fuel m cs

/-- The node once the base type is constructed and the members are
initialised: the children of the base type, every index 0, nothing connected. -/
def initial (baseChildren : List Plug) : Loop where
  children := baseChildren
  m_inPlugIndex := 0
  m_outPlugIndex := 0
  m_firstPlugIndex := 0
  childAddedConnected := false

/-- `Loop::Loop`: the constructor, for a base type whose own constructor leaves
the given children. -/
def construct (fuel : Nat) (baseChildren : List Plug) : Except Failure Loop :=
  match setupPlugs fuel (initial baseChildren) with
  | .error f => .error f
  | .ok (true, n) => .ok n
  | .ok (false, n) => .ok { n with childAddedConnected := true }

/-- A node built over the given children and then given more, one by one. -/
def constructThenAdd (fuel : Nat) (baseChildren added : List Plug) : Except Failure Loop :=
  match construct fuel baseChildren with
  | .error f => .error f
  | .ok n => addChildren fuel n added

/-- The state of a node that is not set up and waits for `in` and `out`: no
index is set and `childAdded` is connected. -/
def unconfigured (children : List Plug) : Loop where
  children := children
  m_inPlugIndex := 0
  m_outPlugIndex := 0
  m_firstPlugIndex := 0
  childAddedConnected := true

/-- The plug `setupPlugs` leaves as `next` for a given `in`. -/
def nextFor (inPlug : Plug) : Plug :=
  (inPlug.createCounterpart "next" .In).setDynamic false

/-- The plug `setupPlugs` leaves as `previous` for a given `out`. -/
def previousFor (outPlug : Plug) : Plug :=
  (((outPlug.createCounterpart "previous" .Out).setDynamic false).setAcceptsDependencyCycles
    true).acceptCyclesBelow

/-- What a node has become once it was built and given children, `l` being
all of them in order: either it still waits for `in` and `out`, or `setupPlugs` ran
when the children were `l1` and the rest was added afterwards. -/
def Outcome (l : List Plug) (m : Loop) : Prop :=
  (m = unconfigured l ∧
    ((unconfigured l).getChild [] "in" = none ∨ (unconfigured l).getChild [] "out" = none)) ∨
  ∃ (l1 l2 : List Plug) (i o : Nat) (inPlug outPlug : Plug),
    l = l1 ++ l2 ∧
    (unconfigured l1).getChild [] "in" = some [i] ∧
    (unconfigured l1).getChild [] "out" = some [o] ∧
    l1[i]? = some inPlug ∧ l1[o]? = some outPlug ∧
    m = { children := l1 ++ [nextFor inPlug, previousFor outPlug, newIntPlug "iterations" .In 10 0]
            ++ l2
          m_inPlugIndex := i
          m_outPlugIndex := o
          m_firstPlugIndex := l1.length
          childAddedConnected := false }

/-- A node that is not set up: it was built over `user` alone and has since
been given `in` and an output called `result`. -/
def pendingLoop : Loop where
  children := [leafPlug "user" .In, leafPlug "in" .In, leafPlug "result" .Out]
  m_inPlugIndex := 0
  m_outPlugIndex := 0
  m_firstPlugIndex := 0
  childAddedConnected := true

/-! ## Hashing around the node -/

/-- The graph around a node as hashing sees it: the hashes reaching the plugs
of `in`, the function by which the body derives the hash of a plug of `next`
from the hash of the matching plug of `previous`, what the base type appends,
and the empty hash a call of `Loop::hash` starts from. -/
structure HashWiring (H : Type) where
  /-- hash reaching a plug of `in` under a context -/
  inHash : Path → Context → Except Failure H
  /-- the body: hash of a plug of `next` from that of the matching plug of `previous` -/
  body : H → H
  /-- what `BaseType::hash` gives an output that is not the node's concern -/
  baseHash : Path → Context → H → Context → Except Failure H
  /-- a freshly constructed hash -/
  empty : H

/-- The engine as the node sees it from inside a hash evaluation. -/
def hashEngineFrom {H : Type} (W : HashWiring H)
    (getHash : Path → Context → Except Failure H) : Engine H Unit where
  plugHash := getHash
  plugValue := fun _ _ => .ok ()
  baseHash := W.baseHash
  baseCompute := fun _ _ _ => .ok ()
  baseAffects := fun _ => []

/-- Modelled from the spec: `ValuePlug::hash` of the evaluation engine, which
lies outside the sources at hand, for the plugs of a node wired as in
`HashWiring`. A plug of `in` takes the hash reaching it; a plug of `next` takes
the body's function of the hash of the matching plug of `previous`, under the
context the request came with; any other plug is an output of the node and is
hashed by `Loop::hash` with the requested context ambient. -/
def evaluateHash {H : Type} (n : Loop) (W : HashWiring H) :
    Nat → Path → Context → Except Failure H
  | 0, _, _ => .error .outOfFuel
  | fuel + 1, p, ctx =>
    let (ancestor, relativeName) := n.ancestorPlug p []
    if ancestor = n.nextPlug then
      match n.descendantPlug n.previousPlug relativeName with
      | .error f => .error f
      | .ok none => .error .nullDereference
      | .ok (some q) =>
        match evaluateHash n W fuel q ctx with
        | .error f => .error f
        | .ok h => .ok (W.body h)
    else if ancestor = n.inPlugInternal then
      W.inHash p ctx
    else
      (n.hash (hashEngineFrom W (evaluateHash n W fuel)) p ctx W.empty [ctx]).1

/-- A body that overwrites what it reads: the hash of `next` is 42 whatever
the hash of `previous`; the hash of `in` is 5. -/
def overwritingBody : HashWiring Int where
  inHash := fun _ _ => .ok 5
  body := fun _ => 42
  baseHash := fun _ _ h _ => .ok h
  empty := 0

/-- A body whose hash of `next` is the hash of `previous` plus 1; the hash of
`in` is 5. -/
def countingBody : HashWiring Int where
  inHash := fun _ _ => .ok 5
  body := fun h => h + 1
  baseHash := fun _ _ h _ => .ok h
  empty := 0

end Loop

end Gaffer

namespace IECoreArnold

open Gaffer (Failure)

/-! ## Shader network conversion (`IECoreArnold/ShaderNetworkAlgo.cpp`) -/

/-- `s.find_first_of( ch )`: the index of the first occurrence of the
character, if there is one. -/
def findFirstOf (ch : Char) : List Char → Option Nat
  | [] => none
  | x :: xs => if x = ch then some 0 else (findFirstOf ch xs).map (· + 1)

/-- `InternedString( const char * )`: the characters before the first NUL. -/
def fromCString (l : List Char) : List Char :=
  l.takeWhile (fun x => x ≠ Char.ofNat 0)

/-- `partitionStart( s, c )`. -/
def partitionStart (s : String) (_c : Char) : String :=
  match findFirstOf '.' s.data with
  | none => s
  | some index => ⟨s.data.take index⟩

/-- `partitionEnd( s, c )`. -/
def partitionEnd (s : String) (_c : Char) : String :=
  match findFirstOf '.' s.data with
  | none => ""
  | some index => ⟨fromCString (s.data.drop (index + 1))⟩

/-- Python's `s.partition( c )`, as the comments on `partitionStart` and
`partitionEnd` refer to it: the part before the first occurrence of `c`, the
separator, and the part after it; the whole string and two empty strings when
`c` does not occur. -/
def pythonPartition (s : String) (c : Char) : String × String × String :=
  match findFirstOf c s.data with
  | none => (s, "", "")
  | some index => (⟨s.data.take index⟩, ⟨[c]⟩, ⟨s.data.drop (index + 1)⟩)

/-- `ShaderNetwork::Parameter`: a shader handle and a parameter name. -/
structure Parameter where
  shader : String
  name : String
  deriving DecidableEq, Repr

/-- `IECoreScene::Shader`, as far as the conversion reads it. Of the blind
data only the names of the entries are kept. -/
structure Shader where
  name : String
  type : String
  blindData : List String := []
  deriving DecidableEq, Repr

/-- `ShaderNetwork::Connection`. -/
structure Connection where
  source : Parameter
  destination : Parameter
  deriving DecidableEq, Repr

/-- `IECoreScene::ShaderNetwork`: shaders by handle, connections, output. -/
structure ShaderNetwork where
  shaders : List (String × Shader)
  connections : List Connection
  output : Parameter
  deriving Repr

/-- The shader stored under a handle, if there is one. -/
def lookupShader (handle : String) : List (String × Shader) → Option Shader
  | [] => none
  | (h, s) :: rest => if h = handle then some s else lookupShader handle rest

/-- `getShader( handle )`: null when the network has no such shader. -/
def ShaderNetwork.getShader (net : ShaderNetwork) (handle : String) : Option Shader :=
  lookupShader handle net.shaders

/-- `inputConnections( handle )`: the connections into the shader. -/
def ShaderNetwork.inputConnections (net : ShaderNetwork) (handle : String) : List Connection :=
  net.connections.filter (fun c => c.destination.shader = handle)

/-- A key of `ShaderMap`: a shader handle and an OSL output name. -/
abbrev Key := String × String

/-- `ShaderMap`: the node, possibly null, recorded for each key, in the order
the keys were inserted. An `AtNode *` is a number naming the node. -/
abbrev ShaderMap := List (Key × Option Nat)

/-- The entry of a key, if the key is present. -/
def lookupKey (k : Key) : ShaderMap → Option (Option Nat)
  | [] => none
  | (k0, v) :: rest => if k0 = k then some v else lookupKey k rest

/-- Assignment through the reference `node` to the entry of a key. -/
def assignKey (k : Key) (v : Option Nat) : ShaderMap → ShaderMap
  | [] => []
  | (k0, v0) :: rest => if k0 = k then (k0, v) :: rest else (k0, v0) :: assignKey k v rest

/-- `boost::starts_with( shader->getType(), "osl:" )`. -/
def isOSLShader (shader : Shader) : Bool :=
  "osl:".data.isPrefixOf shader.type.data

/-- The `oslOutput` of `convertWalk`: the top-level output of an OSL shader,
empty for any other shader. -/
def oslOutputOf (shader : Shader) (outputParameter : Parameter) : String :=
  if isOSLShader shader then partitionStart outputParameter.name '.' else ""

/-- The `nodeName` of `convertWalk`. -/
def nodeNameOf (net : ShaderNetwork) (name : String) (shader : Shader)
    (outputParameter : Parameter) : String :=
  let withHandle :=
    if outputParameter ≠ net.output then name ++ ":" ++ outputParameter.shader else name
  if (oslOutputOf shader outputParameter).length ≠ 0 then
    withHandle ++ ":" ++ oslOutputOf shader outputParameter
  else withHandle

/-- The node type `convertWalk` passes to the node creator. -/
def nodeTypeOf (shader : Shader) : String :=
  if isOSLShader shader then "osl" else shader.name

/-- What `convertWalk` threads through the recursion: the state behind the node
creator, the vector `nodes` and the map `converted`. -/
structure WalkState (σ : Type) where
  arnold : σ
  nodes : List Nat
  converted : ShaderMap

/-- The loop of `convertWalk` over the input connections, with the recursive
call passed in. A null source is skipped; for any other source the loop links
the two nodes, which changes neither `nodes` nor `converted`. -/
def walkConnections {σ : Type}
    (walk : Parameter → WalkState σ → Except Failure (Option Nat × WalkState σ)) :
    List Connection → WalkState σ → Except Failure (WalkState σ)
  | [], st => .ok st
  | c :: cs, st =>
    match walk c.source st with
    | .error f => .error f
    | .ok (_, st1) => walkConnections walk cs st1

/-- `convertWalk`, with fuel bounding the depth of the recursion. The node
creator takes the node type and the node name and returns the node, or null,
together with its new state. Calls that set parameters on the created node
change neither `nodes` nor `converted` and are left out. -/
def convertWalk {σ : Type} (nodeCreator : σ → String → String → Option Nat × σ)
    (net : ShaderNetwork) (name : String) :
    Nat → Parameter → WalkState σ → Except Failure (Option Nat × WalkState σ)
  | 0, _, _ => .error .outOfFuel
  | fuel + 1, outputParameter, st =>
    match net.getShader outputParameter.shader with
    | none => .error .nullDereference
    | some shader =>
      let key : Key := (outputParameter.shader, oslOutputOf shader outputParameter)
      match lookupKey key st.converted with
      | some node => .ok (node, st)
      | none =>
        let inserted : ShaderMap := st.converted ++ [(key, none)]
        let created := nodeCreator st.arnold (nodeTypeOf shader)
          (nodeNameOf net name shader outputParameter)
        let st1 : WalkState σ :=
          { arnold := created.2, nodes := st.nodes, converted := assignKey key created.1 inserted }
        match created.1 with
        | none => .ok (none, st1)
        | some node =>
          match walkConnections (convertWalk nodeCreator net name fuel)
              (net.inputConnections outputParameter.shader) st1 with
          | .error f => .error f
          | .ok st2 =>
            .ok (some node,
              { arnold := st2.arnold, nodes := st2.nodes ++ [node],
                converted := st2.converted })

/-- The keys of a map, in insertion order. -/
def keysOf (m : ShaderMap) : List Key :=
  m.map (fun e => e.1)

/-- The key under which `convertWalk` records a parameter. -/
def keyOf (net : ShaderNetwork) (p : Parameter) : Key :=
  match net.getShader p.shader with
  | some shader => (p.shader, oslOutputOf shader p)
  | none => (p.shader, "")

/-- The node type and node name `convertWalk` hands to the node creator for a
parameter. -/
def creatorArgsOf (net : ShaderNetwork) (name : String) (p : Parameter) : String × String :=
  match net.getShader p.shader with
  | some shader => (nodeTypeOf shader, nodeNameOf net name shader p)
  | none => ("", "")

/-- The parameters a walk from the output can be asked for: the output and the
source of every connection. -/
def reachable (net : ShaderNetwork) : List Parameter :=
  net.output :: net.connections.map (fun c => c.source)

/-- How many of the keys a walk can meet are not in the map yet, counted along
`reachable`. -/
def pending (net : ShaderNetwork) (m : ShaderMap) : Nat :=
  (((reachable net).map (keyOf net)).filter (fun k => k ∉ keysOf m)).length

/-- A node creator over a counter: every call succeeds and hands out the next
number. -/
def countingCreator : Nat → String → String → Option Nat × Nat :=
  fun next _ _ => (some next, next + 1)

/-- A node creator remembers the type and name of every call made to the
given one, first to last. -/
def recording {σ : Type} (nodeCreator : σ → String → String → Option Nat × σ) :
    σ × List (String × String) → String → String → Option Nat × (σ × List (String × String)) :=
  fun u nodeType nodeName =>
    ((nodeCreator u.1 nodeType nodeName).1,
      ((nodeCreator u.1 nodeType nodeName).2, u.2 ++ [(nodeType, nodeName)]))

/-- The second state continues the first: the map has gained the keys of some
parameters, in order, the recorded calls have gained the calls for exactly
those parameters, in the same order, and the keys stay distinct if they
were. -/
def Continues {σ : Type} (net : ShaderNetwork) (name : String)
    (st st1 : WalkState (σ × List (String × String))) : Prop :=
  ∃ ps : List Parameter,
    (∀ q ∈ ps, q ∈ reachable net) ∧
    keysOf st1.converted = keysOf st.converted ++ ps.map (keyOf net) ∧
    st1.arnold.2 = st.arnold.2 ++ ps.map (creatorArgsOf net name) ∧
    ((keysOf st.converted).Nodup → (keysOf st1.converted).Nodup)

/-- The state `convert` and `update` start the walk from. -/
def emptyWalk {σ : Type} (arnold : σ) : WalkState σ where
  arnold := arnold
  nodes := []
  converted := []

/-- A network with a cycle: a surface reading an OSL pattern through two of
its outputs, and the pattern reading the surface back. -/
def cyclicNetwork : ShaderNetwork where
  shaders :=
    [("surface", ⟨"standard_surface", "ai:surface", []⟩),
      ("pattern", ⟨"noise", "osl:shader", []⟩), ("tint", ⟨"flat", "ai:shader", []⟩)]
  connections :=
    [⟨⟨"pattern", "out.r"⟩, ⟨"surface", "base"⟩⟩, ⟨⟨"pattern", "out.g"⟩, ⟨"surface", "specular"⟩⟩,
      ⟨⟨"pattern", "alt"⟩, ⟨"surface", "coat"⟩⟩, ⟨⟨"surface", "out"⟩, ⟨"pattern", "scale"⟩⟩,
      ⟨⟨"tint", "out"⟩, ⟨"surface", "base_color"⟩⟩, ⟨⟨"tint", "out.r"⟩, ⟨"pattern", "gain"⟩⟩]
  output := ⟨"surface", "out"⟩

/-! ## Arnold nodes, as the conversion sees them -/

/-- What the conversion reads back from an `AtNode`: the name of its node entry
and its own name. -/
structure AtNode where
  entryName : String
  name : String
  deriving DecidableEq, Repr

/-- An `AtUniverse`, seen through the calls the conversion makes: every node
created so far, where an `AtNode *` is the position of the node in this list,
and the argument of every call of `AiNodeDestroy`, first to last. -/
structure Universe where
  created : List AtNode
  destroyed : List Nat
  deriving DecidableEq, Repr

/-- `AiNode( universe, nodeType, nodeName, parentNode )`: a new node, or null
when there is no node entry of that type. Which node entries exist is the
parameter `loads`. -/
def AiNode (loads : String → Bool) (arnold : Universe) (nodeType nodeName : String) :
    Option Nat × Universe :=
  if loads nodeType then
    (some arnold.created.length,
      { created := arnold.created ++ [⟨nodeType, nodeName⟩], destroyed := arnold.destroyed })
  else (none, arnold)

/-- `AiNodeGetName( node )`. -/
def AiNodeGetName (arnold : Universe) (node : Nat) : String :=
  match arnold.created[node]? with
  | some n => n.name
  | none => ""

/-- `AiNodeEntryGetName( AiNodeGetNodeEntry( node ) )`. -/
def AiNodeEntryGetName (arnold : Universe) (node : Nat) : String :=
  match arnold.created[node]? with
  | some n => n.entryName
  | none => ""

/-- `AiNodeDestroy( node )`. -/
def AiNodeDestroy (arnold : Universe) (node : Nat) : Universe :=
  { created := arnold.created, destroyed := arnold.destroyed ++ [node] }

/-! ## `convert` -/

/-- `result.back()`. -/
def back (result : List Nat) : Except Failure Nat :=
  match result.getLast? with
  | some node => .ok node
  | none => .error .emptyBack

/-- The loop of `convert` over the blind data of the output shader: each entry
is set as a parameter on `result.back()`, which changes no list. -/
def setBlindData (result : List Nat) : List String → Except Failure Unit
  | [] => .ok ()
  | _ :: rest =>
    match back result with
    | .error f => .error f
    | .ok _ => setBlindData result rest

/-- `convert( shaderNetwork, universe, name, parentNode )`, returning the
vector of nodes and the universe it leaves. The network the walk runs on is the
copy after `convertOSLComponentConnections`, which is a parameter here. -/
def convert (convertOSLComponentConnections : ShaderNetwork → ShaderNetwork)
    (loads : String → Bool) (fuel : Nat) (shaderNetwork : ShaderNetwork)
    (arnold : Universe) (name : String) : Except Failure (List Nat × Universe) :=
  let networkCopy := convertOSLComponentConnections shaderNetwork
  if networkCopy.output.shader = "" then .ok ([], arnold)
  else
    match convertWalk (AiNode loads) networkCopy name fuel networkCopy.output
        (emptyWalk arnold) with
    | .error f => .error f
    | .ok (_, st) =>
      match networkCopy.getShader networkCopy.output.shader with
      | none => .error .nullDereference
      | some outputShader =>
        match setBlindData st.nodes outputShader.blindData with
        | .error f => .error f
        | .ok _ => .ok (st.nodes, st.arnold)

/-! ## `update` -/

/-- The map `originalNodes` of `update`: the node recorded under each name. -/
abbrev OriginalNodes := List (String × Nat)

/-- The statement `originalNodes[name] = node`. -/
def assignOriginal (name : String) (node : Nat) : OriginalNodes → OriginalNodes
  | [] => [(name, node)]
  | (k, v) :: rest =>
    if k = name then (k, node) :: rest else (k, v) :: assignOriginal name node rest

/-- The call `originalNodes.find( name )`. -/
def findOriginal (name : String) : OriginalNodes → Option Nat
  | [] => none
  | (k, v) :: rest => if k = name then some v else findOriginal name rest

/-- The call `originalNodes.erase( it )` for the entry found under a name. -/
def eraseOriginal (name : String) : OriginalNodes → OriginalNodes
  | [] => []
  | (k, v) :: rest => if k = name then rest else (k, v) :: eraseOriginal name rest

/-- What the node creator of `update` works on: the universe and the two
containers it captures by reference. -/
structure UpdateState where
  arnold : Universe
  originalNodes : OriginalNodes
  reusedNodes : List Nat

/-- The node creator of `update`. Resetting a reused node changes neither its
name nor its node entry and is left out. -/
def updateCreator (loads : String → Bool) :
    UpdateState → String → String → Option Nat × UpdateState :=
  fun s nodeType nodeName =>
    match findOriginal nodeName s.originalNodes with
    | some node =>
      if AiNodeEntryGetName s.arnold node = nodeType then
        (some node,
          { arnold := s.arnold, originalNodes := eraseOriginal nodeName s.originalNodes,
            reusedNodes := s.reusedNodes ++ [node] })
      else
        let created := AiNode loads (AiNodeDestroy s.arnold node) nodeType nodeName
        (created.1,
          { arnold := created.2, originalNodes := eraseOriginal nodeName s.originalNodes,
            reusedNodes := s.reusedNodes })
    | none =>
      let created := AiNode loads s.arnold nodeType nodeName
      (created.1,
        { arnold := created.2, originalNodes := s.originalNodes, reusedNodes := s.reusedNodes })

/-- The first loop of `update`: every node is recorded under its name. -/
def collectOriginals (arnold : Universe) (nodes : List Nat) : OriginalNodes :=
  nodes.foldl (fun m n => assignOriginal (AiNodeGetName arnold n) n m) []

/-- The last loop of `update`: what is left in `originalNodes` is destroyed.
The map is unordered; the order in which the loop meets its entries is the
parameter `order`. -/
def destroyOriginals (order : OriginalNodes → OriginalNodes) (arnold : Universe)
    (originalNodes : OriginalNodes) : Universe :=
  (order originalNodes).foldl (fun u e => AiNodeDestroy u e.2) arnold

/-- The value `nodes.size() && reusedNodes.count( nodes.back() )`. -/
def lastReused (nodes reusedNodes : List Nat) : Bool :=
  match nodes.getLast? with
  | none => false
  | some last => decide (last ∈ reusedNodes)

/-- The state the node creator of `update` starts from. -/
def startOf (arnold : Universe) (nodes : List Nat) : UpdateState where
  arnold := arnold
  originalNodes := collectOriginals arnold nodes
  reusedNodes := []

/-- What `update` has in hand when it returns: the result, the vector `nodes`,
the universe and the set `reusedNodes`. -/
structure Updated where
  result : Bool
  nodes : List Nat
  arnold : Universe
  reusedNodes : List Nat

/-- The body of `update( nodes, shaderNetwork )`. -/
def updateNodes (order : OriginalNodes → OriginalNodes) (loads : String → Bool) (fuel : Nat)
    (nodes : List Nat) (shaderNetwork : ShaderNetwork) (arnold : Universe) :
    Except Failure Updated :=
  match nodes.getLast? with
  | none => .ok { result := false, nodes := nodes, arnold := arnold, reusedNodes := [] }
  | some last =>
    let name := AiNodeGetName arnold last
    match convertWalk (updateCreator loads) shaderNetwork name fuel shaderNetwork.output
        (emptyWalk (startOf arnold nodes)) with
    | .error f => .error f
    | .ok (_, st) =>
      .ok
        { result := lastReused st.nodes st.arnold.reusedNodes
          nodes := st.nodes
          arnold := destroyOriginals order st.arnold.arnold st.arnold.originalNodes
          reusedNodes := st.arnold.reusedNodes }

/-- `update( nodes, shaderNetwork )`: the value returned, the vector `nodes` as
it is left, and the universe. -/
def update (order : OriginalNodes → OriginalNodes) (loads : String → Bool) (fuel : Nat)
    (nodes : List Nat) (shaderNetwork : ShaderNetwork) (arnold : Universe) :
    Except Failure (Bool × List Nat × Universe) :=
  match updateNodes order loads fuel nodes shaderNetwork arnold with
  | .error f => .error f
  | .ok r => .ok (r.result, r.nodes, r.arnold)

/-! ## Networks without cycles -/

/-- One shader reads another: a connection leads from the second to the first. -/
def dependsOn (net : ShaderNetwork) (a b : String) : Prop :=
  ∃ c ∈ net.connections, c.destination.shader = a ∧ c.source.shader = b

/-- No shader reads itself, directly or through other shaders. -/
def Acyclic (net : ShaderNetwork) : Prop :=
  ∀ handle, ¬ Relation.TransGen (dependsOn net) handle handle

/-- Every shader of the network has a node entry. -/
def AllLoad (loads : String → Bool) (net : ShaderNetwork) : Prop :=
  ∀ e ∈ net.shaders, loads (nodeTypeOf e.2) = true

/-- Every parameter a walk can be asked for names a shader of the network. -/
def WellFormed (net : ShaderNetwork) : Prop :=
  ∀ p ∈ reachable net, net.getShader p.shader ≠ none

/-- The first node comes before the second in the list. -/
def Before (a b : Nat) (l : List Nat) : Prop :=
  a ∈ l ∧ b ∈ l ∧ l.indexOf a < l.indexOf b

/-- The node recorded for a parameter. -/
def nodeOf (net : ShaderNetwork) (m : ShaderMap) (p : Parameter) : Option Nat :=
  (lookupKey (keyOf net p) m).join

/-- What holds of the state of a walk that `convert` runs with every shader
loading, `base` being the number of nodes the universe held before: the keys
are distinct, the nodes recorded for them are the nodes created since, in
order, the list holds no node twice and only such nodes, and every node in
the list comes after the node of the source of each of its input connections,
unless the shader of that source reads itself through a chain of
connections. -/
structure WalkInv (net : ShaderNetwork) (base : Nat) (st : WalkState Universe) : Prop where
  keys : (keysOf st.converted).Nodup
  base_le : base ≤ st.arnold.created.length
  values : st.converted.map (fun e => e.2) =
    (List.range' base (st.arnold.created.length - base)).map some
  nodup : st.nodes.Nodup
  bounds : ∀ nd ∈ st.nodes, base ≤ nd ∧ nd < st.arnold.created.length
  ordered : ∀ k nd, (k, some nd) ∈ st.converted → nd ∈ st.nodes →
    ∀ c ∈ net.connections, c.destination.shader = k.1 →
      ∃ ns, (keyOf net c.source, some ns) ∈ st.converted ∧
        (Before ns nd st.nodes ∨
          Relation.TransGen (dependsOn net) c.source.shader c.source.shader)

/-- The second state of a walk comes after the first: map and list have only
grown at the end, by nodes created in between, and every key whose node is
not in the list yet was already so in the first state. -/
structure Extends (st st1 : WalkState Universe) : Prop where
  converted : st.converted <+: st1.converted
  nodes : st.nodes <+: st1.nodes
  created : st.arnold.created.length ≤ st1.arnold.created.length
  fresh : ∀ nd ∈ st1.nodes, nd ∈ st.nodes ∨ st.arnold.created.length ≤ nd
  started : ∀ k nd, (k, some nd) ∈ st1.converted → nd ∉ st1.nodes →
    (k, some nd) ∈ st.converted ∧ nd ∉ st.nodes

/-- What holds of the state behind the node creator of `update` for any nodes
it was called with: the universe has lost no node, `originalNodes` holds
original nodes under their names, and `reusedNodes` holds original nodes. -/
structure UpdateSound (u : Universe) (nodes : List Nat) (s : UpdateState) : Prop where
  created : u.created.length ≤ s.arnold.created.length
  originals : ∀ e ∈ s.originalNodes, e.2 ∈ nodes ∧ e.1 = AiNodeGetName u e.2
  reused : ∀ n ∈ s.reusedNodes, n ∈ nodes

/-- What holds of the state behind the node creator of `update` when the
nodes it was called with have names of their own: the universe has lost no
node, and each of the original nodes is, once, either still in
`originalNodes`, or in `reusedNodes`, or among the nodes destroyed since. -/
structure UpdateInv (u : Universe) (nodes : List Nat) (s : UpdateState) : Prop where
  created : u.created.length ≤ s.arnold.created.length
  partition : ∃ D, s.arnold.destroyed = u.destroyed ++ D ∧
    (s.originalNodes.map (fun e => e.2) ++ s.reusedNodes ++ D).Perm nodes

/-! ## Further example networks -/

/-- A network without a cycle: a surface reading an OSL pattern through two
of its outputs and a tint, and the pattern reading the tint. -/
def layeredNetwork : ShaderNetwork where
  shaders :=
    [("surface", ⟨"standard_surface", "ai:surface", []⟩),
      ("pattern", ⟨"noise", "osl:shader", []⟩), ("tint", ⟨"flat", "ai:shader", []⟩)]
  connections :=
    [⟨⟨"pattern", "out.r"⟩, ⟨"surface", "base"⟩⟩, ⟨⟨"pattern", "out.g"⟩, ⟨"surface", "specular"⟩⟩,
      ⟨⟨"pattern", "alt"⟩, ⟨"surface", "coat"⟩⟩,
      ⟨⟨"tint", "out"⟩, ⟨"surface", "base_color"⟩⟩, ⟨⟨"tint", "out.r"⟩, ⟨"pattern", "gain"⟩⟩]
  output := ⟨"surface", "out"⟩

/-- A network of one shader that carries one entry of blind data. -/
def taggedNetwork : ShaderNetwork where
  shaders := [("surface", ⟨"my_surface", "ai:surface", ["user:tag"]⟩)]
  connections := []
  output := ⟨"surface", "out"⟩

/-- Node entries: every type loads except `my_surface`. -/
def withoutMySurface (nodeType : String) : Bool :=
  nodeType ≠ "my_surface"

/-- Node entries: every type loads. -/
def everything (_nodeType : String) : Bool :=
  true

/-- An empty universe. -/
def emptyUniverse : Universe where
  created := []
  destroyed := []

/-- The universe `convert` leaves for `layeredNetwork` under the name
`shader`: the surface, the two nodes of the pattern and the tint. -/
def layeredUniverse : Universe where
  created :=
    [⟨"standard_surface", "shader"⟩, ⟨"osl", "shader:pattern:out"⟩, ⟨"flat", "shader:tint"⟩,
      ⟨"osl", "shader:pattern:alt"⟩]
  destroyed := []

/-- A universe of two nodes that carry one name. -/
def sameNameUniverse : Universe where
  created := [⟨"osl", "shader:out"⟩, ⟨"flat", "shader:out"⟩]
  destroyed := []

/-- A network of one surface and one tint, both of which `layeredNetwork` has
too. -/
def plainNetwork : ShaderNetwork where
  shaders :=
    [("surface", ⟨"standard_surface", "ai:surface", []⟩), ("tint", ⟨"flat", "ai:shader", []⟩)]
  connections := [⟨⟨"tint", "out"⟩, ⟨"surface", "base_color"⟩⟩]
  output := ⟨"surface", "out"⟩

end IECoreArnold

/-! ## Theorems -/

namespace Gaffer

theorem Context.find_set_same (c : Context) (k : String) (v : Int) :
    Context.find (Context.set c k v) k = some v := by
  induction c with
  | nil => simp [Context.set, Context.find]
  | cons e rest ih =>
    obtain ⟨k0, v0⟩ := e
    by_cases hk : k0 = k
    · simp [Context.set, Context.find, hk]
    · simp [Context.set, Context.find, hk, ih]

theorem Context.find_set_other (c : Context) (k : String) (v : Int) (k' : String)
    (h : k' ≠ k) : Context.find (Context.set c k v) k' = Context.find c k' := by
  induction c with
  | nil => simp [Context.set, Context.find, Ne.symm h]
  | cons e rest ih =>
    obtain ⟨k0, v0⟩ := e
    by_cases hk : k0 = k
    · subst hk
      simp [Context.set, Context.find, Ne.symm h]
    · by_cases hk' : k0 = k'
      · subst hk'
        simp [Context.set, Context.find, hk]
      · simp [Context.set, Context.find, hk, hk', ih]

theorem Context.set_set (c : Context) (k : String) (v w : Int) :
    Context.set (Context.set c k v) k w = Context.set c k w := by
  induction c with
  | nil => simp [Context.set]
  | cons e rest ih =>
    obtain ⟨k0, v0⟩ := e
    by_cases hk : k0 = k
    · simp [Context.set, hk]
    · simp [Context.set, hk, ih]

theorem Context.get_set_same (c : Context) (k : String) (v d : Int) :
    Context.get (Context.set c k v) k d = v := by
  simp [Context.get, Context.find_set_same]

namespace Loop

theorem current_scopeEnter (c : Context) (stack : List Context) :
    current (scopeEnter c stack) = c := rfl

theorem scopeExit_scopeEnter (c : Context) (stack : List Context) :
    scopeExit (scopeEnter c stack) = stack := rfl

theorem ancestorPlug_append_fst (n : Loop) (s : List Nat) (i : Nat) (acc : List String) :
    (n.ancestorPlug (s ++ [i]) acc).1 = some [i] := by
  induction s generalizing acc with
  | nil => simp [ancestorPlug]
  | cons x s ih =>
    cases s with
    | nil => simp [ancestorPlug]
    | cons y s => simpa [ancestorPlug] using ih _

theorem descendantWalk_some_suffix (n : Loop) (names : List String) (a q : Path)
    (h : n.descendantWalk (some a) names = .ok (some q)) : ∃ s : List Nat, q = s ++ a := by
  induction names generalizing a with
  | nil =>
    simp [descendantWalk] at h
    exact ⟨[], by simp [h]⟩
  | cons name rest ih =>
    rw [descendantWalk] at h
    cases hc : n.getChild a name with
    | none =>
      rw [hc] at h
      cases rest <;> simp [descendantWalk] at h
    | some c =>
      rw [hc] at h
      obtain ⟨s, hs⟩ := ih c h
      have hca : ∃ i, c = i :: a := by
        unfold getChild at hc
        split at hc
        · simp at hc
        · split at hc
          · simp at hc
          · split at hc
            · simp at hc
              exact ⟨_, hc.symm⟩
            · simp at hc
      obtain ⟨i, hi⟩ := hca
      exact ⟨s ++ [i], by simp [hs, hi]⟩

theorem getChildAt_cases (n : Loop) (k : Nat) : n.getChildAt k = none ∨ n.getChildAt k = some [k] := by
  unfold getChildAt
  split <;> simp

theorem inPlugInternal_cases (n : Loop) :
    n.inPlugInternal = none ∨ n.inPlugInternal = some [n.m_inPlugIndex] := by
  unfold inPlugInternal
  split
  · exact getChildAt_cases n _
  · exact Or.inl rfl

theorem descendantPlug_in_ancestor (n : Loop) (r : List String) (q : Path)
    (h : n.descendantPlug n.inPlugInternal r = .ok (some q)) :
    (n.ancestorPlug q []).1 = n.inPlugInternal := by
  rcases inPlugInternal_cases n with hin | hin
  · rw [hin] at h
    unfold descendantPlug at h
    cases hr : r.reverse with
    | nil => rw [hr] at h; simp [descendantWalk] at h
    | cons x xs => rw [hr] at h; simp [descendantWalk] at h
  · rw [hin] at h ⊢
    obtain ⟨s, hs⟩ := descendantWalk_some_suffix n _ _ q h
    rw [hs]
    exact ancestorPlug_append_fst n s _ []

theorem replayHash_hashOf {H V : Type} (E : Engine H V) (h : H)
    (t : Except Failure PlugPtr) (c : Context) :
    replayHash E h (hashOf recorder t c) = hashOf E t c := by
  rcases t with f | (_ | q) <;> rfl

theorem replayValue_setFrom {H V : Type} (E : Engine H V)
    (t : Except Failure PlugPtr) (c : Context) :
    replayValue E (setFrom recorder t c) = setFrom E t c := by
  rcases t with f | (_ | q) <;> rfl

theorem hashOf_recorder_eq_setFrom (t : Except Failure PlugPtr) (c : Context) :
    hashOf recorder t c = setFrom recorder t c := by
  rcases t with f | (_ | q) <;> rfl

/-- C5: `hash` and `compute` consult the same thing. Against an engine that
records each request, both return the same record (the upstream plug with the
context it is read under, or the delegation to the base type) and leave the
same scopes; and for every engine the result of either is the engine's answer
to that record. -/
theorem hash_compute_consult_same (n : Loop) (p : Path) (ctx : Context) (stack : List Context) :
    (∀ h : Consulted, n.hash recorder p ctx h stack = n.compute recorder p ctx stack) ∧
    (∀ (H V : Type) (E : Engine H V) (h : H) (h0 : Consulted),
      (n.hash E p ctx h stack).1 = replayHash E h (n.hash recorder p ctx h0 stack).1) ∧
    (∀ (H V : Type) (E : Engine H V),
      (n.compute E p ctx stack).1 = replayValue E (n.compute recorder p ctx stack).1) := by
  refine ⟨?_, ?_, ?_⟩
  · intro h
    unfold hash compute
    simp only [hashOf_recorder_eq_setFrom]
    split_ifs <;> rfl
  · intro H V E h h0
    unfold hash
    simp only
    split_ifs
    · simp [replayHash_hashOf]
    · simp [replayHash_hashOf]
    · cases n.iterationsValue with
      | error f => simp [replayHash]
      | ok N => simp only; split_ifs <;> simp [replayHash_hashOf]
    · simp [replayHash, recorder]
  · intro H V E
    unfold compute
    simp only
    split_ifs
    · simp [replayValue_setFrom]
    · simp [replayValue_setFrom]
    · cases n.iterationsValue with
      | error f => simp [replayValue]
      | ok N => simp only; split_ifs <;> simp [replayValue_setFrom]
    · simp [replayValue, recorder]

end Loop

namespace Loop

theorem Configured.nextPlug_eq {n : Loop} (hc : Configured n) :
    n.nextPlug = some [n.m_firstPlugIndex] := by
  have h1 := hc.first_le
  have h2 := hc.in_lt_first
  have h3 : n.m_firstPlugIndex ≠ 0 := by omega
  have h4 : n.m_firstPlugIndex < n.children.length := by omega
  simp [nextPlug, getChildAt, h3, h4]

theorem Configured.previousPlug_eq {n : Loop} (hc : Configured n) :
    n.previousPlug = some [n.m_firstPlugIndex + 1] := by
  have h1 := hc.first_le
  have h2 := hc.in_lt_first
  have h3 : n.m_firstPlugIndex ≠ 0 := by omega
  have h4 : n.m_firstPlugIndex + 1 < n.children.length := by omega
  simp [previousPlug, getChildAt, h3, h4]

theorem Configured.iterationsPlug_eq {n : Loop} (hc : Configured n) :
    n.iterationsPlug = some [n.m_firstPlugIndex + 2] := by
  have h1 := hc.first_le
  have h2 := hc.in_lt_first
  have h3 : n.m_firstPlugIndex ≠ 0 := by omega
  have h4 : n.m_firstPlugIndex + 2 < n.children.length := by omega
  simp [iterationsPlug, getChildAt, h3, h4]

theorem Configured.inPlugInternal_eq {n : Loop} (hc : Configured n) :
    n.inPlugInternal = some [n.m_inPlugIndex] := by
  have h1 := hc.first_le
  have h2 := hc.in_lt_first
  have h4 : n.m_inPlugIndex < n.children.length := by omega
  simp [inPlugInternal, getChildAt, hc.inIndex_ne_zero, h4]

theorem Configured.outPlugInternal_eq {n : Loop} (hc : Configured n) :
    n.outPlugInternal = some [n.m_outPlugIndex] := by
  have h1 := hc.first_le
  have h2 := hc.out_lt_first
  have h4 : n.m_outPlugIndex < n.children.length := by omega
  simp [outPlugInternal, getChildAt, hc.outIndex_ne_zero, h4]

theorem evaluate_in {V : Type} (n : Loop) (hc : Configured n) (W : Wiring V) (fuel : Nat)
    (c : Context) (v : V) (hin : W.inValue [n.m_inPlugIndex] c = .ok v) :
    evaluate n W (fuel + 1) [n.m_inPlugIndex] c = .ok (v, [([n.m_inPlugIndex], c)]) := by
  have h1 := hc.in_lt_first
  have hne : n.m_inPlugIndex ≠ n.m_firstPlugIndex := by omega
  simp [evaluate, ancestorPlug, hc.nextPlug_eq, hc.inPlugInternal_eq, hne, hin]

theorem evaluate_previous_zero {V : Type} (n : Loop) (hc : Configured n) (W : Wiring V)
    (fuel : Nat) (ctx : Context) (v : V)
    (hin : W.inValue [n.m_inPlugIndex] (Context.set ctx "loop:index" 0) = .ok v) :
    evaluate n W (fuel + 2) [n.m_firstPlugIndex + 1] (Context.set ctx "loop:index" 0) =
      .ok (v, [([n.m_firstPlugIndex + 1], Context.set ctx "loop:index" 0),
        ([n.m_inPlugIndex], Context.set ctx "loop:index" 0)]) := by
  have h1 := hc.in_lt_first
  have hne : n.m_firstPlugIndex + 1 ≠ n.m_inPlugIndex := by omega
  rw [evaluate]
  simp [ancestorPlug, hc.nextPlug_eq, hc.inPlugInternal_eq, hne, compute, hc.previousPlug_eq,
    Context.get_set_same, descendantPlug, descendantWalk, setFrom, engineFrom, current,
    evaluate_in n hc, hin]

theorem evaluate_next {V : Type} (n : Loop) (hc : Configured n) (W : Wiring V)
    (ctx : Context) (v : V)
    (hin : W.inValue [n.m_inPlugIndex] (Context.set ctx "loop:index" 0) = .ok v)
    (k : Nat) : ∀ fuel : Nat, 2 * k + 3 ≤ fuel →
      evaluate n W fuel [n.m_firstPlugIndex] (Context.set ctx "loop:index" (k : Int)) =
        .ok (W.body^[k + 1] v, nextLog n ctx k) := by
  induction k with
  | zero =>
    intro fuel hf
    obtain ⟨m, rfl⟩ : ∃ m, fuel = m + 3 := ⟨fuel - 3, by omega⟩
    rw [evaluate]
    simp [ancestorPlug, hc.nextPlug_eq, hc.previousPlug_eq, descendantPlug, descendantWalk,
      evaluate_previous_zero n hc W m ctx v hin, nextLog]
  | succ k ih =>
    intro fuel hf
    obtain ⟨m, rfl⟩ : ∃ m, fuel = m + 2 := ⟨fuel - 2, by omega⟩
    have h1 := hc.in_lt_first
    have hne : n.m_firstPlugIndex + 1 ≠ n.m_inPlugIndex := by omega
    have hk : (1 : Int) ≤ ((k + 1 : Nat) : Int) := by omega
    have hk' : (1 : Int) ≤ (k : Int) + 1 := by omega
    have ihm := ih m (by omega)
    rw [evaluate]
    simp only [ancestorPlug, hc.nextPlug_eq, if_true, descendantPlug, hc.previousPlug_eq,
      List.reverse_nil, descendantWalk]
    rw [evaluate]
    simp [ancestorPlug, hc.nextPlug_eq, hc.inPlugInternal_eq, hne, compute, hc.previousPlug_eq,
      Context.get_set_same, descendantPlug, descendantWalk, setFrom, engineFrom, current,
      scopeEnter, hk', Context.set_set, ihm, nextLog, Function.iterate_succ_apply']


theorem compute_out_zero {V : Type} (n : Loop) (hc : Configured n) (W : Wiring V)
    (ctx : Context) (v : V) (fuel : Nat)
    (hN : n.iterationsValue = .ok 0)
    (hin : W.inValue [n.m_inPlugIndex] ctx = .ok v) :
    (n.compute (engineFrom W (evaluate n W (fuel + 1))) [n.m_outPlugIndex] ctx [ctx]).1 =
      .ok (v, [([n.m_inPlugIndex], ctx)]) := by
  have h1 := hc.out_lt_first
  have hne : n.m_outPlugIndex ≠ n.m_firstPlugIndex + 1 := by omega
  simp [compute, ancestorPlug, hc.previousPlug_eq, hc.outPlugInternal_eq, hne, hN,
    hc.inPlugInternal_eq, descendantPlug, descendantWalk, setFrom, engineFrom, current,
    evaluate_in n hc W fuel ctx v hin]

theorem compute_out_succ {V : Type} (n : Loop) (hc : Configured n) (W : Wiring V)
    (ctx : Context) (v : V) (fuel k : Nat)
    (hN : n.iterationsValue = .ok ((k + 1 : Nat) : Int))
    (hin : W.inValue [n.m_inPlugIndex] (Context.set ctx "loop:index" 0) = .ok v)
    (hfuel : 2 * k + 3 ≤ fuel) :
    (n.compute (engineFrom W (evaluate n W fuel)) [n.m_outPlugIndex] ctx [ctx]).1 =
      .ok (W.body^[k + 1] v, nextLog n ctx k) := by
  have h1 := hc.out_lt_first
  have hne : n.m_outPlugIndex ≠ n.m_firstPlugIndex + 1 := by omega
  have hk : ((k + 1 : Nat) : Int) ≠ 0 := by omega
  have hk' : ((k + 1 : Nat) : Int) - 1 = (k : Int) := by omega
  have hev := evaluate_next n hc W ctx v hin k fuel hfuel
  simp only [compute, ancestorPlug, hc.previousPlug_eq, hc.outPlugInternal_eq, hN, hk, hk',
    hc.nextPlug_eq, descendantPlug, descendantWalk, setFrom, engineFrom, current, scopeEnter,
    List.reverse_nil, List.headD_cons, if_false, if_true]
  simp [hne, hev]

/-- C1, amended: on a configured node whose `iterations` holds `N ≥ 0`, with a
body `W.body` that reads `previous` under the context it is asked in, and with
enough fuel, `compute(out, ctx)` gives `W.body` applied exactly `N` times to the
value of `in`; that value is read under `ctx` itself when `N = 0` and under
`ctx` with `loop:index` set to 0 when `N ≥ 1`. -/
theorem compute_out_iterates {V : Type} (n : Loop) (hc : Configured n) (W : Wiring V)
    (ctx : Context) (N : Nat) (v : V) (fuel : Nat)
    (hN : n.iterationsValue = .ok (N : Int))
    (hin : W.inValue [n.m_inPlugIndex]
      (if N = 0 then ctx else Context.set ctx "loop:index" 0) = .ok v)
    (hfuel : 2 * N + 1 ≤ fuel) :
    ∃ log : List (Path × Context),
      (n.compute (engineFrom W (evaluate n W fuel)) [n.m_outPlugIndex] ctx [ctx]).1 =
        .ok (W.body^[N] v, log) := by
  cases N with
  | zero =>
    obtain ⟨m, rfl⟩ : ∃ m, fuel = m + 1 := ⟨fuel - 1, by omega⟩
    exact ⟨_, compute_out_zero n hc W ctx v m (by simpa using hN) (by simpa using hin)⟩
  | succ k =>
    exact ⟨_, compute_out_succ n hc W ctx v fuel k hN (by simpa using hin) (by omega)⟩

theorem scalarLoop_configured (N : Int) : Configured (scalarLoop N) :=
  ⟨by simp [scalarLoop], by simp [scalarLoop], by simp [scalarLoop], by simp [scalarLoop],
    by simp [scalarLoop], by simp [scalarLoop]⟩

/-- Witness for C1: `in` holding 5 and a body adding 1 give 8 after 3
iterations and 5 after none. -/
theorem compute_out_iterates_witness :
    (∃ log : List (Path × Context),
      ((scalarLoop 3).compute (engineFrom addOneWiring (evaluate (scalarLoop 3) addOneWiring 7))
        [2] [("frame", 1)] [[("frame", 1)]]).1 = .ok ((8 : Int), log)) ∧
    (∃ log : List (Path × Context),
      ((scalarLoop 0).compute (engineFrom addOneWiring (evaluate (scalarLoop 0) addOneWiring 1))
        [2] [("frame", 1)] [[("frame", 1)]]).1 = .ok ((5 : Int), log)) :=
  ⟨compute_out_iterates (scalarLoop 3) (scalarLoop_configured 3) addOneWiring [("frame", 1)] 3 5 7
      rfl rfl (by decide),
    compute_out_iterates (scalarLoop 0) (scalarLoop_configured 0) addOneWiring [("frame", 1)] 0 5 1
      rfl rfl (by decide)⟩

/-- Counterexample for C1 as stated: with one iteration, a context whose
`loop:index` is 7 and an `in` whose value is the `loop:index` it is read under,
`in` under the context is 7, yet `compute(out)` is not the body applied to 7:
`in` is read with `loop:index` equal to 0. -/
theorem compute_out_in_context_counterexample :
    indexReadingWiring.inValue [1] [("loop:index", 7)] = .ok 7 ∧
    ¬ ∃ log : List (Path × Context),
      ((scalarLoop 1).compute
        (engineFrom indexReadingWiring (evaluate (scalarLoop 1) indexReadingWiring 3))
        [2] [("loop:index", 7)] [[("loop:index", 7)]]).1 =
          .ok (indexReadingWiring.body^[1] 7, log) := by
  refine ⟨rfl, ?_⟩
  rintro ⟨log, h⟩
  have h2 : ((scalarLoop 1).compute
        (engineFrom indexReadingWiring (evaluate (scalarLoop 1) indexReadingWiring 3))
        [2] [("loop:index", 7)] [[("loop:index", 7)]]).1
      = .ok ((1 : Int), [([3], [("loop:index", 0)]), ([4], [("loop:index", 0)]),
          ([1], [("loop:index", 0)])]) := rfl
  rw [h2] at h
  simp only [Except.ok.injEq, Prod.mk.injEq] at h
  exact absurd h.1 (by decide)

end Loop

namespace Loop

theorem nextLog_previous {n : Loop} (hc : Configured n) (ctx : Context) (k : Nat) :
    ((nextLog n ctx k).filter (fun e => e.1 = [n.m_firstPlugIndex + 1])).map
        (fun e => Context.find e.2 "loop:index") =
      (List.range (k + 1)).reverse.map (fun i => some (i : Int)) := by
  have h1 := hc.in_lt_first
  have hne : n.m_inPlugIndex ≠ n.m_firstPlugIndex + 1 := by omega
  induction k with
  | zero =>
    simp [nextLog, hne, Context.find_set_same]
    rfl
  | succ k ih =>
    rw [List.range_succ, List.reverse_append]
    simp only [nextLog]
    simp [Context.find_set_same] at ih ⊢
    exact ih

theorem nextLog_next {n : Loop} (hc : Configured n) (ctx : Context) (k : Nat) :
    ((nextLog n ctx k).filter (fun e => e.1 = [n.m_firstPlugIndex])).length = k + 1 := by
  have h1 := hc.in_lt_first
  have hne : n.m_inPlugIndex ≠ n.m_firstPlugIndex := by omega
  induction k with
  | zero => simp [nextLog, hne]
  | succ k ih => simp [nextLog] at ih ⊢; exact ih

theorem nextLog_in {n : Loop} (hc : Configured n) (ctx : Context) (k : Nat) :
    ((nextLog n ctx k).filter (fun e => e.1 = [n.m_inPlugIndex])).length = 1 := by
  have h1 := hc.in_lt_first
  have hne : n.m_firstPlugIndex ≠ n.m_inPlugIndex := by omega
  have hne' : n.m_firstPlugIndex + 1 ≠ n.m_inPlugIndex := by omega
  induction k with
  | zero => simp [nextLog, hne, hne']
  | succ k ih => simp [nextLog, hne, hne'] at ih ⊢; exact ih

theorem nextLog_getLast (n : Loop) (ctx : Context) (k : Nat) :
    (nextLog n ctx k).getLast? = some ([n.m_inPlugIndex], Context.set ctx "loop:index" 0) := by
  induction k with
  | zero => simp [nextLog]
  | succ k ih =>
    cases hk : nextLog n ctx k with
    | nil => rw [hk] at ih; simp at ih
    | cons e es =>
      rw [hk] at ih
      simp only [nextLog, hk]
      simpa [List.getLast?_cons_cons] using ih

theorem evaluate_out {V : Type} (n : Loop) (hc : Configured n) (W : Wiring V) (fuel : Nat)
    (ctx : Context) (v : V) (log : List (Path × Context))
    (h : (n.compute (engineFrom W (evaluate n W fuel)) [n.m_outPlugIndex] ctx [ctx]).1 =
      .ok (v, log)) :
    evaluate n W (fuel + 1) [n.m_outPlugIndex] ctx = .ok (v, ([n.m_outPlugIndex], ctx) :: log) := by
  have h1 := hc.out_lt_first
  have hne : n.m_outPlugIndex ≠ n.m_firstPlugIndex := by omega
  have hne' : n.m_outPlugIndex ≠ n.m_inPlugIndex := Ne.symm hc.in_ne_out
  rw [evaluate]
  simp only [ancestorPlug, hc.nextPlug_eq, hc.inPlugInternal_eq]
  simp [hne, hne', h]

/-- C6: on a configured node whose `iterations` holds `N ≥ 0`, evaluating `out`
with fuel `2 * N + 2` or more returns. The requests for `previous` carry
`loop:index` values `N - 1, ..., 0` in this order, `next` (the body) is
requested exactly `N` times, and `in` is requested once, as the last request
of all, so nothing re-enters `next` or `previous` after a base case. -/
theorem evaluate_out_terminates {V : Type} (n : Loop) (hc : Configured n) (W : Wiring V)
    (ctx : Context) (N : Nat) (v : V) (fuel : Nat)
    (hN : n.iterationsValue = .ok (N : Int))
    (hin : W.inValue [n.m_inPlugIndex]
      (if N = 0 then ctx else Context.set ctx "loop:index" 0) = .ok v)
    (hfuel : 2 * N + 2 ≤ fuel) :
    ∃ log : List (Path × Context),
      evaluate n W fuel [n.m_outPlugIndex] ctx = .ok (W.body^[N] v, log) ∧
      (log.filter (fun e => e.1 = [n.m_firstPlugIndex + 1])).map
          (fun e => Context.find e.2 "loop:index") =
        (List.range N).reverse.map (fun i => some (i : Int)) ∧
      (log.filter (fun e => e.1 = [n.m_firstPlugIndex])).length = N ∧
      (log.filter (fun e => e.1 = [n.m_inPlugIndex])).length = 1 ∧
      log.getLast? = some ([n.m_inPlugIndex],
        if N = 0 then ctx else Context.set ctx "loop:index" 0) := by
  have h1 := hc.out_lt_first
  have h2 := hc.in_lt_first
  have hne1 : n.m_outPlugIndex ≠ n.m_firstPlugIndex := by omega
  have hne2 : n.m_outPlugIndex ≠ n.m_firstPlugIndex + 1 := by omega
  have hne3 : n.m_outPlugIndex ≠ n.m_inPlugIndex := Ne.symm hc.in_ne_out
  obtain ⟨m, rfl⟩ : ∃ m, fuel = m + 1 := ⟨fuel - 1, by omega⟩
  cases N with
  | zero =>
    obtain ⟨m', rfl⟩ : ∃ m', m = m' + 1 := ⟨m - 1, by omega⟩
    refine ⟨_, evaluate_out n hc W _ ctx v _
      (compute_out_zero n hc W ctx v m' (by simpa using hN) (by simpa using hin)), ?_⟩
    simp [hne1, hne2, hne3]
    constructor <;> omega
  | succ k =>
    refine ⟨_, evaluate_out n hc W _ ctx _ _
      (compute_out_succ n hc W ctx v m k hN (by simpa using hin) (by omega)), ?_, ?_, ?_, ?_⟩
    · rw [List.filter_cons_of_neg (by simpa using hne2)]
      exact nextLog_previous hc ctx k
    · rw [List.filter_cons_of_neg (by simpa using hne1)]
      exact nextLog_next hc ctx k
    · rw [List.filter_cons_of_neg (by simpa using hne3)]
      exact nextLog_in hc ctx k
    · cases hk : nextLog n ctx k with
      | nil => have := nextLog_getLast n ctx k; rw [hk] at this; simp at this
      | cons e es =>
        have := nextLog_getLast n ctx k
        rw [hk] at this
        simpa [List.getLast?_cons_cons] using this

end Loop

theorem walk_cons_cons (cs : List Plug) (i j : Nat) (rest : List Nat) :
    walk cs (i :: j :: rest) = (cs[i]?).bind (fun c => walk c.children (j :: rest)) := by
  rw [walk]
  cases cs[i]? <;> rfl

theorem walk_append_singleton (cs : List Plug) (l : List Nat) (x : Nat) (hl : l ≠ []) :
    walk cs (l ++ [x]) = (walk cs l).bind (fun P => P.children[x]?) := by
  induction l generalizing cs with
  | nil => exact absurd rfl hl
  | cons i l ih =>
    cases l with
    | nil =>
      simp only [List.singleton_append, walk_cons_cons, walk]
      cases cs[i]? <;> rfl
    | cons j l =>
      have := fun cs => ih cs (by simp)
      simp only [List.cons_append, walk_cons_cons] at this ⊢
      cases cs[i]? with
      | none => rfl
      | some c => simpa using this c.children

namespace Loop

theorem plugAt_cons (n : Loop) (x : Nat) (parent : Path) :
    n.plugAt (x :: parent) = (n.childrenOf parent)[x]? := by
  cases parent with
  | nil => simp [plugAt, childrenOf, walk]
  | cons y ys =>
    have hne : (y :: ys).reverse ≠ [] := by simp
    simp only [plugAt, List.reverse_cons x, walk_append_singleton _ _ x hne, childrenOf]
    cases walk n.children (y :: ys).reverse <;> simp

theorem ancestorPlug_acc (n : Loop) (p : Path) (acc : List String) :
    n.ancestorPlug p acc = ((n.ancestorPlug p []).1, acc ++ (n.ancestorPlug p []).2) := by
  induction p generalizing acc with
  | nil => simp [ancestorPlug]
  | cons x p ih =>
    cases p with
    | nil => simp [ancestorPlug]
    | cons y p =>
      rw [ancestorPlug, ih, ancestorPlug, ih ([] ++ [n.getName (x :: y :: p)])]
      simp

theorem ancestorPlug_cons_snd (n : Loop) (x y : Nat) (p : Path) :
    (n.ancestorPlug (x :: y :: p) []).2 =
      n.getName (x :: y :: p) :: (n.ancestorPlug (y :: p) []).2 := by
  rw [ancestorPlug, ancestorPlug_acc]
  simp

theorem descendantWalk_append (n : Loop) (a : PlugPtr) (l1 l2 : List String) (q : Path)
    (h : n.descendantWalk a l1 = .ok (some q)) :
    n.descendantWalk a (l1 ++ l2) = n.descendantWalk (some q) l2 := by
  induction l1 generalizing a with
  | nil =>
    simp [descendantWalk] at h
    simp [h]
  | cons name rest ih =>
    cases a with
    | none => simp [descendantWalk] at h
    | some p =>
      rw [descendantWalk] at h
      simp only [List.cons_append, descendantWalk]
      exact ih _ h

end Loop

namespace Loop

/-- C10, amended: when every step of the relative name but the last one leads
to a plug and the child named by the last step is absent, `descendantPlug`
returns the null pointer; it reports no failure. -/
theorem descendantPlug_missing_last (n : Loop) (plug : PlugPtr) (name : String)
    (rest : List String) (q : Path)
    (h : n.descendantPlug plug rest = .ok (some q))
    (hmiss : n.getChild q name = none) :
    n.descendantPlug plug (name :: rest) = .ok none := by
  unfold descendantPlug at h ⊢
  rw [List.reverse_cons, descendantWalk_append n plug _ [name] q h]
  simp [descendantWalk, hmiss]

/-- Witness for C10: `out.b` has no child `zz`. -/
theorem descendantPlug_missing_last_witness :
    (structuredLoop 3).descendantPlug (some [2]) ["b"] = .ok (some [1, 2]) ∧
    (structuredLoop 3).getChild [1, 2] "zz" = none ∧
    (structuredLoop 3).descendantPlug (some [2]) ["zz", "b"] = .ok none :=
  ⟨rfl, rfl, descendantPlug_missing_last (structuredLoop 3) (some [2]) "zz" ["b"] [1, 2] rfl rfl⟩

/-- Counterexample for C10 as stated: `out` has no child `zz`, and navigating
to it ends without any failure. -/
theorem descendantPlug_missing_counterexample :
    (structuredLoop 3).getChild [2] "zz" = none ∧
    ¬ ∃ f : Failure, (structuredLoop 3).descendantPlug (some [2]) ["zz"] = .error f := by
  refine ⟨rfl, ?_⟩
  rintro ⟨f, hf⟩
  have h : (structuredLoop 3).descendantPlug (some [2]) ["zz"] = .ok none := rfl
  rw [h] at hf
  cases hf

theorem descendantPlug_missing_inner (n : Loop) (plug : PlugPtr) (name : String)
    (rest above : List String) (q : Path) (habove : above ≠ [])
    (h : n.descendantPlug plug rest = .ok (some q))
    (hmiss : n.getChild q name = none) :
    n.descendantPlug plug (above ++ name :: rest) = .error .nullDereference := by
  unfold descendantPlug at h ⊢
  rw [List.reverse_append, List.reverse_cons, List.append_assoc,
    descendantWalk_append n plug _ _ q h]
  cases hr : above.reverse with
  | nil => simp at hr; exact absurd hr habove
  | cons x xs => simp [descendantWalk, hmiss]

end Loop

theorem findName_of_nodup (cs : List Plug) (hnd : (namesOf cs).Nodup) (x : Nat) (c : Plug)
    (h : cs[x]? = some c) : findName c.name cs = some x := by
  induction cs generalizing x with
  | nil => simp at h
  | cons d ds ih =>
    simp only [namesOf, List.map_cons, List.nodup_cons] at hnd
    cases x with
    | zero =>
      simp at h
      subst h
      simp [findName]
    | succ x =>
      simp at h
      have hmem : c.name ∈ List.map Plug.name ds :=
        List.mem_map.mpr ⟨c, List.getElem?_mem (by simpa using h), rfl⟩
      have hne : d.name ≠ c.name := fun heq => hnd.1 (heq ▸ hmem)
      simp [findName, hne, ih hnd.2 x (by simpa using h)]

theorem allUniqueNames_mem (cs : List Plug) (h : allUniqueNames cs = true) (c : Plug)
    (hc : c ∈ cs) : c.uniqueNames = true := by
  induction cs with
  | nil => simp at hc
  | cons d ds ih =>
    simp only [allUniqueNames, Bool.and_eq_true] at h
    rcases List.mem_cons.mp hc with rfl | hm
    · exact h.1
    · exact ih h.2 hm

theorem uniqueNames_children (c : Plug) (h : c.uniqueNames = true) :
    (namesOf c.children).Nodup ∧ allUniqueNames c.children = true := by
  cases c with
  | mk d cs =>
    simp only [Plug.uniqueNames, Bool.and_eq_true, decide_eq_true_eq] at h
    exact h

namespace Loop

theorem uniqueNames_childrenOf (n : Loop) (hu : UniqueNames n) (p : Path) :
    (namesOf (n.childrenOf p)).Nodup ∧ allUniqueNames (n.childrenOf p) = true := by
  induction p with
  | nil => exact hu
  | cons x p ih =>
    have hp := plugAt_cons n x p
    simp only [childrenOf]
    cases hq : n.plugAt (x :: p) with
    | none => simp [namesOf, allUniqueNames]
    | some Q =>
      rw [hq] at hp
      have hmem : Q ∈ n.childrenOf p := List.getElem?_mem hp.symm
      exact uniqueNames_children Q (allUniqueNames_mem _ ih.2 Q hmem)

theorem getChild_of_valid (n : Loop) (hu : UniqueNames n) (x : Nat) (parent : Path)
    (hv : n.isValuePlug (x :: parent) = true) :
    n.getChild parent (n.getName (x :: parent)) = some (x :: parent) := by
  unfold isValuePlug at hv
  cases hq : n.plugAt (x :: parent) with
  | none => rw [hq] at hv; simp at hv
  | some Q =>
    rw [hq] at hv
    have hget : (n.childrenOf parent)[x]? = some Q := by rw [← plugAt_cons, hq]
    have hfind := findName_of_nodup _ (uniqueNames_childrenOf n hu parent).1 x Q hget
    simp only [getName, hq, getChild, hfind, hget]
    simpa using hv

theorem ValuePlugChain.tail {n : Loop} {x : Nat} {p : Path} (h : ValuePlugChain n (x :: p)) :
    ValuePlugChain n p :=
  fun t ht hs => h t ht (List.IsSuffix.trans hs (List.suffix_cons x p))

theorem descendantWalk_ancestorPlug (n : Loop) (hu : UniqueNames n) (s : List Nat) (i : Nat)
    (hv : ValuePlugChain n (s ++ [i])) :
    n.descendantWalk (some [i]) (n.ancestorPlug (s ++ [i]) []).2.reverse = .ok (some (s ++ [i])) := by
  induction s with
  | nil => simp [ancestorPlug, descendantWalk]
  | cons x s ih =>
    have hparent := ih (ValuePlugChain.tail hv)
    obtain ⟨y, p, hyp⟩ : ∃ y p, s ++ [i] = y :: p := by
      cases s with
      | nil => exact ⟨i, [], rfl⟩
      | cons y s => exact ⟨y, s ++ [i], rfl⟩
    have hself : n.isValuePlug (x :: (s ++ [i])) = true :=
      hv (x :: (s ++ [i])) (by simp) (List.suffix_refl _)
    rw [List.cons_append, hyp, ancestorPlug_cons_snd, List.reverse_cons, ← hyp,
      descendantWalk_append n _ _ _ _ hparent]
    simp [descendantWalk, getChild_of_valid n hu x (s ++ [i]) hself]

theorem namesAlong_append_singleton (cs : List Plug) (l : List Nat) (x : Nat) (Q : Plug)
    (h : walk cs (l ++ [x]) = some Q) :
    namesAlong cs (l ++ [x]) = namesAlong cs l ++ [Q.name] := by
  induction l generalizing cs with
  | nil =>
    simp only [List.nil_append, walk] at h
    simp [namesAlong, h]
  | cons i l ih =>
    obtain ⟨j, rest, hj⟩ : ∃ j rest, l ++ [x] = j :: rest := by
      cases l with
      | nil => exact ⟨x, [], rfl⟩
      | cons j l => exact ⟨j, l ++ [x], rfl⟩
    rw [List.cons_append, hj, walk_cons_cons] at h
    cases hc : cs[i]? with
    | none => rw [hc] at h; simp at h
    | some c =>
      rw [hc] at h
      simp only [Option.some_bind] at h
      rw [← hj] at h
      simp [namesAlong, hc, ih c.children h]

theorem namesAlong_ne_nil (cs : List Plug) (l : List Nat) (Q : Plug)
    (h : walk cs l = some Q) : namesAlong cs l ≠ [] := by
  cases l with
  | nil => simp [walk] at h
  | cons i l =>
    cases hc : cs[i]? with
    | none =>
      cases l with
      | nil => simp [walk, hc] at h
      | cons j l => simp [walk, hc] at h
    | some c => simp [namesAlong, hc]

theorem ancestorPlug_reverse_names (n : Loop) (s : List Nat) (i : Nat)
    (hv : ValuePlugChain n (s ++ [i])) :
    (n.ancestorPlug (s ++ [i]) []).2.reverse = n.namesBelowAncestor (s ++ [i]) := by
  induction s with
  | nil =>
    have h1 : n.isValuePlug [i] = true := hv [i] (by simp) (List.suffix_refl _)
    unfold isValuePlug plugAt at h1
    cases hq : n.children[i]? with
    | none => simp [walk, hq] at h1
    | some Q => simp [ancestorPlug, namesBelowAncestor, namesAlong, hq]
  | cons x s ih =>
    have hparent := ih (ValuePlugChain.tail hv)
    obtain ⟨y, p, hyp⟩ : ∃ y p, s ++ [i] = y :: p := by
      cases s with
      | nil => exact ⟨i, [], rfl⟩
      | cons y s => exact ⟨y, s ++ [i], rfl⟩
    have hself : n.isValuePlug (x :: (s ++ [i])) = true :=
      hv (x :: (s ++ [i])) (by simp) (List.suffix_refl _)
    have hpar : n.isValuePlug (s ++ [i]) = true :=
      hv (s ++ [i]) (by simp) (List.suffix_cons x _)
    unfold isValuePlug at hself hpar
    cases hq : n.plugAt (x :: (s ++ [i])) with
    | none => rw [hq] at hself; simp at hself
    | some Q =>
      cases hq' : n.plugAt (s ++ [i]) with
      | none => rw [hq'] at hpar; simp at hpar
      | some P =>
        have hw : walk n.children ((s ++ [i]).reverse ++ [x]) = some Q := by
          simpa [plugAt] using hq
        have hne := namesAlong_ne_nil n.children (s ++ [i]).reverse P (by simpa [plugAt] using hq')
        rw [List.cons_append, hyp, ancestorPlug_cons_snd, List.reverse_cons, ← hyp, hparent]
        simp only [namesBelowAncestor, getName, hq, List.reverse_cons]
        rw [namesAlong_append_singleton _ _ _ Q hw, List.tail_append_of_ne_nil hne]

end Loop

mutual
theorem mem_descendants (P : Plug) (a q : Path) (Q : Plug) :
    (q, Q) ∈ P.descendants a ↔
      ∃ s : List Nat, s ≠ [] ∧ q = s ++ a ∧ walk P.children s.reverse = some Q := by
  cases P with
  | mk d cs =>
    rw [Plug.descendants, mem_descendantsFrom cs a 0 q Q]
    constructor
    · rintro ⟨k, t, C, hC, hq, hQ⟩
      refine ⟨t ++ [k], by simp, by simpa using hq, ?_⟩
      simp only [List.reverse_append, List.reverse_cons, List.reverse_nil, List.nil_append,
        List.singleton_append, Plug.children]
      rcases hQ with ⟨rfl, rfl⟩ | ⟨ht, hw⟩
      · simpa [walk] using hC
      · obtain ⟨j, rest, hj⟩ : ∃ j rest, t.reverse = j :: rest := by
          cases hr : t.reverse with
          | nil => simp at hr; exact absurd hr ht
          | cons j rest => exact ⟨j, rest, rfl⟩
        rw [hj, walk_cons_cons, hC]
        simpa [hj] using hw
    · rintro ⟨s, hs, hq, hw⟩
      obtain ⟨t, k, rfl⟩ : ∃ t k, s = t ++ [k] := by
        rcases List.eq_nil_or_concat s with h | ⟨t, k, h⟩
        · exact absurd h hs
        · exact ⟨t, k, by simpa using h⟩
      simp only [List.reverse_append, List.reverse_cons, List.reverse_nil, List.nil_append,
        List.singleton_append, Plug.children] at hw
      cases ht : t.reverse with
      | nil =>
        rw [ht] at hw
        simp at ht
        subst ht
        refine ⟨k, [], Q, by simpa [walk] using hw, by simpa using hq, Or.inl ⟨rfl, rfl⟩⟩
      | cons j rest =>
        rw [ht, walk_cons_cons] at hw
        cases hC : cs[k]? with
        | none => rw [hC] at hw; simp at hw
        | some C =>
          rw [hC] at hw
          refine ⟨k, t, C, hC, by simpa using hq, Or.inr ⟨?_, ?_⟩⟩
          · intro h; simp [h] at ht
          · simpa [ht] using hw
theorem mem_descendantsFrom (cs : List Plug) (a : Path) (i : Nat) (q : Path) (Q : Plug) :
    (q, Q) ∈ descendantsFrom cs a i ↔
      ∃ (k : Nat) (t : List Nat) (C : Plug), cs[k]? = some C ∧ q = t ++ (i + k) :: a ∧
        ((t = [] ∧ Q = C) ∨ (t ≠ [] ∧ walk C.children t.reverse = some Q)) := by
  cases cs with
  | nil => simp [descendantsFrom]
  | cons c cs =>
    rw [descendantsFrom]
    simp only [List.mem_cons, List.mem_append, Prod.mk.injEq]
    rw [mem_descendants c (i :: a) q Q, mem_descendantsFrom cs a (i + 1) q Q]
    constructor
    · rintro (⟨rfl, rfl⟩ | ⟨s, hs, hq, hw⟩ | ⟨k, t, C, hC, hq, hQ⟩)
      · exact ⟨0, [], Q, by simp, by simp, Or.inl ⟨rfl, rfl⟩⟩
      · exact ⟨0, s, c, by simp, by simpa using hq, Or.inr ⟨hs, hw⟩⟩
      · exact ⟨k + 1, t, C, by simpa using hC, by rw [hq]; congr 2; omega, hQ⟩
    · rintro ⟨k, t, C, hC, hq, hQ⟩
      cases k with
      | zero =>
        simp at hC
        subst hC
        rcases hQ with ⟨rfl, rfl⟩ | ⟨ht, hw⟩
        · exact Or.inl ⟨by simpa using hq, rfl⟩
        · exact Or.inr (Or.inl ⟨t, ht, by simpa using hq, hw⟩)
      | succ k =>
        exact Or.inr (Or.inr ⟨k, t, C, by simpa using hC, by rw [hq]; congr 2; omega, hQ⟩)
end

theorem walk_nil_children (l : List Nat) : walk [] l = none := by
  cases l with
  | nil => rfl
  | cons i l =>
    cases l with
    | nil => simp [walk]
    | cons j l => simp [walk]

namespace Loop

theorem plugAt_below_top (n : Loop) (s : List Nat) (o : Nat) (hs : s ≠ []) :
    n.plugAt (s ++ [o]) = (n.children[o]?).bind (fun P => walk P.children s.reverse) := by
  obtain ⟨j, rest, hj⟩ : ∃ j rest, s.reverse = j :: rest := by
    cases hr : s.reverse with
    | nil => simp at hr; exact absurd hr hs
    | cons j rest => exact ⟨j, rest, rfl⟩
  simp only [plugAt, List.reverse_append, List.reverse_cons, List.reverse_nil, List.nil_append,
    List.singleton_append, hj, walk_cons_cons]

theorem outPlugInternal_cases (n : Loop) :
    n.outPlugInternal = none ∨ n.outPlugInternal = some [n.m_outPlugIndex] := by
  unfold outPlugInternal
  split
  · exact getChildAt_cases n _
  · exact Or.inl rfl

theorem mem_recursiveOutputPlugs (n : Loop) (o : Nat) (q : Path) :
    q ∈ n.recursiveOutputPlugs [o] ↔
      ∃ Q : Plug, IsDescendant n [o] q ∧ n.plugAt q = some Q ∧ Q.data.direction = Direction.Out := by
  unfold recursiveOutputPlugs
  cases hP : n.plugAt [o] with
  | none =>
    simp only [List.not_mem_nil, false_iff]
    rintro ⟨Q, ⟨⟨s, hs, rfl⟩, _⟩, hQ, _⟩
    have hP' : n.children[o]? = none := by simpa [plugAt, walk] using hP
    rw [plugAt_below_top n s o hs, hP'] at hQ
    simp at hQ
  | some P =>
    have hP' : n.children[o]? = some P := by simpa [plugAt, walk] using hP
    simp only [List.mem_map, List.mem_filter, decide_eq_true_eq, Prod.exists, exists_and_right,
      exists_eq_right]
    constructor
    · rintro ⟨Q, hmem, hdir⟩
      obtain ⟨s, hs, rfl, hw⟩ := (mem_descendants P [o] q Q).mp hmem
      have hq : n.plugAt (s ++ [o]) = some Q := by
        rw [plugAt_below_top n s o hs, hP']
        simpa using hw
      exact ⟨Q, ⟨⟨s, hs, rfl⟩, by simp [hq]⟩, hq, hdir⟩
    · rintro ⟨Q, ⟨⟨s, hs, rfl⟩, _⟩, hQ, hdir⟩
      refine ⟨Q, (mem_descendants P [o] _ Q).mpr ⟨s, hs, rfl, ?_⟩, hdir⟩
      rw [plugAt_below_top n s o hs, hP'] at hQ
      simpa using hQ

theorem no_descendant_of_leaf (n : Loop) (o : Nat) (q : Path)
    (hleaf : n.childrenOf [o] = []) : ¬ IsDescendant n [o] q := by
  rintro ⟨⟨s, hs, rfl⟩, hv⟩
  rw [plugAt_below_top n s o hs] at hv
  cases hP : n.children[o]? with
  | none => simp [hP] at hv
  | some P =>
    have : P.children = [] := by
      simpa [childrenOf, plugAt, walk, hP] using hleaf
    simp [hP, this, walk_nil_children] at hv

/-- C7: when `out` resolves and every plug below it is an output plug,
`affects(iterations)` returns a list that holds every leaf descendant of `out`,
holds a non-leaf descendant of `out` only if the base type reported it, holds
`out` itself when `out` has no children, and beyond the reports of the base
type holds nothing but leaves that are `out` or below it. -/
theorem affects_iterations {H V : Type} (n : Loop) (E : Engine H V) (it out : Path)
    (hit : n.iterationsPlug = some it)
    (hout : n.outPlugInternal = some out)
    (hdir : ∀ (q : Path) (Q : Plug), IsDescendant n out q → n.plugAt q = some Q →
      Q.data.direction = Direction.Out) :
    ∃ outputs : List PlugPtr, n.affects E it = .ok outputs ∧
      (∀ q : Path, IsDescendant n out q → IsLeaf n q → some q ∈ outputs) ∧
      (∀ q : Path, IsDescendant n out q → ¬ IsLeaf n q → some q ∈ outputs →
        some q ∈ E.baseAffects it) ∧
      (IsLeaf n out → some out ∈ outputs) ∧
      (∀ x : PlugPtr, x ∈ outputs → x ∈ E.baseAffects it ∨
        ∃ q : Path, x = some q ∧ IsLeaf n q ∧ (q = out ∨ IsDescendant n out q)) := by
  have hout' : out = [n.m_outPlugIndex] := by
    rcases outPlugInternal_cases n with h | h
    · rw [h] at hout; cases hout
    · rw [h] at hout; exact (Option.some.inj hout).symm
  subst hout'
  by_cases hleaf : n.childrenOf [n.m_outPlugIndex] = []
  · refine ⟨E.baseAffects it ++ [some [n.m_outPlugIndex]], ?_, ?_, ?_, ?_, ?_⟩
    · simp [affects, hit, hout, hleaf]
    · intro q hq _
      exact absurd hq (no_descendant_of_leaf n _ q hleaf)
    · intro q hq _ _
      exact absurd hq (no_descendant_of_leaf n _ q hleaf)
    · intro _
      simp
    · intro x hx
      rcases List.mem_append.mp hx with hb | hx
      · exact Or.inl hb
      · refine Or.inr ⟨[n.m_outPlugIndex], by simpa using hx, hleaf, Or.inl rfl⟩
  · have hchar : ∀ q : Path,
        q ∈ (n.recursiveOutputPlugs [n.m_outPlugIndex]).filter
          (fun q => (n.childrenOf q).length = 0) ↔
        IsDescendant n [n.m_outPlugIndex] q ∧ IsLeaf n q := by
      intro q
      simp only [List.mem_filter, mem_recursiveOutputPlugs, decide_eq_true_eq,
        List.length_eq_zero, IsLeaf]
      constructor
      · rintro ⟨⟨Q, hd, _, _⟩, hl⟩
        exact ⟨hd, hl⟩
      · rintro ⟨hd, hl⟩
        obtain ⟨Q, hQ⟩ := Option.isSome_iff_exists.mp hd.2
        exact ⟨⟨Q, hd, hQ, hdir q Q hd hQ⟩, hl⟩
    refine ⟨E.baseAffects it ++
      ((n.recursiveOutputPlugs [n.m_outPlugIndex]).filter
        (fun q => (n.childrenOf q).length = 0)).map some, ?_, ?_, ?_, ?_, ?_⟩
    · simp [affects, hit, hout, hleaf]
    · intro q hq hl
      exact List.mem_append_right _ (List.mem_map.mpr ⟨q, (hchar q).mpr ⟨hq, hl⟩, rfl⟩)
    · intro q _ hnl hmem
      rcases List.mem_append.mp hmem with hb | hx
      · exact hb
      · obtain ⟨q', hq', heq⟩ := List.mem_map.mp hx
        cases heq
        exact absurd ((hchar q).mp hq').2 hnl
    · intro hl
      exact absurd hl hleaf
    · intro x hx
      rcases List.mem_append.mp hx with hb | hx
      · exact Or.inl hb
      · obtain ⟨q', hq', heq⟩ := List.mem_map.mp hx
        exact Or.inr ⟨q', heq.symm, ((hchar q').mp hq').2, Or.inr ((hchar q').mp hq').1⟩

/-- C9: in a tree whose siblings have different names, for a plug `p = s ++ [i]`
that is a `ValuePlug` like each of its ancestors, `ancestorPlug` returns the
child `[i]` of the node that contains `p`, `descendantPlug` from that child
along the relative name returns `p`, and from any plug `b` it follows the child
names that lead from the ancestor down to `p`, nearest to the ancestor first. -/
theorem relative_addressing_roundtrip (n : Loop) (hu : UniqueNames n) (s : List Nat) (i : Nat)
    (hv : ValuePlugChain n (s ++ [i])) :
    (n.ancestorPlug (s ++ [i]) []).1 = some [i] ∧
    n.descendantPlug (some [i]) (n.ancestorPlug (s ++ [i]) []).2 = .ok (some (s ++ [i])) ∧
    ∀ b : Path, n.descendantPlug (some b) (n.ancestorPlug (s ++ [i]) []).2 =
      n.descendantWalk (some b) (n.namesBelowAncestor (s ++ [i])) := by
  refine ⟨ancestorPlug_append_fst n s i [], descendantWalk_ancestorPlug n hu s i hv, ?_⟩
  intro b
  unfold descendantPlug
  rw [ancestorPlug_reverse_names n s i hv]

end Loop

namespace Loop

/-- Witness for C6 with 3 iterations and fuel 8. -/
theorem evaluate_out_terminates_witness :
    Configured (scalarLoop 3) ∧
    (scalarLoop 3).iterationsValue = .ok ((3 : Nat) : Int) ∧
    addOneWiring.inValue [(scalarLoop 3).m_inPlugIndex]
      (if 3 = 0 then [("frame", 1)] else Context.set [("frame", 1)] "loop:index" 0) = .ok 5 ∧
    2 * 3 + 2 ≤ 8 ∧
    ∃ log : List (Path × Context),
      evaluate (scalarLoop 3) addOneWiring 8 [(scalarLoop 3).m_outPlugIndex] [("frame", 1)] =
        .ok (addOneWiring.body^[3] 5, log) ∧
      (log.filter (fun e => e.1 = [(scalarLoop 3).m_firstPlugIndex + 1])).map
          (fun e => Context.find e.2 "loop:index") =
        (List.range 3).reverse.map (fun i => some (i : Int)) ∧
      (log.filter (fun e => e.1 = [(scalarLoop 3).m_firstPlugIndex])).length = 3 ∧
      (log.filter (fun e => e.1 = [(scalarLoop 3).m_inPlugIndex])).length = 1 ∧
      log.getLast? = some ([(scalarLoop 3).m_inPlugIndex],
        if 3 = 0 then [("frame", 1)] else Context.set [("frame", 1)] "loop:index" 0) :=
  ⟨scalarLoop_configured 3, rfl, rfl, by decide,
    evaluate_out_terminates (scalarLoop 3) (scalarLoop_configured 3) addOneWiring [("frame", 1)]
      3 5 8 rfl rfl (by decide)⟩

theorem mem_descendants_of_isDescendant (n : Loop) (o : Nat) (P : Plug)
    (hP : n.children[o]? = some P) (q : Path) (Q : Plug)
    (hd : IsDescendant n [o] q) (hQ : n.plugAt q = some Q) : (q, Q) ∈ P.descendants [o] := by
  obtain ⟨⟨s, hs, rfl⟩, _⟩ := hd
  rw [plugAt_below_top n s o hs, hP] at hQ
  exact (mem_descendants P [o] _ Q).mpr ⟨s, hs, rfl, by simpa using hQ⟩

theorem structuredLoop_out_directions (N : Int) (q : Path) (Q : Plug)
    (hd : IsDescendant (structuredLoop N) [2] q) (hQ : (structuredLoop N).plugAt q = some Q) :
    Q.data.direction = Direction.Out := by
  have hmem := mem_descendants_of_isDescendant (structuredLoop N) 2
    (compoundPlug "out" .Out [leafPlug "a" .Out, compoundPlug "b" .Out [leafPlug "c" .Out]])
    rfl q Q hd hQ
  have hlist : (compoundPlug "out" .Out
      [leafPlug "a" .Out, compoundPlug "b" .Out [leafPlug "c" .Out]]).descendants [2] =
      [([0, 2], leafPlug "a" .Out), ([1, 2], compoundPlug "b" .Out [leafPlug "c" .Out]),
        ([0, 1, 2], leafPlug "c" .Out)] := rfl
  rw [hlist] at hmem
  simp only [List.mem_cons, Prod.mk.injEq, List.mem_nil_iff, or_false] at hmem
  rcases hmem with ⟨_, rfl⟩ | ⟨_, rfl⟩ | ⟨_, rfl⟩ <;> rfl

/-- Witness for C7 on a node with a structured `out`. -/
theorem affects_iterations_witness :
    (structuredLoop 3).iterationsPlug = some [5] ∧
    (structuredLoop 3).outPlugInternal = some [2] ∧
    (∀ (q : Path) (Q : Plug), IsDescendant (structuredLoop 3) [2] q →
      (structuredLoop 3).plugAt q = some Q → Q.data.direction = Direction.Out) ∧
    ∃ outputs : List PlugPtr, (structuredLoop 3).affects pathSumEngine [5] = .ok outputs ∧
      (∀ q : Path, IsDescendant (structuredLoop 3) [2] q → IsLeaf (structuredLoop 3) q →
        some q ∈ outputs) ∧
      (∀ q : Path, IsDescendant (structuredLoop 3) [2] q → ¬ IsLeaf (structuredLoop 3) q →
        some q ∈ outputs → some q ∈ pathSumEngine.baseAffects [5]) ∧
      (IsLeaf (structuredLoop 3) [2] → some [2] ∈ outputs) ∧
      (∀ x : PlugPtr, x ∈ outputs → x ∈ pathSumEngine.baseAffects [5] ∨
        ∃ q : Path, x = some q ∧ IsLeaf (structuredLoop 3) q ∧
          (q = [2] ∨ IsDescendant (structuredLoop 3) [2] q)) :=
  ⟨rfl, rfl, structuredLoop_out_directions 3,
    affects_iterations (structuredLoop 3) pathSumEngine [5] [2] rfl rfl
      (structuredLoop_out_directions 3)⟩

theorem structuredLoop_uniqueNames : UniqueNames (structuredLoop 3) :=
  ⟨by decide, rfl⟩

theorem structuredLoop_valuePlugChain (N : Int) :
    ValuePlugChain (structuredLoop N) ([0, 1] ++ [1]) := by
  intro t ht hs
  simp only [List.cons_append, List.nil_append, List.suffix_cons_iff, List.suffix_nil] at hs
  rcases hs with rfl | rfl | rfl | rfl
  · rfl
  · rfl
  · rfl
  · exact absurd rfl ht

/-- Witness for C9 on `in.b.c`, whose names `b`, `c` lead from `previous` to
`previous.b.c`. -/
theorem relative_addressing_roundtrip_witness :
    UniqueNames (structuredLoop 3) ∧ ValuePlugChain (structuredLoop 3) ([0, 1] ++ [1]) ∧
    ((structuredLoop 3).ancestorPlug ([0, 1] ++ [1]) []).1 = some [1] ∧
    (structuredLoop 3).descendantPlug (some [1])
      ((structuredLoop 3).ancestorPlug ([0, 1] ++ [1]) []).2 = .ok (some ([0, 1] ++ [1])) ∧
    (∀ b : Path, (structuredLoop 3).descendantPlug (some b)
        ((structuredLoop 3).ancestorPlug ([0, 1] ++ [1]) []).2 =
      (structuredLoop 3).descendantWalk (some b)
        ((structuredLoop 3).namesBelowAncestor ([0, 1] ++ [1]))) ∧
    (structuredLoop 3).namesBelowAncestor ([0, 1] ++ [1]) = ["b", "c"] ∧
    (structuredLoop 3).descendantWalk (some [4]) ["b", "c"] = .ok (some [0, 1, 4]) :=
  ⟨structuredLoop_uniqueNames, structuredLoop_valuePlugChain 3,
    (relative_addressing_roundtrip (structuredLoop 3) structuredLoop_uniqueNames [0, 1] 1
      (structuredLoop_valuePlugChain 3)).1,
    (relative_addressing_roundtrip (structuredLoop 3) structuredLoop_uniqueNames [0, 1] 1
      (structuredLoop_valuePlugChain 3)).2.1,
    (relative_addressing_roundtrip (structuredLoop 3) structuredLoop_uniqueNames [0, 1] 1
      (structuredLoop_valuePlugChain 3)).2.2, rfl, rfl⟩


end Loop

namespace Loop

theorem ancestorPlug_fst_ne_none (n : Loop) (p : Path) (hp : p ≠ []) (acc : List String) :
    (n.ancestorPlug p acc).1 ≠ none := by
  obtain ⟨s, i, rfl⟩ : ∃ s i, p = s ++ [i] := by
    rcases List.eq_nil_or_concat p with h | ⟨s, i, h⟩
    · exact absurd h hp
    · exact ⟨s, i, by simpa using h⟩
  rw [ancestorPlug_append_fst]
  simp

/-- C19: for an input that is not `iterations` and whose enclosing top-level
plug is neither `in` nor `next`, `affects` returns what the base type reports,
nothing more and nothing less; this is so for every plug of a node that is
not set up. -/
theorem affects_other_inputs {H V : Type} (n : Loop) (E : Engine H V) :
    (∀ input : Path, some input ≠ n.iterationsPlug →
      (n.ancestorPlug input []).1 ≠ n.inPlugInternal →
      (n.ancestorPlug input []).1 ≠ n.nextPlug →
      n.affects E input = .ok (E.baseAffects input)) ∧
    (n.m_firstPlugIndex = 0 → n.m_inPlugIndex = 0 →
      ∀ input : Path, input ≠ [] → n.affects E input = .ok (E.baseAffects input)) := by
  have key : ∀ input : Path, some input ≠ n.iterationsPlug →
      (n.ancestorPlug input []).1 ≠ n.inPlugInternal →
      (n.ancestorPlug input []).1 ≠ n.nextPlug →
      n.affects E input = .ok (E.baseAffects input) := by
    intro input hit hin hnext
    unfold affects
    simp only [hit, if_false]
    split
    · simp only [hin, hnext, or_self, if_false]
    · rfl
  refine ⟨key, ?_⟩
  intro hfirst hinIdx input hinput
  have h1 : n.iterationsPlug = none := by simp [iterationsPlug, hfirst]
  have h2 : n.nextPlug = none := by simp [nextPlug, hfirst]
  have h3 : n.inPlugInternal = none := by simp [inPlugInternal, hinIdx]
  apply key input
  · rw [h1]; simp
  · rw [h3]; exact ancestorPlug_fst_ne_none n input hinput []
  · rw [h2]; exact ancestorPlug_fst_ne_none n input hinput []

/-- Witness for C19: `user` of a configured node, and `in` of a node that is
not set up. -/
theorem affects_other_inputs_witness :
    (some [0] ≠ (scalarLoop 3).iterationsPlug ∧
      ((scalarLoop 3).ancestorPlug [0] []).1 ≠ (scalarLoop 3).inPlugInternal ∧
      ((scalarLoop 3).ancestorPlug [0] []).1 ≠ (scalarLoop 3).nextPlug ∧
      (scalarLoop 3).affects pathSumEngine [0] = .ok (pathSumEngine.baseAffects [0])) ∧
    (pendingLoop.m_firstPlugIndex = 0 ∧ pendingLoop.m_inPlugIndex = 0 ∧ ([1] : Path) ≠ [] ∧
      pendingLoop.affects pathSumEngine [1] = .ok (pathSumEngine.baseAffects [1])) :=
  ⟨⟨by decide, by decide, by decide,
      (affects_other_inputs (scalarLoop 3) pathSumEngine).1 [0] (by decide) (by decide)
        (by decide)⟩,
    ⟨rfl, rfl, by decide,
      (affects_other_inputs pendingLoop pathSumEngine).2 rfl rfl [1] (by decide)⟩⟩

/-- C20: for an output whose enclosing top-level plug is neither `previous` nor
`out`, `hash` and `compute` return what the base type returns for the same
plug, context and ambient context, and enter no scope; this is so for every
plug of a node that is not set up. -/
theorem hash_compute_other_outputs {H V : Type} (n : Loop) (E : Engine H V) (ctx : Context)
    (h : H) (stack : List Context) :
    (∀ output : Path, (n.ancestorPlug output []).1 ≠ n.previousPlug →
      (n.ancestorPlug output []).1 ≠ n.outPlugInternal →
      n.hash E output ctx h stack = (E.baseHash output ctx h (current stack), stack) ∧
      n.compute E output ctx stack = (E.baseCompute output ctx (current stack), stack)) ∧
    (n.m_firstPlugIndex = 0 → n.m_outPlugIndex = 0 →
      ∀ output : Path, output ≠ [] →
        n.hash E output ctx h stack = (E.baseHash output ctx h (current stack), stack) ∧
        n.compute E output ctx stack = (E.baseCompute output ctx (current stack), stack)) := by
  have key : ∀ output : Path, (n.ancestorPlug output []).1 ≠ n.previousPlug →
      (n.ancestorPlug output []).1 ≠ n.outPlugInternal →
      n.hash E output ctx h stack = (E.baseHash output ctx h (current stack), stack) ∧
      n.compute E output ctx stack = (E.baseCompute output ctx (current stack), stack) := by
    intro output hprev hout
    constructor
    · unfold hash
      simp only [hprev, hout, if_false]
    · unfold compute
      simp only [hprev, hout, if_false]
  refine ⟨key, ?_⟩
  intro hfirst houtIdx output houtput
  have h1 : n.previousPlug = none := by simp [previousPlug, hfirst]
  have h2 : n.outPlugInternal = none := by simp [outPlugInternal, houtIdx]
  apply key output
  · rw [h1]; exact ancestorPlug_fst_ne_none n output houtput []
  · rw [h2]; exact ancestorPlug_fst_ne_none n output houtput []

/-- Witness for C20: `user` of a configured node, and `result` of a node that
is not set up. -/
theorem hash_compute_other_outputs_witness :
    (((scalarLoop 3).ancestorPlug [0] []).1 ≠ (scalarLoop 3).previousPlug ∧
      ((scalarLoop 3).ancestorPlug [0] []).1 ≠ (scalarLoop 3).outPlugInternal ∧
      (scalarLoop 3).hash pathSumEngine [0] [("frame", 1)] 7 [[("frame", 1)]] =
        (pathSumEngine.baseHash [0] [("frame", 1)] 7 (current [[("frame", 1)]]),
          [[("frame", 1)]]) ∧
      (scalarLoop 3).compute pathSumEngine [0] [("frame", 1)] [[("frame", 1)]] =
        (pathSumEngine.baseCompute [0] [("frame", 1)] (current [[("frame", 1)]]),
          [[("frame", 1)]])) ∧
    (pendingLoop.m_firstPlugIndex = 0 ∧ pendingLoop.m_outPlugIndex = 0 ∧ ([2] : Path) ≠ [] ∧
      pendingLoop.hash pathSumEngine [2] [("frame", 1)] 7 [[("frame", 1)]] =
        (pathSumEngine.baseHash [2] [("frame", 1)] 7 (current [[("frame", 1)]]),
          [[("frame", 1)]]) ∧
      pendingLoop.compute pathSumEngine [2] [("frame", 1)] [[("frame", 1)]] =
        (pathSumEngine.baseCompute [2] [("frame", 1)] (current [[("frame", 1)]]),
          [[("frame", 1)]])) :=
  ⟨⟨by decide, by decide,
      ((hash_compute_other_outputs (scalarLoop 3) pathSumEngine [("frame", 1)] 7
        [[("frame", 1)]]).1 [0] (by decide) (by decide)).1,
      ((hash_compute_other_outputs (scalarLoop 3) pathSumEngine [("frame", 1)] 7
        [[("frame", 1)]]).1 [0] (by decide) (by decide)).2⟩,
    ⟨rfl, rfl, by decide,
      ((hash_compute_other_outputs pendingLoop pathSumEngine [("frame", 1)] 7
        [[("frame", 1)]]).2 rfl rfl [2] (by decide)).1,
      ((hash_compute_other_outputs pendingLoop pathSumEngine [("frame", 1)] 7
        [[("frame", 1)]]).2 rfl rfl [2] (by decide)).2⟩⟩

/-- C15: whatever the upstream answers, failures included, `hash` and `compute`
leave the stack of scoped contexts as they found it, so the ambient context on
exit is the one on entry; and when that context is the one the caller passed,
its `loop:index` on exit is what it was. -/
theorem hash_compute_scope_balanced {H V : Type} (n : Loop) (E : Engine H V) (output : Path)
    (ctx : Context) (h : H) (stack : List Context) :
    (n.hash E output ctx h stack).2 = stack ∧
    (n.compute E output ctx stack).2 = stack ∧
    current (n.hash E output ctx h stack).2 = current stack ∧
    current (n.compute E output ctx stack).2 = current stack ∧
    (current stack = ctx →
      Context.find (current (n.hash E output ctx h stack).2) "loop:index" =
          Context.find ctx "loop:index" ∧
        Context.find (current (n.compute E output ctx stack).2) "loop:index" =
          Context.find ctx "loop:index") := by
  have h1 : (n.hash E output ctx h stack).2 = stack := by
    unfold hash
    simp only
    split_ifs
    · rfl
    · rfl
    · cases n.iterationsValue with
      | error f => rfl
      | ok N => simp only; split_ifs <;> rfl
    · rfl
  have h2 : (n.compute E output ctx stack).2 = stack := by
    unfold compute
    simp only
    split_ifs
    · rfl
    · rfl
    · cases n.iterationsValue with
      | error f => rfl
      | ok N => simp only; split_ifs <;> rfl
    · rfl
  refine ⟨h1, h2, by rw [h1], by rw [h2], ?_⟩
  intro hamb
  rw [h1, h2, hamb]
  exact ⟨rfl, rfl⟩

end Loop

theorem findName_some_lt (name : String) (cs : List Plug) (i : Nat)
    (h : findName name cs = some i) : ∃ c, cs[i]? = some c ∧ c.name = name := by
  induction cs generalizing i with
  | nil => simp [findName] at h
  | cons d ds ih =>
    rw [findName] at h
    split_ifs at h with hd
    · cases h
      exact ⟨d, by simp, hd⟩
    · cases hf : findName name ds with
      | none => simp [hf] at h
      | some j =>
        simp [hf] at h
        subst h
        obtain ⟨c, hc, hn⟩ := ih j hf
        exact ⟨c, by simpa using hc, hn⟩

theorem findName_append_left (name : String) (cs ds : List Plug) (i : Nat)
    (h : findName name cs = some i) : findName name (cs ++ ds) = some i := by
  induction cs generalizing i with
  | nil => simp [findName] at h
  | cons d cs ih =>
    rw [findName] at h
    rw [List.cons_append, findName]
    split_ifs at h ⊢ with hd
    · exact h
    · cases hf : findName name cs with
      | none => simp [hf] at h
      | some j =>
        simp [hf] at h
        subst h
        simp [ih j hf]

theorem findName_append_none (name : String) (cs ds : List Plug)
    (h : findName name (cs ++ ds) = none) : findName name cs = none := by
  cases hf : findName name cs with
  | none => rfl
  | some i => rw [findName_append_left name cs ds i hf] at h; cases h

theorem modifyAt_append_length (f : Plug → Plug) (cs : List Plug) (c : Plug) (ds : List Plug) :
    modifyAt f cs.length (cs ++ c :: ds) = cs ++ f c :: ds := by
  induction cs with
  | nil => rfl
  | cons d cs ih => simp [modifyAt, ih]

namespace Loop

theorem getChild_root (n : Loop) (name : String) (p : Path)
    (h : n.getChild [] name = some p) :
    ∃ (i : Nat) (c : Plug), p = [i] ∧ n.children[i]? = some c ∧
      findName name n.children = some i ∧ c.data.typeId.isValuePlug = true ∧ c.name = name := by
  unfold getChild at h
  simp only [childrenOf] at h
  cases hf : findName name n.children with
  | none => simp [hf] at h
  | some i =>
    obtain ⟨c, hc, hn⟩ := findName_some_lt name n.children i hf
    simp only [hf, hc] at h
    split_ifs at h with hv
    · exact ⟨i, c, (Option.some.inj h).symm, hc, rfl, hv, hn⟩

theorem getChild_root_append (n : Loop) (name : String) (p : Path) (ds : List Plug)
    (h : n.getChild [] name = some p) :
    ({ n with children := n.children ++ ds } : Loop).getChild [] name = some p := by
  obtain ⟨i, c, rfl, hc, hf, hv, _⟩ := getChild_root n name p h
  have hlt : i < n.children.length := by
    rcases List.getElem?_eq_some.mp hc with ⟨hlt, _⟩
    exact hlt
  simp [getChild, childrenOf, findName_append_left name n.children ds i hf,
    List.getElem?_append_left hlt, hc, hv]

theorem updatePlug_next (cs : List Plug) (a b c : Plug) (i o : Nat) (conn : Bool)
    (f : Plug → Plug) (hlen : cs.length ≠ 0) :
    let m : Loop :=
      { children := cs ++ [a, b, c], m_inPlugIndex := i, m_outPlugIndex := o,
        m_firstPlugIndex := cs.length, childAddedConnected := conn }
    m.updatePlug m.nextPlug f = .ok
      { children := cs ++ [f a, b, c], m_inPlugIndex := i, m_outPlugIndex := o,
        m_firstPlugIndex := cs.length, childAddedConnected := conn } := by
  intro m
  have hlt : cs.length < (cs ++ [a, b, c]).length := by simp
  simp only [m, updatePlug, nextPlug, getChildAt, hlen, ne_eq, not_false_eq_true, if_true, hlt,
    List.reverse_cons, List.reverse_nil, List.nil_append, modifyAlong, modifyAt_append_length]

theorem updatePlug_previous (cs : List Plug) (a b c : Plug) (i o : Nat) (conn : Bool)
    (f : Plug → Plug) (hlen : cs.length ≠ 0) :
    let m : Loop :=
      { children := cs ++ [a, b, c], m_inPlugIndex := i, m_outPlugIndex := o,
        m_firstPlugIndex := cs.length, childAddedConnected := conn }
    m.updatePlug m.previousPlug f = .ok
      { children := cs ++ [a, f b, c], m_inPlugIndex := i, m_outPlugIndex := o,
        m_firstPlugIndex := cs.length, childAddedConnected := conn } := by
  intro m
  have hlt : cs.length + 1 < (cs ++ [a, b, c]).length := by simp
  have hm := modifyAt_append_length f (cs ++ [a]) b [c]
  simp only [List.length_append, List.length_cons, List.length_nil, List.append_assoc,
    List.singleton_append, zero_add] at hm
  simp only [m, updatePlug, previousPlug, getChildAt, hlen, ne_eq, not_false_eq_true, if_true,
    hlt, List.reverse_cons, List.reverse_nil, List.nil_append, modifyAlong, hm]

/-- The state `setupPlugs` leaves behind when it finds `in` and `out`. -/
theorem setupPlugs_present (fuel : Nat) (n : Loop) (i o : Nat) (inPlug outPlug : Plug)
    (hin : n.getChild [] "in" = some [i]) (hout : n.getChild [] "out" = some [o])
    (hi : n.children[i]? = some inPlug) (ho : n.children[o]? = some outPlug) :
    setupPlugs (fuel + 1) n = .ok (true,
      { children := n.children ++
          [(inPlug.createCounterpart "next" .In).setDynamic false,
            (((outPlug.createCounterpart "previous" .Out).setDynamic false)
              |>.setAcceptsDependencyCycles true).acceptCyclesBelow,
            newIntPlug "iterations" .In 10 0]
        m_inPlugIndex := i
        m_outPlugIndex := o
        m_firstPlugIndex := n.children.length
        childAddedConnected := false }) := by
  have hlen : n.children.length ≠ 0 := by
    intro h0
    rw [List.length_eq_zero] at h0
    simp [h0] at hi
  have hpi : n.plugAt [i] = some inPlug := by simpa [plugAt, walk] using hi
  have hpo : n.plugAt [o] = some outPlug := by simpa [plugAt, walk] using ho
  rw [setupPlugs]
  simp only [hin, hout, hpi, hpo, addChildWith, Bool.false_eq_true, if_false, List.headD_cons,
    List.append_assoc, List.length_append, List.length_cons, List.length_nil,
    List.singleton_append, List.cons_append, List.nil_append]
  have h3 : n.children.length + (0 + 1 + 1 + 1) - 3 = n.children.length := by omega
  simp only [h3]
  have e1 := updatePlug_next n.children (inPlug.createCounterpart "next" .In)
    (outPlug.createCounterpart "previous" .Out) (newIntPlug "iterations" .In 10 0) i o false
    (fun p => p.setDynamic false) hlen
  simp only at e1
  rw [e1]
  simp only
  have e2 := updatePlug_previous n.children ((inPlug.createCounterpart "next" .In).setDynamic false)
    (outPlug.createCounterpart "previous" .Out) (newIntPlug "iterations" .In 10 0) i o false
    (fun p => p.setDynamic false) hlen
  simp only at e2
  rw [e2]
  simp only
  have e3 := updatePlug_previous n.children ((inPlug.createCounterpart "next" .In).setDynamic false)
    ((outPlug.createCounterpart "previous" .Out).setDynamic false)
    (newIntPlug "iterations" .In 10 0) i o false
    (fun p => p.setAcceptsDependencyCycles true) hlen
  simp only at e3
  rw [e3]
  simp only
  have e4 := updatePlug_previous n.children ((inPlug.createCounterpart "next" .In).setDynamic false)
    (((outPlug.createCounterpart "previous" .Out).setDynamic false).setAcceptsDependencyCycles
      true)
    (newIntPlug "iterations" .In 10 0) i o false
    (fun p => p.acceptCyclesBelow) hlen
  simp only at e4
  rw [e4]

theorem setupPlugs_absent (fuel : Nat) (n : Loop)
    (h : n.getChild [] "in" = none ∨ n.getChild [] "out" = none) :
    setupPlugs (fuel + 1) n = .ok (false, n) := by
  rw [setupPlugs]
  rcases h with h | h
  · simp [h]
  · rw [h]
    cases n.getChild [] "in" <;> rfl

end Loop

namespace Loop

theorem getChild_children_congr (n m : Loop) (name : String) (h : n.children = m.children) :
    n.getChild [] name = m.getChild [] name := by
  simp [getChild, childrenOf, h]

theorem getChild_root_none_of_append (l1 l2 : List Plug) (name : String)
    (h : (unconfigured (l1 ++ l2)).getChild [] name = none) :
    (unconfigured l1).getChild [] name = none := by
  cases hc : (unconfigured l1).getChild [] name with
  | none => rfl
  | some p =>
    have := getChild_root_append (unconfigured l1) name p l2 hc
    have h2 : (unconfigured (l1 ++ l2)).getChild [] name = some p := by
      rw [← this]
      exact getChild_children_congr _ _ name rfl
    rw [h2] at h
    cases h

theorem addChildren_disconnected (fuel : Nat) (n : Loop) (cs : List Plug)
    (h : n.childAddedConnected = false) :
    addChildren fuel n cs = .ok { n with children := n.children ++ cs } := by
  induction cs generalizing n with
  | nil => simp [addChildren]
  | cons c cs ih =>
    rw [addChildren]
    simp only [addChild, addChildWith, h, Bool.false_eq_true, if_false]
    rw [ih _ rfl]
    simp

theorem present_or_absent (n : Loop) :
    (n.getChild [] "in" = none ∨ n.getChild [] "out" = none) ∨
    ∃ (i o : Nat) (inPlug outPlug : Plug), n.getChild [] "in" = some [i] ∧
      n.getChild [] "out" = some [o] ∧ n.children[i]? = some inPlug ∧
      n.children[o]? = some outPlug := by
  cases hin : n.getChild [] "in" with
  | none => exact Or.inl (Or.inl rfl)
  | some p =>
    cases hout : n.getChild [] "out" with
    | none => exact Or.inl (Or.inr rfl)
    | some q =>
      obtain ⟨i, a, rfl, ha, _⟩ := getChild_root n "in" p hin
      obtain ⟨o, b, rfl, hb, _⟩ := getChild_root n "out" q hout
      exact Or.inr ⟨i, o, a, b, rfl, rfl, ha, hb⟩

theorem addChildren_unconfigured (fuel : Nat) (cs : List Plug) :
    ∀ l : List Plug,
      ((unconfigured l).getChild [] "in" = none ∨ (unconfigured l).getChild [] "out" = none) →
      ∃ m : Loop, addChildren (fuel + 1) (unconfigured l) cs = .ok m ∧ Outcome (l ++ cs) m := by
  induction cs with
  | nil =>
    intro l hl
    exact ⟨unconfigured l, rfl, Or.inl ⟨by simp, by simpa using hl⟩⟩
  | cons c cs ih =>
    intro l _
    rw [addChildren]
    have hadd : addChild (fuel + 1) (unconfigured l) c =
        childAdded (fuel + 1) (unconfigured (l ++ [c])) := by
      simp [addChild, addChildWith, unconfigured]
    rw [hadd, childAdded]
    rcases present_or_absent (unconfigured (l ++ [c])) with habs | ⟨i, o, a, b, hi, ho, ha, hb⟩
    · rw [setupPlugs_absent fuel _ habs]
      obtain ⟨m, hm, hout⟩ := ih (l ++ [c]) habs
      exact ⟨m, hm, by simpa using hout⟩
    · rw [setupPlugs_present fuel _ i o a b hi ho ha hb]
      simp only
      rw [addChildren_disconnected _ _ _ rfl]
      refine ⟨_, rfl, Or.inr ⟨l ++ [c], cs, i, o, a, b, by simp, hi, ho, ha, hb, ?_⟩⟩
      simp [unconfigured, nextFor, previousFor]

theorem constructThenAdd_outcome (fuel : Nat) (base cs : List Plug) :
    ∃ m : Loop, constructThenAdd (fuel + 1) base cs = .ok m ∧ Outcome (base ++ cs) m := by
  unfold constructThenAdd construct
  have hcongr : ∀ name, (initial base).getChild [] name =
      (unconfigured base).getChild [] name := fun name => getChild_children_congr _ _ name rfl
  rcases present_or_absent (unconfigured base) with habs | ⟨i, o, a, b, hi, ho, ha, hb⟩
  · have habs' := habs
    rw [← hcongr, ← hcongr] at habs'
    simp only [setupPlugs_absent fuel _ habs']
    exact addChildren_unconfigured fuel cs base habs
  · have hi' := hi
    have ho' := ho
    rw [← hcongr] at hi' ho'
    simp only [setupPlugs_present fuel _ i o a b hi' ho' ha hb]
    rw [addChildren_disconnected _ _ _ rfl]
    refine ⟨_, rfl, Or.inr ⟨base, cs, i, o, a, b, rfl, hi, ho, ha, hb, ?_⟩⟩
    simp [nextFor, previousFor, initial]

end Loop

theorem descendants_setAcceptsDependencyCycles (P : Plug) (b : Bool) (a : Path) :
    (P.setAcceptsDependencyCycles b).descendants a = P.descendants a := by
  cases P with
  | mk d cs => simp [Plug.setAcceptsDependencyCycles, Plug.descendants]

mutual
theorem acceptCyclesBelow_descendants (P : Plug) (a : Path) :
    ∀ d ∈ P.acceptCyclesBelow.descendants a, d.2.data.acceptsDependencyCycles = true := by
  cases P with
  | mk dat cs =>
    rw [Plug.acceptCyclesBelow, Plug.descendants]
    exact acceptCyclesAll_descendants cs a 0
theorem acceptCyclesAll_descendants (cs : List Plug) (a : Path) (i : Nat) :
    ∀ d ∈ descendantsFrom (acceptCyclesAll cs) a i, d.2.data.acceptsDependencyCycles = true := by
  cases cs with
  | nil => simp [acceptCyclesAll, descendantsFrom]
  | cons c cs =>
    rw [acceptCyclesAll, descendantsFrom, descendants_setAcceptsDependencyCycles]
    intro d hd
    rcases List.mem_cons.mp hd with rfl | hd
    · cases hc : c.acceptCyclesBelow with
      | mk dat ds => simp [Plug.setAcceptsDependencyCycles, PlugData.setAcceptsDependencyCycles,
          Plug.data]
    · rcases List.mem_append.mp hd with h1 | h2
      · exact acceptCyclesBelow_descendants c (i :: a) d h1
      · exact acceptCyclesAll_descendants cs a (i + 1) d h2
end

namespace Loop

theorem previousFor_flag (outPlug : Plug) :
    (previousFor outPlug).data.acceptsDependencyCycles = true := by
  cases outPlug with
  | mk d cs =>
    simp [previousFor, Plug.createCounterpart, Plug.setDynamic, Plug.setAcceptsDependencyCycles,
      Plug.acceptCyclesBelow, PlugData.setAcceptsDependencyCycles, Plug.data]

theorem previousFor_name (outPlug : Plug) :
    (previousFor outPlug).name = "previous" ∧
      (previousFor outPlug).data.direction = Direction.Out := by
  cases outPlug with
  | mk d cs =>
    simp [previousFor, Plug.createCounterpart, Plug.setDynamic, Plug.setAcceptsDependencyCycles,
      Plug.acceptCyclesBelow, PlugData.setAcceptsDependencyCycles, PlugData.setDynamic, Plug.data,
      Plug.name]

theorem nextFor_data (inPlug : Plug) :
    (nextFor inPlug).name = "next" ∧ (nextFor inPlug).data.direction = Direction.In ∧
      (nextFor inPlug).data.typeId = inPlug.data.typeId ∧
      (nextFor inPlug).data.acceptsDependencyCycles = inPlug.data.acceptsDependencyCycles ∧
      (nextFor inPlug).data.dynamic = false ∧
      (nextFor inPlug).children = counterpartsOf inPlug.children Direction.In := by
  cases inPlug with
  | mk d cs =>
    simp [nextFor, Plug.createCounterpart, Plug.setDynamic, PlugData.setDynamic, Plug.data,
      Plug.name, Plug.children]

theorem previousFor_descendants (outPlug : Plug) (a : Path) :
    ∀ d ∈ (previousFor outPlug).descendants a, d.2.data.acceptsDependencyCycles = true :=
  acceptCyclesBelow_descendants _ a

/-- Accessors and plugs of a node on which `setupPlugs` ran when its children
were `l1`. -/
theorem configured_accessors (l1 l2 : List Plug) (N P I : Plug) (i o : Nat)
    (hlen : l1.length ≠ 0) :
    let m : Loop :=
      { children := l1 ++ [N, P, I] ++ l2, m_inPlugIndex := i, m_outPlugIndex := o,
        m_firstPlugIndex := l1.length, childAddedConnected := false }
    m.nextPlug = some [l1.length] ∧ m.plugAt [l1.length] = some N ∧
    m.previousPlug = some [l1.length + 1] ∧ m.plugAt [l1.length + 1] = some P ∧
    m.iterationsPlug = some [l1.length + 2] ∧ m.plugAt [l1.length + 2] = some I := by
  intro m
  have h0 : l1.length < (l1 ++ [N, P, I] ++ l2).length := by simp
  have h1 : l1.length + 1 < (l1 ++ [N, P, I] ++ l2).length := by simp
  have h2 : l1.length + 2 < (l1 ++ [N, P, I] ++ l2).length := by simp
  have g : ∀ k : Nat, (l1 ++ [N, P, I] ++ l2)[l1.length + k]? = (N :: P :: I :: l2)[k]? := by
    intro k
    rw [List.append_assoc, List.getElem?_append_right (by omega)]
    simp
  have g0 : (l1 ++ [N, P, I] ++ l2)[l1.length]? = some N := by rw [← Nat.add_zero l1.length, g 0]; simp
  have g1 : (l1 ++ [N, P, I] ++ l2)[l1.length + 1]? = some P := by rw [g 1]; simp
  have g2 : (l1 ++ [N, P, I] ++ l2)[l1.length + 2]? = some I := by rw [g 2]; simp
  refine ⟨?_, ?_, ?_, ?_, ?_, ?_⟩
  · simp only [m, nextPlug, getChildAt, hlen, ne_eq, not_false_eq_true, if_true, h0]
  · simp only [m, plugAt, List.reverse_cons, List.reverse_nil, List.nil_append, walk, g0]
  · simp only [m, previousPlug, getChildAt, hlen, ne_eq, not_false_eq_true, if_true, h1]
  · simp only [m, plugAt, List.reverse_cons, List.reverse_nil, List.nil_append, walk, g1]
  · simp only [m, iterationsPlug, getChildAt, hlen, ne_eq, not_false_eq_true, if_true, h2]
  · simp only [m, plugAt, List.reverse_cons, List.reverse_nil, List.nil_append, walk, g2]

theorem outcome_of_absent (l : List Plug) (m : Loop) (h : Outcome l m)
    (habs : (unconfigured l).getChild [] "in" = none ∨
      (unconfigured l).getChild [] "out" = none) : m = unconfigured l := by
  rcases h with ⟨hm, _⟩ | ⟨l1, l2, i, o, a, b, rfl, hi, ho, _, _, _⟩
  · exact hm
  · exfalso
    rcases habs with h1 | h1
    · rw [getChild_root_none_of_append l1 l2 "in" h1] at hi; cases hi
    · rw [getChild_root_none_of_append l1 l2 "out" h1] at ho; cases ho

/-- C11: a node built over any children and given any further children, among
which `in` or `out` is missing to the end, is a node for which `nextPlug()`,
`previousPlug()` and `iterationsPlug()` return null; its children are the ones
it was given. -/
theorem accessors_absent_before_setup (fuel : Nat) (base cs : List Plug)
    (habs : (unconfigured (base ++ cs)).getChild [] "in" = none ∨
      (unconfigured (base ++ cs)).getChild [] "out" = none) :
    ∃ m : Loop, constructThenAdd (fuel + 1) base cs = .ok m ∧ m.children = base ++ cs ∧
      m.nextPlug = none ∧ m.previousPlug = none ∧ m.iterationsPlug = none := by
  obtain ⟨m, hm, hout⟩ := constructThenAdd_outcome fuel base cs
  have := outcome_of_absent _ m hout habs
  subst this
  exact ⟨_, hm, rfl, rfl, rfl, rfl⟩

/-- Witness for C11: a node over `user` given `in` and an output that is not
called `out`. -/
theorem accessors_absent_before_setup_witness :
    ((unconfigured ([leafPlug "user" .In] ++ [leafPlug "in" .In, leafPlug "result" .Out])).getChild
        [] "in" = none ∨
      (unconfigured ([leafPlug "user" .In] ++ [leafPlug "in" .In, leafPlug "result" .Out])).getChild
        [] "out" = none) ∧
    ∃ m : Loop, constructThenAdd (1 + 1) [leafPlug "user" .In]
        [leafPlug "in" .In, leafPlug "result" .Out] = .ok m ∧
      m.children = [leafPlug "user" .In] ++ [leafPlug "in" .In, leafPlug "result" .Out] ∧
      m.nextPlug = none ∧ m.previousPlug = none ∧ m.iterationsPlug = none :=
  ⟨Or.inr rfl,
    accessors_absent_before_setup 1 [leafPlug "user" .In]
      [leafPlug "in" .In, leafPlug "result" .Out] (Or.inr rfl)⟩

end Loop

namespace Loop

theorem outcome_of_present (l : List Plug) (m : Loop) (h : Outcome l m)
    (hin : (unconfigured l).getChild [] "in" ≠ none)
    (hout : (unconfigured l).getChild [] "out" ≠ none) :
    ∃ (l1 l2 : List Plug) (i o : Nat) (inPlug outPlug : Plug),
      l = l1 ++ l2 ∧
      (unconfigured l1).getChild [] "in" = some [i] ∧
      (unconfigured l1).getChild [] "out" = some [o] ∧
      l1[i]? = some inPlug ∧ l1[o]? = some outPlug ∧ l1.length ≠ 0 ∧
      m = { children := l1 ++ [nextFor inPlug, previousFor outPlug,
              newIntPlug "iterations" .In 10 0] ++ l2
            m_inPlugIndex := i
            m_outPlugIndex := o
            m_firstPlugIndex := l1.length
            childAddedConnected := false } := by
  rcases h with ⟨_, habs⟩ | ⟨l1, l2, i, o, a, b, hl, hi, ho, ha, hb, hm⟩
  · rcases habs with h1 | h1
    · exact absurd h1 hin
    · exact absurd h1 hout
  · refine ⟨l1, l2, i, o, a, b, hl, hi, ho, ha, hb, ?_, hm⟩
    intro h0
    rw [List.length_eq_zero] at h0
    simp [h0] at ha

theorem iterationsValue_of_plug (m : Loop) (p : Path) (P : Plug) (d mn v : Int)
    (hp : m.iterationsPlug = some p) (hP : m.plugAt p = some P)
    (ht : P.data.typeId = .intPlug d mn v) : m.iterationsValue = .ok v := by
  simp [iterationsValue, hp, hP, ht]

/-- C12: a node built over any children and given any further children, such
that `in` and `out` are both among them, has been set up at the moment both
were present (children `l1`): right after `l1` come `next`, the input
counterpart of `in`, `previous`, the output counterpart of `out`, and
`iterations`, an integer input with default 10 and minimum 0; the three
accessors return exactly these plugs, and `iterations` holds 10. Children
given later (`l2`) follow. -/
theorem configured_once_in_and_out_present (fuel : Nat) (base cs : List Plug)
    (hin : (unconfigured (base ++ cs)).getChild [] "in" ≠ none)
    (hout : (unconfigured (base ++ cs)).getChild [] "out" ≠ none) :
    ∃ (m : Loop) (l1 l2 : List Plug) (inPlug outPlug : Plug),
      constructThenAdd (fuel + 1) base cs = .ok m ∧
      base ++ cs = l1 ++ l2 ∧
      (unconfigured l1).getChild [] "in" = some [m.m_inPlugIndex] ∧
      l1[m.m_inPlugIndex]? = some inPlug ∧
      (unconfigured l1).getChild [] "out" = some [m.m_outPlugIndex] ∧
      l1[m.m_outPlugIndex]? = some outPlug ∧
      m.children =
        l1 ++ [nextFor inPlug, previousFor outPlug, newIntPlug "iterations" .In 10 0] ++ l2 ∧
      (nextFor inPlug).name = "next" ∧ (nextFor inPlug).data.direction = Direction.In ∧
      (nextFor inPlug).data.typeId = inPlug.data.typeId ∧
      (nextFor inPlug).children = counterpartsOf inPlug.children Direction.In ∧
      (previousFor outPlug).name = "previous" ∧
      (previousFor outPlug).data.direction = Direction.Out ∧
      m.nextPlug = some [l1.length] ∧ m.plugAt [l1.length] = some (nextFor inPlug) ∧
      m.previousPlug = some [l1.length + 1] ∧
      m.plugAt [l1.length + 1] = some (previousFor outPlug) ∧
      m.iterationsPlug = some [l1.length + 2] ∧
      m.plugAt [l1.length + 2] = some (newIntPlug "iterations" .In 10 0) ∧
      m.iterationsValue = .ok 10 := by
  obtain ⟨m, hm, hout'⟩ := constructThenAdd_outcome fuel base cs
  obtain ⟨l1, l2, i, o, a, b, hl, hi, ho, ha, hb, hlen, rfl⟩ :=
    outcome_of_present _ m hout' hin hout
  obtain ⟨g1, g2, g3, g4, g5, g6⟩ := configured_accessors l1 l2 (nextFor a) (previousFor b)
    (newIntPlug "iterations" .In 10 0) i o hlen
  obtain ⟨n1, n2, n3, _, _, n6⟩ := nextFor_data a
  obtain ⟨p1, p2⟩ := previousFor_name b
  exact ⟨_, l1, l2, a, b, hm, hl, hi, ha, ho, hb, rfl, n1, n2, n3, n6, p1, p2, g1, g2, g3, g4,
    g5, g6, iterationsValue_of_plug _ _ _ 10 0 10 g5 g6 rfl⟩

/-- Witness for C12: a node built over `user` alone has no `next` or
`previous`; given `in` and `out` it has `iterations`, holding 10. -/
theorem configured_once_in_and_out_present_witness :
    (unconfigured ([leafPlug "user" .In] ++ [leafPlug "in" .In, leafPlug "out" .Out])).getChild
      [] "in" ≠ none ∧
    (unconfigured ([leafPlug "user" .In] ++ [leafPlug "in" .In, leafPlug "out" .Out])).getChild
      [] "out" ≠ none ∧
    (∃ m : Loop, constructThenAdd (1 + 1) [leafPlug "user" .In] [] = .ok m ∧
      m.nextPlug = none ∧ m.previousPlug = none) ∧
    ∃ m : Loop, constructThenAdd (1 + 1) [leafPlug "user" .In]
        [leafPlug "in" .In, leafPlug "out" .Out] = .ok m ∧
      m.iterationsPlug ≠ none ∧ m.iterationsValue = .ok 10 := by
  refine ⟨by decide, by decide, ⟨_, rfl, rfl, rfl⟩, ?_⟩
  obtain ⟨m, l1, l2, a, b, h⟩ := configured_once_in_and_out_present 1 [leafPlug "user" .In]
    [leafPlug "in" .In, leafPlug "out" .Out] (by decide) (by decide)
  refine ⟨m, h.1, ?_, ?_⟩
  · rw [h.2.2.2.2.2.2.2.2.2.2.2.2.2.2.2.2.2.1]
    simp
  · exact h.2.2.2.2.2.2.2.2.2.2.2.2.2.2.2.2.2.2.2

theorem addChildren_append (fuel : Nat) (n : Loop) (cs1 cs2 : List Plug) :
    addChildren fuel n (cs1 ++ cs2) =
      match addChildren fuel n cs1 with
      | .error f => .error f
      | .ok m => addChildren fuel m cs2 := by
  induction cs1 generalizing n with
  | nil => simp [addChildren]
  | cons c cs ih =>
    simp only [List.cons_append, addChildren]
    cases addChild fuel n c with
    | error f => rfl
    | ok m => exact ih m

/-- C13: set-up is one-shot. `setupPlugs` never needs a nested run of itself:
with fuel for a single run it gives what it gives with any more, so the
notifications raised by its own three additions find `childAdded`
disconnected. Children added to a node whose `childAdded` is disconnected are
appended and nothing else changes. A node built and given children either
waits, connected, with no plug of its own, or is set up, disconnected, with
exactly three plugs of its own; and once it is set up, giving it more children
leaves its indices as they are. -/
theorem setup_runs_at_most_once :
    (∀ (fuel : Nat) (n : Loop), setupPlugs (fuel + 1) n = setupPlugs 1 n) ∧
    (∀ (fuel : Nat) (n : Loop) (cs : List Plug), n.childAddedConnected = false →
      addChildren fuel n cs = .ok { n with children := n.children ++ cs }) ∧
    (∀ (fuel : Nat) (base cs : List Plug), ∃ m : Loop,
      constructThenAdd (fuel + 1) base cs = .ok m ∧
      ((m.m_firstPlugIndex = 0 ∧ m.childAddedConnected = true ∧ m.children = base ++ cs) ∨
        (m.m_firstPlugIndex ≠ 0 ∧ m.childAddedConnected = false ∧
          m.children.length = base.length + cs.length + 3))) ∧
    (∀ (fuel : Nat) (base cs1 cs2 : List Plug) (m1 : Loop),
      constructThenAdd (fuel + 1) base cs1 = .ok m1 → m1.m_firstPlugIndex ≠ 0 →
      ∃ m2 : Loop, constructThenAdd (fuel + 1) base (cs1 ++ cs2) = .ok m2 ∧
        m2.m_firstPlugIndex = m1.m_firstPlugIndex ∧ m2.m_inPlugIndex = m1.m_inPlugIndex ∧
        m2.m_outPlugIndex = m1.m_outPlugIndex ∧ m2.childAddedConnected = false ∧
        m2.children = m1.children ++ cs2) := by
  refine ⟨?_, ?_, ?_, ?_⟩
  · intro fuel n
    rcases present_or_absent n with habs | ⟨i, o, a, b, hi, ho, ha, hb⟩
    · rw [setupPlugs_absent fuel n habs, setupPlugs_absent 0 n habs]
    · rw [setupPlugs_present fuel n i o a b hi ho ha hb,
        setupPlugs_present 0 n i o a b hi ho ha hb]
  · exact addChildren_disconnected
  · intro fuel base cs
    obtain ⟨m, hm, hout⟩ := constructThenAdd_outcome fuel base cs
    refine ⟨m, hm, ?_⟩
    rcases hout with ⟨rfl, _⟩ | ⟨l1, l2, i, o, a, b, hl, _, _, ha, _, rfl⟩
    · exact Or.inl ⟨rfl, rfl, rfl⟩
    · refine Or.inr ⟨?_, rfl, ?_⟩
      · intro h0
        simp only at h0
        rw [List.length_eq_zero] at h0
        simp [h0] at ha
      · have := congrArg List.length hl
        simp only [List.length_append] at this
        simp only [List.length_append, List.length_cons, List.length_nil]
        omega
  · intro fuel base cs1 cs2 m1 hm1 hfirst
    obtain ⟨m, hm, hout⟩ := constructThenAdd_outcome fuel base cs1
    rw [hm1] at hm
    cases hm
    have hconn : m1.childAddedConnected = false := by
      rcases hout with ⟨rfl, _⟩ | ⟨l1, l2, i, o, a, b, _, _, _, _, _, rfl⟩
      · exact absurd rfl hfirst
      · rfl
    refine ⟨{ m1 with children := m1.children ++ cs2 }, ?_, rfl, rfl, rfl, hconn, rfl⟩
    unfold constructThenAdd at hm1 ⊢
    cases hc : construct (fuel + 1) base with
    | error f => rw [hc] at hm1; cases hm1
    | ok n0 =>
      rw [hc] at hm1
      simp only at hm1 ⊢
      rw [addChildren_append, hm1]
      exact addChildren_disconnected _ _ _ hconn

/-- Witness for C13: a configured node given plugs called `in` and `out` again
only gains those two children. -/
theorem setup_runs_at_most_once_witness :
    (scalarLoop 3).childAddedConnected = false ∧
    addChildren 1 (scalarLoop 3) [leafPlug "in" .In, leafPlug "out" .Out] =
      .ok { scalarLoop 3 with
        children := (scalarLoop 3).children ++ [leafPlug "in" .In, leafPlug "out" .Out] } :=
  ⟨rfl, setup_runs_at_most_once.2.1 1 (scalarLoop 3) [leafPlug "in" .In, leafPlug "out" .Out]
    rfl⟩

/-- C14: after set-up, `previous` and every plug below it accept dependency
cycles; the children the node was given (`in` and `out` among them) are in
the node as they were given, `next` has the flag value and the children of
the counterpart of `in`, and `iterations` does not have the flag. -/
theorem flags_after_setup (fuel : Nat) (base cs : List Plug)
    (hin : (unconfigured (base ++ cs)).getChild [] "in" ≠ none)
    (hout : (unconfigured (base ++ cs)).getChild [] "out" ≠ none) :
    ∃ (m : Loop) (l1 l2 : List Plug) (inPlug outPlug N P I : Plug),
      constructThenAdd (fuel + 1) base cs = .ok m ∧
      base ++ cs = l1 ++ l2 ∧
      l1[m.m_inPlugIndex]? = some inPlug ∧ l1[m.m_outPlugIndex]? = some outPlug ∧
      m.children = l1 ++ [N, P, I] ++ l2 ∧
      m.previousPlug = some [l1.length + 1] ∧ m.plugAt [l1.length + 1] = some P ∧
      P.data.acceptsDependencyCycles = true ∧
      (∀ (q : Path) (Q : Plug), IsDescendant m [l1.length + 1] q → m.plugAt q = some Q →
        Q.data.acceptsDependencyCycles = true) ∧
      N.data.acceptsDependencyCycles = inPlug.data.acceptsDependencyCycles ∧
      N.children = counterpartsOf inPlug.children Direction.In ∧
      I = newIntPlug "iterations" .In 10 0 ∧ I.data.acceptsDependencyCycles = false := by
  obtain ⟨m, hm, hout'⟩ := constructThenAdd_outcome fuel base cs
  obtain ⟨l1, l2, i, o, a, b, hl, hi, ho, ha, hb, hlen, rfl⟩ :=
    outcome_of_present _ m hout' hin hout
  obtain ⟨_, _, g3, g4, _, _⟩ := configured_accessors l1 l2 (nextFor a) (previousFor b)
    (newIntPlug "iterations" .In 10 0) i o hlen
  obtain ⟨_, _, _, n4, _, n6⟩ := nextFor_data a
  refine ⟨_, l1, l2, a, b, nextFor a, previousFor b, newIntPlug "iterations" .In 10 0, hm, hl,
    ha, hb, rfl, g3, g4, previousFor_flag b, ?_, n4, n6, rfl, rfl⟩
  intro q Q hd hQ
  have hP : (l1 ++ [nextFor a, previousFor b, newIntPlug "iterations" .In 10 0] ++ l2)[
      l1.length + 1]? = some (previousFor b) := by
    simpa [plugAt, walk] using g4
  exact previousFor_descendants b [l1.length + 1] (q, Q)
    (mem_descendants_of_isDescendant _ (l1.length + 1) (previousFor b) hP q Q hd hQ)

/-- A node that has been set up with `in` and `out` elsewhere than at child
index 0 is `Configured`. -/
theorem configured_of_setup (fuel : Nat) (base cs : List Plug) (m : Loop)
    (hm : constructThenAdd (fuel + 1) base cs = .ok m)
    (hfirst : m.m_firstPlugIndex ≠ 0)
    (hin : m.m_inPlugIndex ≠ 0) (hout : m.m_outPlugIndex ≠ 0) : Configured m := by
  obtain ⟨m', hm', hout'⟩ := constructThenAdd_outcome fuel base cs
  rw [hm] at hm'
  cases hm'
  rcases hout' with ⟨rfl, _⟩ | ⟨l1, l2, i, o, a, b, _, hi, ho, ha, hb, rfl⟩
  · exact absurd rfl hfirst
  · obtain ⟨i', a', hi', ha', _, _, hna⟩ := getChild_root (unconfigured l1) "in" [i] hi
    obtain ⟨o', b', ho', hb', _, _, hnb⟩ := getChild_root (unconfigured l1) "out" [o] ho
    cases hi'
    cases ho'
    simp only [unconfigured] at ha' hb'
    have hilt : i < l1.length := (List.getElem?_eq_some.mp ha').1
    have holt : o < l1.length := (List.getElem?_eq_some.mp hb').1
    refine ⟨hin, hout, ?_, hilt, holt, ?_⟩
    · intro hio
      simp only at hio
      rw [hio, hb'] at ha'
      cases ha'
      rw [hnb] at hna
      exact absurd hna (by decide)
    · simp

/-- Witness for C14 on a node built over `user` and structured `in` and
`out`. -/
theorem flags_after_setup_witness :
    (unconfigured ((structuredLoop 3).children.take 3 ++ [])).getChild [] "in" ≠ none ∧
    (unconfigured ((structuredLoop 3).children.take 3 ++ [])).getChild [] "out" ≠ none ∧
    ∃ (m : Loop) (l1 l2 : List Plug) (inPlug outPlug N P I : Plug),
      constructThenAdd (1 + 1) ((structuredLoop 3).children.take 3) [] = .ok m ∧
      (structuredLoop 3).children.take 3 ++ [] = l1 ++ l2 ∧
      l1[m.m_inPlugIndex]? = some inPlug ∧ l1[m.m_outPlugIndex]? = some outPlug ∧
      m.children = l1 ++ [N, P, I] ++ l2 ∧
      m.previousPlug = some [l1.length + 1] ∧ m.plugAt [l1.length + 1] = some P ∧
      P.data.acceptsDependencyCycles = true ∧
      (∀ (q : Path) (Q : Plug), IsDescendant m [l1.length + 1] q → m.plugAt q = some Q →
        Q.data.acceptsDependencyCycles = true) ∧
      N.data.acceptsDependencyCycles = inPlug.data.acceptsDependencyCycles ∧
      N.children = counterpartsOf inPlug.children Direction.In ∧
      I = newIntPlug "iterations" .In 10 0 ∧ I.data.acceptsDependencyCycles = false :=
  ⟨by decide, by decide,
    flags_after_setup 1 ((structuredLoop 3).children.take 3) [] (by decide) (by decide)⟩

end Loop

namespace Loop

theorem evaluateHash_in {H : Type} (n : Loop) (hc : Configured n) (W : HashWiring H)
    (fuel : Nat) (c : Context) :
    evaluateHash n W (fuel + 1) [n.m_inPlugIndex] c = W.inHash [n.m_inPlugIndex] c := by
  have h1 := hc.in_lt_first
  have hne : n.m_inPlugIndex ≠ n.m_firstPlugIndex := by omega
  simp [evaluateHash, ancestorPlug, hc.nextPlug_eq, hc.inPlugInternal_eq, hne]

theorem evaluateHash_previous_zero {H : Type} (n : Loop) (hc : Configured n) (W : HashWiring H)
    (fuel : Nat) (ctx : Context) :
    evaluateHash n W (fuel + 2) [n.m_firstPlugIndex + 1] (Context.set ctx "loop:index" 0) =
      W.inHash [n.m_inPlugIndex] (Context.set ctx "loop:index" 0) := by
  have h1 := hc.in_lt_first
  have hne : n.m_firstPlugIndex + 1 ≠ n.m_inPlugIndex := by omega
  rw [evaluateHash]
  simp [ancestorPlug, hc.nextPlug_eq, hc.inPlugInternal_eq, hne, hash, hc.previousPlug_eq,
    Context.get_set_same, descendantPlug, descendantWalk, hashOf, hashEngineFrom, current,
    evaluateHash_in n hc W fuel]

theorem evaluateHash_next {H : Type} (n : Loop) (hc : Configured n) (W : HashWiring H)
    (ctx : Context) (h0 : H)
    (hin : W.inHash [n.m_inPlugIndex] (Context.set ctx "loop:index" 0) = .ok h0)
    (k : Nat) : ∀ fuel : Nat, 2 * k + 3 ≤ fuel →
      evaluateHash n W fuel [n.m_firstPlugIndex] (Context.set ctx "loop:index" (k : Int)) =
        .ok (W.body^[k + 1] h0) := by
  induction k with
  | zero =>
    intro fuel hf
    obtain ⟨m, rfl⟩ : ∃ m, fuel = m + 3 := ⟨fuel - 3, by omega⟩
    rw [evaluateHash]
    simp [ancestorPlug, hc.nextPlug_eq, hc.previousPlug_eq, descendantPlug, descendantWalk,
      evaluateHash_previous_zero n hc W m ctx, hin]
  | succ k ih =>
    intro fuel hf
    obtain ⟨m, rfl⟩ : ∃ m, fuel = m + 2 := ⟨fuel - 2, by omega⟩
    have h1 := hc.in_lt_first
    have hne : n.m_firstPlugIndex + 1 ≠ n.m_inPlugIndex := by omega
    have hk' : (1 : Int) ≤ (k : Int) + 1 := by omega
    have ihm := ih m (by omega)
    rw [evaluateHash]
    simp only [ancestorPlug, hc.nextPlug_eq, if_true, descendantPlug, hc.previousPlug_eq,
      List.reverse_nil, descendantWalk]
    rw [evaluateHash]
    simp [ancestorPlug, hc.nextPlug_eq, hc.inPlugInternal_eq, hne, hash, hc.previousPlug_eq,
      Context.get_set_same, descendantPlug, descendantWalk, hashOf, hashEngineFrom, current,
      scopeEnter, hk', Context.set_set, ihm, Function.iterate_succ_apply']

theorem evaluateHash_out {H : Type} (n : Loop) (hc : Configured n) (W : HashWiring H)
    (ctx : Context) (N : Nat) (h0 : H) (fuel : Nat)
    (hN : n.iterationsValue = .ok (N : Int))
    (hin : W.inHash [n.m_inPlugIndex] ctx = .ok h0)
    (hin0 : W.inHash [n.m_inPlugIndex] (Context.set ctx "loop:index" 0) = .ok h0)
    (hfuel : 2 * N + 2 ≤ fuel) :
    evaluateHash n W fuel [n.m_outPlugIndex] ctx = .ok (W.body^[N] h0) := by
  have h1 := hc.out_lt_first
  have hne1 : n.m_outPlugIndex ≠ n.m_firstPlugIndex := by omega
  have hne2 : n.m_outPlugIndex ≠ n.m_firstPlugIndex + 1 := by omega
  have hne3 : n.m_outPlugIndex ≠ n.m_inPlugIndex := Ne.symm hc.in_ne_out
  obtain ⟨m, rfl⟩ : ∃ m, fuel = m + 1 := ⟨fuel - 1, by omega⟩
  rw [evaluateHash]
  simp only [ancestorPlug, hc.nextPlug_eq, hc.inPlugInternal_eq]
  cases N with
  | zero =>
    obtain ⟨m', rfl⟩ : ∃ m', m = m' + 1 := ⟨m - 1, by omega⟩
    have hN0 : n.iterationsValue = .ok 0 := by simpa using hN
    simp [hne1, hne2, hne3, hash, ancestorPlug, hc.previousPlug_eq, hc.outPlugInternal_eq, hN0,
      hc.inPlugInternal_eq, descendantPlug, descendantWalk, hashOf, hashEngineFrom, current,
      evaluateHash_in n hc W m', hin]
  | succ k =>
    have hk : ((k + 1 : Nat) : Int) ≠ 0 := by omega
    have hk' : ((k + 1 : Nat) : Int) - 1 = (k : Int) := by omega
    have hev := evaluateHash_next n hc W ctx h0 hin0 k m (by omega)
    simp only [hash, ancestorPlug, hc.previousPlug_eq, hc.outPlugInternal_eq, hN, hk, hk',
      hc.nextPlug_eq, descendantPlug, descendantWalk, hashOf, hashEngineFrom, current,
      scopeEnter, List.reverse_nil, List.headD_cons, if_false, if_true]
    simp [hne1, hne2, hne3, hev]


theorem iterate_ne_of_injective {H : Type} (g : H → H) (h0 : H) (hinj : Function.Injective g)
    (hfree : ∀ k : Nat, 1 ≤ k → g^[k] h0 ≠ h0) (N N' : Nat) (hne : N ≠ N') :
    g^[N] h0 ≠ g^[N'] h0 := by
  have key : ∀ a b : Nat, a < b → g^[a] h0 ≠ g^[b] h0 := by
    intro a b hab heq
    obtain ⟨d, rfl⟩ : ∃ d, b = a + d := ⟨b - a, by omega⟩
    rw [Function.iterate_add_apply] at heq
    have := (Function.Injective.iterate hinj a) heq
    exact hfree d (by omega) this.symm
  rcases Nat.lt_or_gt_of_ne hne with h | h
  · exact key N N' h
  · exact fun heq => key N' N h heq.symm

/-- C16, amended: for two configured nodes that differ in `iterations` (`N` and
`N'`), an `in` whose hash is the same under `ctx` and under `ctx` with
`loop:index` 0, and a body whose hash function is `W.body`, the hash of `out` is
`W.body` applied `N` times, respectively `N'` times, to the hash of `in`. The two
hashes differ exactly when those iterates differ, which is the case whenever
`N ≠ N'`, `W.body` is injective and no iterate of it maps the hash of `in`
back to itself. -/
theorem hash_out_iterations {H : Type} (n n' : Loop) (hc : Configured n) (hc' : Configured n')
    (W : HashWiring H) (ctx : Context) (N N' : Nat) (h0 : H) (fuel : Nat)
    (hN : n.iterationsValue = .ok (N : Int)) (hN' : n'.iterationsValue = .ok (N' : Int))
    (hsame : n'.m_inPlugIndex = n.m_inPlugIndex)
    (hin : W.inHash [n.m_inPlugIndex] ctx = .ok h0)
    (hin0 : W.inHash [n.m_inPlugIndex] (Context.set ctx "loop:index" 0) = .ok h0)
    (hfuel : 2 * N + 2 ≤ fuel) (hfuel' : 2 * N' + 2 ≤ fuel) :
    evaluateHash n W fuel [n.m_outPlugIndex] ctx = .ok (W.body^[N] h0) ∧
    evaluateHash n' W fuel [n'.m_outPlugIndex] ctx = .ok (W.body^[N'] h0) ∧
    (evaluateHash n W fuel [n.m_outPlugIndex] ctx ≠ evaluateHash n' W fuel [n'.m_outPlugIndex] ctx
      ↔ W.body^[N] h0 ≠ W.body^[N'] h0) ∧
    (N ≠ N' → Function.Injective W.body → (∀ k : Nat, 1 ≤ k → W.body^[k] h0 ≠ h0) →
      evaluateHash n W fuel [n.m_outPlugIndex] ctx ≠
        evaluateHash n' W fuel [n'.m_outPlugIndex] ctx) := by
  have e1 := evaluateHash_out n hc W ctx N h0 fuel hN hin hin0 hfuel
  have e2 := evaluateHash_out n' hc' W ctx N' h0 fuel hN' (by rw [hsame]; exact hin)
    (by rw [hsame]; exact hin0) hfuel'
  refine ⟨e1, e2, ?_, ?_⟩
  · rw [e1, e2]
    simp
  · intro hne hinj hfree
    rw [e1, e2]
    intro heq
    exact iterate_ne_of_injective W.body h0 hinj hfree N N' hne (Except.ok.inj heq)

/-- Witness for C16: a body adding 1 to the hash gives different hashes for 1
and 2 iterations. -/
theorem hash_out_iterations_witness :
    Configured (scalarLoop 1) ∧ Configured (scalarLoop 2) ∧
    (scalarLoop 1).iterationsValue = .ok ((1 : Nat) : Int) ∧
    (scalarLoop 2).iterationsValue = .ok ((2 : Nat) : Int) ∧
    (1 : Nat) ≠ 2 ∧ Function.Injective countingBody.body ∧
    (∀ k : Nat, 1 ≤ k → countingBody.body^[k] 5 ≠ 5) ∧
    evaluateHash (scalarLoop 1) countingBody 6 [(scalarLoop 1).m_outPlugIndex] [("frame", 1)] ≠
      evaluateHash (scalarLoop 2) countingBody 6 [(scalarLoop 2).m_outPlugIndex] [("frame", 1)] := by
  have hinj : Function.Injective countingBody.body := by
    intro a b hab
    simpa [countingBody] using hab
  have hiter : ∀ k : Nat, countingBody.body^[k] 5 = 5 + (k : Int) := by
    intro k
    induction k with
    | zero => simp
    | succ k ih =>
      rw [Function.iterate_succ_apply', ih]
      simp [countingBody]
      omega
  have hfree : ∀ k : Nat, 1 ≤ k → countingBody.body^[k] 5 ≠ 5 := by
    intro k hk
    rw [hiter]
    omega
  exact ⟨scalarLoop_configured 1, scalarLoop_configured 2, rfl, rfl, by decide, hinj, hfree,
    (hash_out_iterations (scalarLoop 1) (scalarLoop 2) (scalarLoop_configured 1)
      (scalarLoop_configured 2) countingBody [("frame", 1)] 1 2 5 6 rfl rfl rfl rfl rfl
      (by decide) (by decide)).2.2.2 (by decide) hinj hfree⟩

/-- Counterexample for C16 as stated: a body that is not the identity, because
it overwrites what it reads, gives `out` the same hash for 1 and for 2
iterations. -/
theorem hash_out_iterations_counterexample :
    overwritingBody.body ≠ id ∧ (1 : Int) ≠ 2 ∧
    (scalarLoop 1).iterationsValue = .ok 1 ∧ (scalarLoop 2).iterationsValue = .ok 2 ∧
    evaluateHash (scalarLoop 1) overwritingBody 6 [2] [("frame", 1)] =
      evaluateHash (scalarLoop 2) overwritingBody 6 [2] [("frame", 1)] := by
  refine ⟨?_, by decide, rfl, rfl, ?_⟩
  · intro h
    have := congrFun h 5
    simp [overwritingBody] at this
  · have e1 := evaluateHash_out (scalarLoop 1) (scalarLoop_configured 1) overwritingBody
      [("frame", 1)] 1 5 6 rfl rfl rfl (by decide)
    have e2 := evaluateHash_out (scalarLoop 2) (scalarLoop_configured 2) overwritingBody
      [("frame", 1)] 2 5 6 rfl rfl rfl (by decide)
    exact e1.trans e2.symm

end Loop

namespace Loop

/-! ## The order of the relative name -/

theorem ancestorPlug_snd_getElem (n : Loop) (s : List Nat) (i : Nat) :
    (n.ancestorPlug (s ++ [i]) []).2.length = s.length ∧
    ∀ j, j < s.length →
      (n.ancestorPlug (s ++ [i]) []).2[j]? = some (n.getName (s.drop j ++ [i])) := by
  induction s with
  | nil => simp [ancestorPlug]
  | cons x s ih =>
    obtain ⟨y, p, hyp⟩ : ∃ y p, s ++ [i] = y :: p := by
      cases s with
      | nil => exact ⟨i, [], rfl⟩
      | cons y s => exact ⟨y, s ++ [i], rfl⟩
    have hcons : (n.ancestorPlug (x :: s ++ [i]) []).2 =
        n.getName (x :: s ++ [i]) :: (n.ancestorPlug (s ++ [i]) []).2 := by
      rw [List.cons_append, hyp]
      exact ancestorPlug_cons_snd n x y p
    rw [hcons]
    refine ⟨by simp [ih.1], ?_⟩
    intro j hj
    cases j with
    | zero => simp
    | succ j =>
      have hj' : j < s.length := by simpa using hj
      simpa using ih.2 j hj'

/-- Counterexample for C21 as stated: for `in.b.c` of the structured node the
top-level plug is `in` and the relative name is `c`, `b`; element 0 is the name
of `c` itself and not the name `b` of the plug at depth 1. -/
theorem ancestorPlug_relativeName_leaf_first_counterexample :
    ((structuredLoop 3).ancestorPlug [0, 1, 1] []).1 = some [1] ∧
    ((structuredLoop 3).ancestorPlug [0, 1, 1] []).2 = ["c", "b"] ∧
    (structuredLoop 3).getName [1, 1] = "b" ∧
    (structuredLoop 3).getName [0, 1, 1] = "c" ∧
    ((structuredLoop 3).ancestorPlug [0, 1, 1] []).2[0]? ≠
      some ((structuredLoop 3).getName [1, 1]) := by
  refine ⟨rfl, rfl, rfl, rfl, ?_⟩
  decide

/-- C21, amended: the relative name `ancestorPlug` produces for a plug `p` at
depth `k ≥ 1` below a top-level plug has `k` elements, and element `j` is the
name of the plug `j` levels above `p` on the path to it: the name of `p`
itself comes first and the name of the child of the top-level plug last. On a
chain of value plugs the relative name is the reverse of the names read from
the top-level plug down to `p`. -/
theorem ancestorPlug_relativeName_leaf_first (n : Loop) (s : List Nat) (i : Nat) :
    (n.ancestorPlug (s ++ [i]) []).2.length = s.length ∧
    (∀ j, j < s.length →
      (n.ancestorPlug (s ++ [i]) []).2[j]? = some (n.getName (s.drop j ++ [i]))) ∧
    (ValuePlugChain n (s ++ [i]) →
      (n.ancestorPlug (s ++ [i]) []).2 = (n.namesBelowAncestor (s ++ [i])).reverse) := by
  refine ⟨(ancestorPlug_snd_getElem n s i).1, (ancestorPlug_snd_getElem n s i).2, ?_⟩
  intro hv
  rw [← ancestorPlug_reverse_names n s i hv, List.reverse_reverse]

/-- Witness for C21 on `in.b.c` of the structured node: the relative name is
`c`, `b`, the reverse of the names read downwards. -/
theorem ancestorPlug_relativeName_leaf_first_witness :
    ValuePlugChain (structuredLoop 3) ([0, 1] ++ [1]) ∧
    ((structuredLoop 3).ancestorPlug ([0, 1] ++ [1]) []).2 = ["c", "b"] ∧
    (structuredLoop 3).namesBelowAncestor ([0, 1] ++ [1]) = ["b", "c"] ∧
    ((structuredLoop 3).ancestorPlug ([0, 1] ++ [1]) []).2 =
      ((structuredLoop 3).namesBelowAncestor ([0, 1] ++ [1])).reverse :=
  ⟨structuredLoop_valuePlugChain 3, rfl, rfl,
    (ancestorPlug_relativeName_leaf_first (structuredLoop 3) [0, 1] 1).2.2
      (structuredLoop_valuePlugChain 3)⟩

/-! ## The accessors for `in` and `out` after set-up -/

theorem internal_accessors_of_nonzero (l : List Plug) (m : Loop) (h : Outcome l m)
    (hin : (unconfigured l).getChild [] "in" ≠ none)
    (hout : (unconfigured l).getChild [] "out" ≠ none) :
    (m.m_inPlugIndex ≠ 0 → m.inPlugInternal = m.getChild [] "in") ∧
    (m.m_outPlugIndex ≠ 0 → m.outPlugInternal = m.getChild [] "out") ∧
    m.getChild [] "in" = some [m.m_inPlugIndex] ∧
    m.getChild [] "out" = some [m.m_outPlugIndex] := by
  obtain ⟨l1, l2, i, o, inPlug, outPlug, rfl, hi, ho, hip, hop, hlen, rfl⟩ :=
    outcome_of_present l m h hin hout
  have gi := getChild_root_append (unconfigured l1) "in" [i]
    ([nextFor inPlug, previousFor outPlug, newIntPlug "iterations" .In 10 0] ++ l2) hi
  have go := getChild_root_append (unconfigured l1) "out" [o]
    ([nextFor inPlug, previousFor outPlug, newIntPlug "iterations" .In 10 0] ++ l2) ho
  have hil : i < l1.length := (List.getElem?_eq_some.mp hip).1
  have hol : o < l1.length := (List.getElem?_eq_some.mp hop).1
  have gi' : Loop.getChild
      { children := l1 ++ [nextFor inPlug, previousFor outPlug,
          newIntPlug "iterations" .In 10 0] ++ l2,
        m_inPlugIndex := i, m_outPlugIndex := o, m_firstPlugIndex := l1.length,
        childAddedConnected := false } [] "in" = some [i] := by
    rw [← gi]
    exact getChild_children_congr _ _ "in" (by simp [unconfigured])
  have go' : Loop.getChild
      { children := l1 ++ [nextFor inPlug, previousFor outPlug,
          newIntPlug "iterations" .In 10 0] ++ l2,
        m_inPlugIndex := i, m_outPlugIndex := o, m_firstPlugIndex := l1.length,
        childAddedConnected := false } [] "out" = some [o] := by
    rw [← go]
    exact getChild_children_congr _ _ "out" (by simp [unconfigured])
  refine ⟨?_, ?_, gi', go'⟩
  · intro hne
    rw [gi']
    simp only [ne_eq] at hne
    simp [inPlugInternal, hne, getChildAt]
    omega
  · intro hne
    rw [go']
    simp only [ne_eq] at hne
    simp [outPlugInternal, hne, getChildAt]
    omega

/-- Counterexample for C22 as stated: a node whose base type provides `in` and
`out` as its first two children. Set-up succeeds and records index 0 for `in`;
`getChild` finds `in` at index 0, yet `inPlugInternal()` returns null, which is
not the child named `in`, while `outPlugInternal()`, `nextPlug()`,
`previousPlug()` and `iterationsPlug()` return their plugs. -/
theorem inPlugInternal_first_child_null :
    ∃ m : Loop,
      constructThenAdd 2 [leafPlug "in" .In, leafPlug "out" .Out] [] = .ok m ∧
      m.getChild [] "in" = some [0] ∧ m.m_inPlugIndex = 0 ∧ m.inPlugInternal = none ∧
      m.getChild [] "out" = some [1] ∧ m.outPlugInternal = some [1] ∧
      m.nextPlug = some [2] ∧ m.previousPlug = some [3] ∧ m.iterationsPlug = some [4] ∧
      m.inPlugInternal ≠ m.getChild [] "in" :=
  ⟨_, rfl, rfl, rfl, rfl, rfl, rfl, rfl, rfl, rfl, by decide⟩

end Loop

namespace Loop

/-! ## The plug `hash` reads -/

theorem ancestorPlug_below (n : Loop) (s : List Nat) (a : Nat) :
    n.ancestorPlug (s ++ [a]) [] = (some [a], (n.ancestorPlug (s ++ [a]) []).2) :=
  Prod.ext (ancestorPlug_append_fst n s a []) rfl

theorem structuredLoop_chain (N : Int) (k : Nat) (hk : k = 1 ∨ k = 2 ∨ k = 3 ∨ k = 4) :
    ValuePlugChain (structuredLoop N) ([0, 1] ++ [k]) := by
  intro t ht hs
  simp only [List.cons_append, List.nil_append, List.suffix_cons_iff, List.suffix_nil] at hs
  rcases hk with rfl | rfl | rfl | rfl <;> rcases hs with rfl | rfl | rfl | rfl <;>
    first | rfl | exact absurd rfl ht

theorem structuredLoop_configured (N : Int) : Configured (structuredLoop N) :=
  ⟨by simp [structuredLoop], by simp [structuredLoop], by simp [structuredLoop],
    by simp [structuredLoop], by simp [structuredLoop], by simp [structuredLoop]⟩

/-- C2: on a set-up node whose siblings carry different names, for a plug `p`
that is `out` (`s` empty) or lies below `out` through value plugs, called with
the ambient context `ctx`: the top-level plug `ancestorPlug` finds for `p` is
`out`. If `iterations` is 0, then for the plug `q` below `in` reached by the
names that lead from `out` to `p`, `descendantPlug` returns `q` and the hash
is the engine's hash of `q` under `ctx`, the scopes being left as they were.
Otherwise, for the plug `q` below `next` reached by those names,
`descendantPlug` returns `q` and the hash is the engine's hash of `q` under a
context whose `loop:index` is `iterations - 1` and which agrees with `ctx` on
every other key. -/
theorem hash_out (n : Loop) {H V : Type} (E : Engine H V) (hc : Configured n)
    (hu : UniqueNames n) (s : List Nat) (ctx : Context) (h : H) (stack : List Context) (N : Int)
    (hs : ValuePlugChain n (s ++ [n.m_outPlugIndex]))
    (hN : n.iterationsValue = .ok N)
    (hamb : current stack = ctx) :
    (n.ancestorPlug (s ++ [n.m_outPlugIndex]) []).1 = n.outPlugInternal ∧
    (N = 0 → ∀ t : List Nat, ValuePlugChain n (t ++ [n.m_inPlugIndex]) →
      n.namesBelowAncestor (t ++ [n.m_inPlugIndex]) =
        n.namesBelowAncestor (s ++ [n.m_outPlugIndex]) →
      (n.ancestorPlug (t ++ [n.m_inPlugIndex]) []).1 = n.inPlugInternal ∧
      n.descendantPlug n.inPlugInternal (n.ancestorPlug (s ++ [n.m_outPlugIndex]) []).2 =
        .ok (some (t ++ [n.m_inPlugIndex])) ∧
      n.hash E (s ++ [n.m_outPlugIndex]) ctx h stack =
        (E.plugHash (t ++ [n.m_inPlugIndex]) ctx, stack)) ∧
    (N ≠ 0 → ∀ t : List Nat, ValuePlugChain n (t ++ [n.m_firstPlugIndex]) →
      n.namesBelowAncestor (t ++ [n.m_firstPlugIndex]) =
        n.namesBelowAncestor (s ++ [n.m_outPlugIndex]) →
      (n.ancestorPlug (t ++ [n.m_firstPlugIndex]) []).1 = n.nextPlug ∧
      n.descendantPlug n.nextPlug (n.ancestorPlug (s ++ [n.m_outPlugIndex]) []).2 =
        .ok (some (t ++ [n.m_firstPlugIndex])) ∧
      ∃ ctx' : Context,
        n.hash E (s ++ [n.m_outPlugIndex]) ctx h stack =
          (E.plugHash (t ++ [n.m_firstPlugIndex]) ctx', stack) ∧
        Context.find ctx' "loop:index" = some (N - 1) ∧
        ∀ k : String, k ≠ "loop:index" → Context.find ctx' k = Context.find ctx k) := by
  have hanc := ancestorPlug_below n s n.m_outPlugIndex
  have hfl := hc.first_le
  have hil := hc.in_lt_first
  have hol := hc.out_lt_first
  have ho : n.outPlugInternal = some [n.m_outPlugIndex] := by
    have h4 : n.m_outPlugIndex < n.children.length := by omega
    simp [outPlugInternal, getChildAt, hc.outIndex_ne_zero, h4]
  have hi : n.inPlugInternal = some [n.m_inPlugIndex] := by
    have h4 : n.m_inPlugIndex < n.children.length := by omega
    simp [inPlugInternal, getChildAt, hc.inIndex_ne_zero, h4]
  have hx : n.nextPlug = some [n.m_firstPlugIndex] := by
    have h3 : n.m_firstPlugIndex ≠ 0 := by omega
    have h4 : n.m_firstPlugIndex < n.children.length := by omega
    simp [nextPlug, getChildAt, h3, h4]
  have hp : n.previousPlug = some [n.m_firstPlugIndex + 1] := by
    have h3 : n.m_firstPlugIndex ≠ 0 := by omega
    have h4 : n.m_firstPlugIndex + 1 < n.children.length := by omega
    simp [previousPlug, getChildAt, h3, h4]
  have hne : (some [n.m_outPlugIndex] : PlugPtr) ≠ n.previousPlug := by
    rw [hp]
    intro e
    have e1 : n.m_outPlugIndex = n.m_firstPlugIndex + 1 := by simpa using e
    omega
  refine ⟨by rw [ho]; exact ancestorPlug_append_fst n s _ [], ?_, ?_⟩
  · intro h0 t ht hnames
    have hd : n.descendantPlug (some [n.m_inPlugIndex])
        (n.ancestorPlug (s ++ [n.m_outPlugIndex]) []).2 = .ok (some (t ++ [n.m_inPlugIndex])) := by
      unfold descendantPlug
      rw [ancestorPlug_reverse_names n s _ hs, ← hnames, ← ancestorPlug_reverse_names n t _ ht]
      exact descendantWalk_ancestorPlug n hu t _ ht
    refine ⟨by rw [hi]; exact ancestorPlug_append_fst n t _ [], hi ▸ hd, ?_⟩
    rw [hash, hanc]
    simp [hne, ho, hN, h0, hamb, hi, hd, hashOf]
  · intro h0 t ht hnames
    have hd : n.descendantPlug (some [n.m_firstPlugIndex])
        (n.ancestorPlug (s ++ [n.m_outPlugIndex]) []).2 = .ok (some (t ++ [n.m_firstPlugIndex])) := by
      unfold descendantPlug
      rw [ancestorPlug_reverse_names n s _ hs, ← hnames, ← ancestorPlug_reverse_names n t _ ht]
      exact descendantWalk_ancestorPlug n hu t _ ht
    refine ⟨by rw [hx]; exact ancestorPlug_append_fst n t _ [], hx ▸ hd,
      Context.set ctx "loop:index" (N - 1), ?_, Context.find_set_same _ _ _, ?_⟩
    · rw [hash, hanc]
      simp [hne, ho, hN, h0, hx, hd, hashOf, current_scopeEnter, scopeExit_scopeEnter]
    · intro k hk
      exact Context.find_set_other _ _ _ _ hk

/-- Witness for C2 on `out.b.c` of the structured node with 3 iterations: the
plug consulted is `next.b.c`, under `loop:index` equal to 2, and the hash is
the answer of the engine for that plug. -/
theorem hash_out_witness :
    Configured (structuredLoop 3) ∧
    UniqueNames (structuredLoop 3) ∧
    ValuePlugChain (structuredLoop 3) ([0, 1] ++ [(structuredLoop 3).m_outPlugIndex]) ∧
    (structuredLoop 3).iterationsValue = .ok 3 ∧
    current [[("frame", 1)]] = [("frame", 1)] ∧
    (3 : Int) ≠ 0 ∧
    ValuePlugChain (structuredLoop 3) ([0, 1] ++ [(structuredLoop 3).m_firstPlugIndex]) ∧
    (structuredLoop 3).namesBelowAncestor ([0, 1] ++ [(structuredLoop 3).m_firstPlugIndex]) =
      (structuredLoop 3).namesBelowAncestor ([0, 1] ++ [(structuredLoop 3).m_outPlugIndex]) ∧
    (structuredLoop 3).namesBelowAncestor [0, 1, 3] = ["b", "c"] ∧
    (structuredLoop 3).outPlugInternal = some [2] ∧
    (structuredLoop 3).nextPlug = some [3] ∧
    (structuredLoop 3).hash recorder [0, 1, 2] [("frame", 1)] (.plug [] []) [[("frame", 1)]] =
      (.ok (.plug [0, 1, 3] [("frame", 1), ("loop:index", 2)]), [[("frame", 1)]]) ∧
    ((structuredLoop 3).hash pathSumEngine [0, 1, 2] [("frame", 1)] 0 [[("frame", 1)]]).1 =
      .ok 4 ∧
    (structuredLoop 0).hash recorder [0, 1, 2] [("frame", 1)] (.plug [] []) [[("frame", 1)]] =
      (.ok (.plug [0, 1, 1] [("frame", 1)]), [[("frame", 1)]]) ∧
    (((structuredLoop 3).ancestorPlug ([0, 1] ++ [(structuredLoop 3).m_firstPlugIndex]) []).1 =
        (structuredLoop 3).nextPlug ∧
      (structuredLoop 3).descendantPlug (structuredLoop 3).nextPlug
          ((structuredLoop 3).ancestorPlug ([0, 1] ++ [(structuredLoop 3).m_outPlugIndex]) []).2 =
        .ok (some ([0, 1] ++ [(structuredLoop 3).m_firstPlugIndex])) ∧
      ∃ ctx' : Context,
        (structuredLoop 3).hash pathSumEngine ([0, 1] ++ [(structuredLoop 3).m_outPlugIndex])
            [("frame", 1)] 0 [[("frame", 1)]] =
          (pathSumEngine.plugHash ([0, 1] ++ [(structuredLoop 3).m_firstPlugIndex]) ctx',
            [[("frame", 1)]]) ∧
        Context.find ctx' "loop:index" = some (3 - 1) ∧
        ∀ k : String, k ≠ "loop:index" → Context.find ctx' k = Context.find [("frame", 1)] k) :=
  ⟨structuredLoop_configured 3, structuredLoop_uniqueNames, structuredLoop_chain 3 2 (by decide),
    rfl, rfl, by decide, structuredLoop_chain 3 3 (by decide), rfl, rfl, rfl, rfl, rfl, rfl, rfl,
    (hash_out (structuredLoop 3) pathSumEngine (structuredLoop_configured 3)
      structuredLoop_uniqueNames [0, 1] [("frame", 1)] 0 [[("frame", 1)]] 3
      (structuredLoop_chain 3 2 (by decide)) rfl rfl).2.2 (by decide) [0, 1]
      (structuredLoop_chain 3 3 (by decide)) rfl⟩

/-- C3: on a set-up node whose siblings carry different names, for a plug `p`
that is `previous` (`s` empty) or lies below `previous` through value plugs,
and a context whose `loop:index` is `index ≥ 1`: the top-level plug
`ancestorPlug` finds for `p` is `previous`, and for the plug `q` below `next`
reached by the names that lead from `previous` to `p`, `descendantPlug`
returns `q` and the hash is the engine's hash of `q` under a context whose
`loop:index` is `index - 1` and which agrees with `ctx` on every other key. -/
theorem hash_previous_recursive (n : Loop) {H V : Type} (E : Engine H V) (hc : Configured n)
    (hu : UniqueNames n) (s t : List Nat) (ctx : Context) (h : H) (stack : List Context)
    (index : Int)
    (hs : ValuePlugChain n (s ++ [n.m_firstPlugIndex + 1]))
    (ht : ValuePlugChain n (t ++ [n.m_firstPlugIndex]))
    (hnames : n.namesBelowAncestor (t ++ [n.m_firstPlugIndex]) =
      n.namesBelowAncestor (s ++ [n.m_firstPlugIndex + 1]))
    (hidx : Context.find ctx "loop:index" = some index)
    (hge : 1 ≤ index) :
    (n.ancestorPlug (s ++ [n.m_firstPlugIndex + 1]) []).1 = n.previousPlug ∧
    (n.ancestorPlug (t ++ [n.m_firstPlugIndex]) []).1 = n.nextPlug ∧
    n.descendantPlug n.nextPlug (n.ancestorPlug (s ++ [n.m_firstPlugIndex + 1]) []).2 =
      .ok (some (t ++ [n.m_firstPlugIndex])) ∧
    ∃ ctx' : Context,
      n.hash E (s ++ [n.m_firstPlugIndex + 1]) ctx h stack =
        (E.plugHash (t ++ [n.m_firstPlugIndex]) ctx', stack) ∧
      Context.find ctx' "loop:index" = some (index - 1) ∧
      ∀ k : String, k ≠ "loop:index" → Context.find ctx' k = Context.find ctx k := by
  have hanc := ancestorPlug_below n s (n.m_firstPlugIndex + 1)
  have hfl := hc.first_le
  have hil := hc.in_lt_first
  have hol := hc.out_lt_first
  have ho : n.outPlugInternal = some [n.m_outPlugIndex] := by
    have h4 : n.m_outPlugIndex < n.children.length := by omega
    simp [outPlugInternal, getChildAt, hc.outIndex_ne_zero, h4]
  have hi : n.inPlugInternal = some [n.m_inPlugIndex] := by
    have h4 : n.m_inPlugIndex < n.children.length := by omega
    simp [inPlugInternal, getChildAt, hc.inIndex_ne_zero, h4]
  have hx : n.nextPlug = some [n.m_firstPlugIndex] := by
    have h3 : n.m_firstPlugIndex ≠ 0 := by omega
    have h4 : n.m_firstPlugIndex < n.children.length := by omega
    simp [nextPlug, getChildAt, h3, h4]
  have hp : n.previousPlug = some [n.m_firstPlugIndex + 1] := by
    have h3 : n.m_firstPlugIndex ≠ 0 := by omega
    have h4 : n.m_firstPlugIndex + 1 < n.children.length := by omega
    simp [previousPlug, getChildAt, h3, h4]
  have hget : Context.get ctx "loop:index" 0 = index := by simp [Context.get, hidx]
  have hd : n.descendantPlug (some [n.m_firstPlugIndex])
      (n.ancestorPlug (s ++ [n.m_firstPlugIndex + 1]) []).2 = .ok (some (t ++ [n.m_firstPlugIndex])) := by
    unfold descendantPlug
    rw [ancestorPlug_reverse_names n s _ hs, ← hnames, ← ancestorPlug_reverse_names n t _ ht]
    exact descendantWalk_ancestorPlug n hu t _ ht
  refine ⟨by rw [hp]; exact ancestorPlug_append_fst n s _ [],
    by rw [hx]; exact ancestorPlug_append_fst n t _ [], hx ▸ hd,
    Context.set ctx "loop:index" (index - 1), ?_, Context.find_set_same _ _ _, ?_⟩
  · rw [hash, hanc]
    simp [hp, hget, hge, hx, hd, hashOf, current_scopeEnter, scopeExit_scopeEnter]
  · intro k hk
    exact Context.find_set_other _ _ _ _ hk

/-- Witness for C3 on `previous.b.c` with `loop:index` equal to 2: the plug
consulted is `next.b.c`, under `loop:index` equal to 1. -/
theorem hash_previous_recursive_witness :
    Configured (structuredLoop 3) ∧
    UniqueNames (structuredLoop 3) ∧
    ValuePlugChain (structuredLoop 3) ([0, 1] ++ [(structuredLoop 3).m_firstPlugIndex + 1]) ∧
    ValuePlugChain (structuredLoop 3) ([0, 1] ++ [(structuredLoop 3).m_firstPlugIndex]) ∧
    (structuredLoop 3).namesBelowAncestor ([0, 1] ++ [(structuredLoop 3).m_firstPlugIndex]) =
      (structuredLoop 3).namesBelowAncestor
        ([0, 1] ++ [(structuredLoop 3).m_firstPlugIndex + 1]) ∧
    Context.find [("frame", 1), ("loop:index", 2)] "loop:index" = some 2 ∧
    (1 : Int) ≤ 2 ∧
    (structuredLoop 3).previousPlug = some [4] ∧
    (structuredLoop 3).nextPlug = some [3] ∧
    (structuredLoop 3).hash recorder [0, 1, 4] [("frame", 1), ("loop:index", 2)]
        (.plug [] []) [[("frame", 1), ("loop:index", 2)]] =
      (.ok (.plug [0, 1, 3] [("frame", 1), ("loop:index", 1)]),
        [[("frame", 1), ("loop:index", 2)]]) ∧
    ((structuredLoop 3).hash pathSumEngine [0, 1, 4] [("frame", 1), ("loop:index", 2)] 0
        [[("frame", 1), ("loop:index", 2)]]).1 = .ok 4 ∧
    (((structuredLoop 3).ancestorPlug ([0, 1] ++ [(structuredLoop 3).m_firstPlugIndex + 1])
          []).1 = (structuredLoop 3).previousPlug ∧
      ((structuredLoop 3).ancestorPlug ([0, 1] ++ [(structuredLoop 3).m_firstPlugIndex]) []).1 =
        (structuredLoop 3).nextPlug ∧
      (structuredLoop 3).descendantPlug (structuredLoop 3).nextPlug
          ((structuredLoop 3).ancestorPlug
            ([0, 1] ++ [(structuredLoop 3).m_firstPlugIndex + 1]) []).2 =
        .ok (some ([0, 1] ++ [(structuredLoop 3).m_firstPlugIndex])) ∧
      ∃ ctx' : Context,
        (structuredLoop 3).hash pathSumEngine
            ([0, 1] ++ [(structuredLoop 3).m_firstPlugIndex + 1])
            [("frame", 1), ("loop:index", 2)] 0 [[("frame", 1), ("loop:index", 2)]] =
          (pathSumEngine.plugHash ([0, 1] ++ [(structuredLoop 3).m_firstPlugIndex]) ctx',
            [[("frame", 1), ("loop:index", 2)]]) ∧
        Context.find ctx' "loop:index" = some (2 - 1) ∧
        ∀ k : String, k ≠ "loop:index" →
          Context.find ctx' k = Context.find [("frame", 1), ("loop:index", 2)] k) :=
  ⟨structuredLoop_configured 3, structuredLoop_uniqueNames, structuredLoop_chain 3 4 (by decide),
    structuredLoop_chain 3 3 (by decide), rfl, rfl, by decide, rfl, rfl, rfl, rfl,
    hash_previous_recursive (structuredLoop 3) pathSumEngine (structuredLoop_configured 3)
      structuredLoop_uniqueNames [0, 1] [0, 1] [("frame", 1), ("loop:index", 2)] 0
      [[("frame", 1), ("loop:index", 2)]] 2 (structuredLoop_chain 3 4 (by decide))
      (structuredLoop_chain 3 3 (by decide)) rfl rfl (by decide)⟩

/-- C4: on a set-up node whose siblings carry different names, for a plug `p`
that is `previous` (`s` empty) or lies below `previous` through value plugs,
and a context whose `loop:index` is 0 or absent, called with the ambient
context `ctx`: the top-level plug `ancestorPlug` finds for `p` is `previous`,
and for the plug `q` below `in` reached by the names that lead from `previous`
to `p`, `descendantPlug` returns `q` and the hash is the engine's hash of `q`
under `ctx` itself, the scopes being left as they were. `in` is neither `next`
nor `previous`; against the engine that records each request the one request
made is `q` under `ctx`; and the result is the same for every engine that
answers alike for `q` under `ctx`, however it answers for `next` and
`previous`. -/
theorem hash_previous_base (n : Loop) {H V : Type} (E : Engine H V) (hc : Configured n)
    (hu : UniqueNames n) (s t : List Nat) (ctx : Context) (h : H) (stack : List Context)
    (hs : ValuePlugChain n (s ++ [n.m_firstPlugIndex + 1]))
    (ht : ValuePlugChain n (t ++ [n.m_inPlugIndex]))
    (hnames : n.namesBelowAncestor (t ++ [n.m_inPlugIndex]) =
      n.namesBelowAncestor (s ++ [n.m_firstPlugIndex + 1]))
    (hidx : Context.find ctx "loop:index" = some 0 ∨ Context.find ctx "loop:index" = none)
    (hamb : current stack = ctx) :
    (n.ancestorPlug (s ++ [n.m_firstPlugIndex + 1]) []).1 = n.previousPlug ∧
    (n.ancestorPlug (t ++ [n.m_inPlugIndex]) []).1 = n.inPlugInternal ∧
    n.inPlugInternal ≠ n.nextPlug ∧ n.inPlugInternal ≠ n.previousPlug ∧
    n.descendantPlug n.inPlugInternal (n.ancestorPlug (s ++ [n.m_firstPlugIndex + 1]) []).2 =
      .ok (some (t ++ [n.m_inPlugIndex])) ∧
    n.hash E (s ++ [n.m_firstPlugIndex + 1]) ctx h stack =
      (E.plugHash (t ++ [n.m_inPlugIndex]) ctx, stack) ∧
    (∀ h0 : Consulted, n.hash recorder (s ++ [n.m_firstPlugIndex + 1]) ctx h0 stack =
      (.ok (.plug (t ++ [n.m_inPlugIndex]) ctx), stack)) ∧
    ∀ E' : Engine H V,
      E'.plugHash (t ++ [n.m_inPlugIndex]) ctx = E.plugHash (t ++ [n.m_inPlugIndex]) ctx →
      n.hash E' (s ++ [n.m_firstPlugIndex + 1]) ctx h stack =
        n.hash E (s ++ [n.m_firstPlugIndex + 1]) ctx h stack := by
  have hanc := ancestorPlug_below n s (n.m_firstPlugIndex + 1)
  have hfl := hc.first_le
  have hil := hc.in_lt_first
  have hol := hc.out_lt_first
  have ho : n.outPlugInternal = some [n.m_outPlugIndex] := by
    have h4 : n.m_outPlugIndex < n.children.length := by omega
    simp [outPlugInternal, getChildAt, hc.outIndex_ne_zero, h4]
  have hi : n.inPlugInternal = some [n.m_inPlugIndex] := by
    have h4 : n.m_inPlugIndex < n.children.length := by omega
    simp [inPlugInternal, getChildAt, hc.inIndex_ne_zero, h4]
  have hx : n.nextPlug = some [n.m_firstPlugIndex] := by
    have h3 : n.m_firstPlugIndex ≠ 0 := by omega
    have h4 : n.m_firstPlugIndex < n.children.length := by omega
    simp [nextPlug, getChildAt, h3, h4]
  have hp : n.previousPlug = some [n.m_firstPlugIndex + 1] := by
    have h3 : n.m_firstPlugIndex ≠ 0 := by omega
    have h4 : n.m_firstPlugIndex + 1 < n.children.length := by omega
    simp [previousPlug, getChildAt, h3, h4]
  have hget : Context.get ctx "loop:index" 0 = 0 := by
    rcases hidx with h0 | h0 <;> simp [Context.get, h0]
  have hd : n.descendantPlug (some [n.m_inPlugIndex])
      (n.ancestorPlug (s ++ [n.m_firstPlugIndex + 1]) []).2 = .ok (some (t ++ [n.m_inPlugIndex])) := by
    unfold descendantPlug
    rw [ancestorPlug_reverse_names n s _ hs, ← hnames, ← ancestorPlug_reverse_names n t _ ht]
    exact descendantWalk_ancestorPlug n hu t _ ht
  have key : ∀ (H0 V0 : Type) (E0 : Engine H0 V0) (h1 : H0),
      n.hash E0 (s ++ [n.m_firstPlugIndex + 1]) ctx h1 stack =
        (E0.plugHash (t ++ [n.m_inPlugIndex]) ctx, stack) := by
    intro H0 V0 E0 h1
    rw [hash, hanc]
    simp [hp, hget, hi, hd, hashOf, hamb]
  refine ⟨by rw [hp]; exact ancestorPlug_append_fst n s _ [],
    by rw [hi]; exact ancestorPlug_append_fst n t _ [], ?_, ?_, hi ▸ hd, key H V E h,
    fun h0 => key _ _ recorder h0, ?_⟩
  · rw [hi, hx]
    intro e
    have e1 : n.m_inPlugIndex = n.m_firstPlugIndex := by simpa using e
    omega
  · rw [hi, hp]
    intro e
    have e1 : n.m_inPlugIndex = n.m_firstPlugIndex + 1 := by simpa using e
    omega
  · intro E' hE'
    rw [key H V E' h, key H V E h, hE']

/-- Witness for C4 on `previous.b.c` under a context without `loop:index`: the
one plug consulted is `in.b.c`, under the context of the call. -/
theorem hash_previous_base_witness :
    Configured (structuredLoop 3) ∧
    UniqueNames (structuredLoop 3) ∧
    ValuePlugChain (structuredLoop 3) ([0, 1] ++ [(structuredLoop 3).m_firstPlugIndex + 1]) ∧
    ValuePlugChain (structuredLoop 3) ([0, 1] ++ [(structuredLoop 3).m_inPlugIndex]) ∧
    (structuredLoop 3).namesBelowAncestor ([0, 1] ++ [(structuredLoop 3).m_inPlugIndex]) =
      (structuredLoop 3).namesBelowAncestor
        ([0, 1] ++ [(structuredLoop 3).m_firstPlugIndex + 1]) ∧
    (Context.find [("frame", 1)] "loop:index" = some 0 ∨
      Context.find [("frame", 1)] "loop:index" = none) ∧
    current [[("frame", 1)]] = [("frame", 1)] ∧
    (structuredLoop 3).previousPlug = some [4] ∧
    (structuredLoop 3).inPlugInternal = some [1] ∧
    ((structuredLoop 3).hash pathSumEngine [0, 1, 4] [("frame", 1)] 0 [[("frame", 1)]]).1 =
      .ok 2 ∧
    (structuredLoop 3).hash recorder [0, 1, 4] [("frame", 1)] (.plug [] []) [[("frame", 1)]] =
      (.ok (.plug [0, 1, 1] [("frame", 1)]), [[("frame", 1)]]) ∧
    (((structuredLoop 3).ancestorPlug ([0, 1] ++ [(structuredLoop 3).m_firstPlugIndex + 1])
          []).1 = (structuredLoop 3).previousPlug ∧
      ((structuredLoop 3).ancestorPlug ([0, 1] ++ [(structuredLoop 3).m_inPlugIndex]) []).1 =
        (structuredLoop 3).inPlugInternal ∧
      (structuredLoop 3).inPlugInternal ≠ (structuredLoop 3).nextPlug ∧
      (structuredLoop 3).inPlugInternal ≠ (structuredLoop 3).previousPlug ∧
      (structuredLoop 3).descendantPlug (structuredLoop 3).inPlugInternal
          ((structuredLoop 3).ancestorPlug
            ([0, 1] ++ [(structuredLoop 3).m_firstPlugIndex + 1]) []).2 =
        .ok (some ([0, 1] ++ [(structuredLoop 3).m_inPlugIndex])) ∧
      (structuredLoop 3).hash pathSumEngine
          ([0, 1] ++ [(structuredLoop 3).m_firstPlugIndex + 1]) [("frame", 1)] 0
          [[("frame", 1)]] =
        (pathSumEngine.plugHash ([0, 1] ++ [(structuredLoop 3).m_inPlugIndex]) [("frame", 1)],
          [[("frame", 1)]]) ∧
      (∀ h0 : Consulted,
        (structuredLoop 3).hash recorder
            ([0, 1] ++ [(structuredLoop 3).m_firstPlugIndex + 1]) [("frame", 1)] h0
            [[("frame", 1)]] =
          (.ok (.plug ([0, 1] ++ [(structuredLoop 3).m_inPlugIndex]) [("frame", 1)]),
            [[("frame", 1)]])) ∧
      ∀ E' : Engine Int Int,
        E'.plugHash ([0, 1] ++ [(structuredLoop 3).m_inPlugIndex]) [("frame", 1)] =
          pathSumEngine.plugHash ([0, 1] ++ [(structuredLoop 3).m_inPlugIndex])
            [("frame", 1)] →
        (structuredLoop 3).hash E' ([0, 1] ++ [(structuredLoop 3).m_firstPlugIndex + 1])
            [("frame", 1)] 0 [[("frame", 1)]] =
          (structuredLoop 3).hash pathSumEngine
            ([0, 1] ++ [(structuredLoop 3).m_firstPlugIndex + 1]) [("frame", 1)] 0
            [[("frame", 1)]]) :=
  ⟨structuredLoop_configured 3, structuredLoop_uniqueNames, structuredLoop_chain 3 4 (by decide),
    structuredLoop_chain 3 1 (by decide), rfl, Or.inr rfl, rfl, rfl, rfl, rfl, rfl,
    hash_previous_base (structuredLoop 3) pathSumEngine (structuredLoop_configured 3)
      structuredLoop_uniqueNames [0, 1] [0, 1] [("frame", 1)] 0 [[("frame", 1)]]
      (structuredLoop_chain 3 4 (by decide)) (structuredLoop_chain 3 1 (by decide)) rfl
      (Or.inr rfl) rfl⟩

/-! ## The accessors for `in` and `out`, position by position -/

/-- C22, amended: for a node built over the children `base` and then given the
children `cs`, among which there are value plugs named `in` and `out`, so that
`setupPlugs` has succeeded: the children named `in` and `out` are those at the
recorded indices; at every recorded index other than 0 `inPlugInternal()` and
`outPlugInternal()` return these children; and at index 0, the value by which
the accessors tell that set-up has not happened, they return null. -/
theorem internal_accessors_after_setup (fuel : Nat) (base cs : List Plug) (m : Loop)
    (h : constructThenAdd (fuel + 1) base cs = .ok m)
    (hin : (unconfigured (base ++ cs)).getChild [] "in" ≠ none)
    (hout : (unconfigured (base ++ cs)).getChild [] "out" ≠ none) :
    m.getChild [] "in" = some [m.m_inPlugIndex] ∧
    m.getChild [] "out" = some [m.m_outPlugIndex] ∧
    (m.m_inPlugIndex ≠ 0 → m.inPlugInternal = some [m.m_inPlugIndex]) ∧
    (m.m_outPlugIndex ≠ 0 → m.outPlugInternal = some [m.m_outPlugIndex]) ∧
    (m.m_inPlugIndex = 0 → m.inPlugInternal = none) ∧
    (m.m_outPlugIndex = 0 → m.outPlugInternal = none) := by
  obtain ⟨m', hm', ho⟩ := constructThenAdd_outcome fuel base cs
  have hmm : m' = m := by
    rw [hm'] at h
    exact Except.ok.inj h
  subst hmm
  obtain ⟨h1, h2, h3, h4⟩ := internal_accessors_of_nonzero (base ++ cs) m' ho hin hout
  refine ⟨h3, h4, fun hne => (h1 hne).trans h3, fun hne => (h2 hne).trans h4, ?_, ?_⟩
  · intro h0
    simp [inPlugInternal, h0]
  · intro h0
    simp [outPlugInternal, h0]

/-- Witness for C22: a node built over `user` and `out` and then given `in`.
`in` is the child at index 2 and `out` the child at index 1, and the accessors
return them. -/
theorem internal_accessors_after_setup_witness :
    ∃ m : Loop,
      constructThenAdd (1 + 1) [leafPlug "user" .In, leafPlug "out" .Out] [leafPlug "in" .In] =
        .ok m ∧
      (unconfigured ([leafPlug "user" .In, leafPlug "out" .Out] ++ [leafPlug "in" .In])).getChild
        [] "in" ≠ none ∧
      (unconfigured ([leafPlug "user" .In, leafPlug "out" .Out] ++ [leafPlug "in" .In])).getChild
        [] "out" ≠ none ∧
      m.m_inPlugIndex = 2 ∧ m.m_outPlugIndex = 1 ∧
      m.inPlugInternal = some [2] ∧ m.outPlugInternal = some [1] ∧
      (m.getChild [] "in" = some [m.m_inPlugIndex] ∧
        m.getChild [] "out" = some [m.m_outPlugIndex] ∧
        (m.m_inPlugIndex ≠ 0 → m.inPlugInternal = some [m.m_inPlugIndex]) ∧
        (m.m_outPlugIndex ≠ 0 → m.outPlugInternal = some [m.m_outPlugIndex]) ∧
        (m.m_inPlugIndex = 0 → m.inPlugInternal = none) ∧
        (m.m_outPlugIndex = 0 → m.outPlugInternal = none)) :=
  ⟨_, rfl, by decide, by decide, rfl, rfl, rfl, rfl,
    internal_accessors_after_setup 1 [leafPlug "user" .In, leafPlug "out" .Out]
      [leafPlug "in" .In] _ rfl (by decide) (by decide)⟩

end Loop

end Gaffer

namespace IECoreArnold

open Gaffer (Failure)

theorem takeWhile_ne_eq_self (l : List Char) (h : Char.ofNat 0 ∉ l) : fromCString l = l := by
  unfold fromCString
  rw [List.takeWhile_eq_self_iff]
  intro x hx
  simp only [ne_eq, decide_eq_true_eq]
  intro heq
  exact h (heq ▸ hx)

/-- With `.` as the separator and no NUL in the string, the two functions are
the first and last component of Python's `partition`. -/
theorem partition_dot (s : String) (h : Char.ofNat 0 ∉ s.data) :
    partitionStart s '.' = (pythonPartition s '.').1 ∧
    partitionEnd s '.' = (pythonPartition s '.').2.2 := by
  unfold partitionStart partitionEnd pythonPartition
  cases hf : findFirstOf '.' s.data with
  | none => exact ⟨rfl, rfl⟩
  | some i =>
    refine ⟨rfl, ?_⟩
    simp only
    rw [takeWhile_ne_eq_self]
    intro hmem
    exact h (List.mem_of_mem_drop hmem)

/-- C17 at failing inputs: with `:` as the separator, `partitionStart` and
`partitionEnd` split `out.r` at the dot, where Python's `partition` finds no
separator, and do not split `a:b`, where Python's `partition` does. -/
theorem partition_ignores_separator :
    partitionStart "out.r" ':' = "out" ∧ (pythonPartition "out.r" ':').1 = "out.r" ∧
    partitionEnd "out.r" ':' = "r" ∧ (pythonPartition "out.r" ':').2.2 = "" ∧
    partitionStart "a:b" ':' = "a:b" ∧ (pythonPartition "a:b" ':').1 = "a" ∧
    partitionEnd "a:b" ':' = "" ∧ (pythonPartition "a:b" ':').2.2 = "b" := by
  refine ⟨?_, ?_, ?_, ?_, ?_, ?_, ?_, ?_⟩ <;> decide

theorem lookupKey_none_iff (k : Key) (m : ShaderMap) :
    lookupKey k m = none ↔ k ∉ keysOf m := by
  induction m with
  | nil => simp [lookupKey, keysOf]
  | cons e rest ih =>
    obtain ⟨k0, v⟩ := e
    by_cases hk : k0 = k
    · simp [lookupKey, keysOf, hk]
    · simp only [lookupKey, hk, if_false, keysOf, List.map_cons, List.mem_cons, not_or]
      constructor
      · intro h
        exact ⟨fun h' => hk h'.symm, by simpa [keysOf] using ih.mp h⟩
      · intro h
        exact ih.mpr (by simpa [keysOf] using h.2)

theorem keysOf_assignKey (k : Key) (v : Option Nat) (m : ShaderMap) :
    keysOf (assignKey k v m) = keysOf m := by
  induction m with
  | nil => rfl
  | cons e rest ih =>
    obtain ⟨k0, v0⟩ := e
    by_cases hk : k0 = k
    · simp [assignKey, keysOf, hk]
    · simp only [assignKey, hk, if_false, keysOf, List.map_cons] at ih ⊢
      rw [ih]

theorem filter_length_le {α : Type} (l : List α) (p q : α → Bool)
    (h : ∀ x ∈ l, q x = true → p x = true) : (l.filter q).length ≤ (l.filter p).length := by
  induction l with
  | nil => simp
  | cons a l ih =>
    have ih' := ih (fun x hx => h x (List.mem_cons_of_mem a hx))
    by_cases hq : q a = true
    · have hp := h a (List.mem_cons_self a l) hq
      simp [List.filter_cons, hq, hp, ih']
    · by_cases hp : p a = true
      · simp only [List.filter_cons, hq, hp, if_true, List.length_cons]
        simp only [Bool.not_eq_true] at hq
        simp only [hq, Bool.false_eq_true, if_false]
        omega
      · simp only [Bool.not_eq_true] at hq hp
        simp [List.filter_cons, hq, hp, ih']

theorem filter_length_lt {α : Type} (l : List α) (p q : α → Bool)
    (h : ∀ x ∈ l, q x = true → p x = true) (a : α) (ha : a ∈ l) (hp : p a = true)
    (hq : q a = false) : (l.filter q).length < (l.filter p).length := by
  induction l with
  | nil => simp at ha
  | cons b l ih =>
    have hle := filter_length_le l p q (fun x hx => h x (List.mem_cons_of_mem b hx))
    rcases List.mem_cons.mp ha with rfl | hmem
    · simp only [List.filter_cons, hq, hp, if_true, Bool.false_eq_true, if_false,
        List.length_cons]
      omega
    · have ih' := ih (fun x hx => h x (List.mem_cons_of_mem b hx)) hmem
      by_cases hqb : q b = true
      · have hpb := h b (List.mem_cons_self b l) hqb
        simp [List.filter_cons, hqb, hpb, ih']
      · simp only [Bool.not_eq_true] at hqb
        by_cases hpb : p b = true
        · simp only [List.filter_cons, hqb, hpb, if_true, Bool.false_eq_true, if_false,
            List.length_cons]
          omega
        · simp only [Bool.not_eq_true] at hpb
          simp [List.filter_cons, hqb, hpb, ih']

theorem pending_le (net : ShaderNetwork) (m m1 : ShaderMap)
    (h : ∀ k, k ∈ keysOf m → k ∈ keysOf m1) : pending net m1 ≤ pending net m := by
  unfold pending
  apply filter_length_le
  intro x _ hx
  simp only [decide_eq_true_eq] at hx ⊢
  exact fun hmem => hx (h x hmem)

theorem pending_lt (net : ShaderNetwork) (m m1 : ShaderMap)
    (h : ∀ k, k ∈ keysOf m → k ∈ keysOf m1) (k : Key)
    (hk : k ∈ (reachable net).map (keyOf net)) (hnot : k ∉ keysOf m) (hin : k ∈ keysOf m1) :
    pending net m1 < pending net m := by
  unfold pending
  apply filter_length_lt _ _ _ _ k hk
  · simpa using hnot
  · simpa using hin
  · intro x _ hx
    simp only [decide_eq_true_eq] at hx ⊢
    exact fun hmem => hx (h x hmem)

theorem Continues.refl {σ : Type} (net : ShaderNetwork) (name : String)
    (st : WalkState (σ × List (String × String))) : Continues net name st st :=
  ⟨[], by simp, by simp, by simp, id⟩

theorem Continues.trans {σ : Type} {net : ShaderNetwork} {name : String}
    {a b c : WalkState (σ × List (String × String))}
    (h1 : Continues net name a b) (h2 : Continues net name b c) : Continues net name a c := by
  obtain ⟨ps, hp, hk, hl, hn⟩ := h1
  obtain ⟨qs, hq, hk', hl', hn'⟩ := h2
  refine ⟨ps ++ qs, ?_, ?_, ?_, fun h => hn' (hn h)⟩
  · intro q hmem
    rcases List.mem_append.mp hmem with h | h
    · exact hp q h
    · exact hq q h
  · rw [hk', hk]; simp
  · rw [hl', hl]; simp

theorem Continues.keys_subset {σ : Type} {net : ShaderNetwork} {name : String}
    {a b : WalkState (σ × List (String × String))} (h : Continues net name a b) :
    ∀ k, k ∈ keysOf a.converted → k ∈ keysOf b.converted := by
  obtain ⟨ps, _, hk, _, _⟩ := h
  intro k hmem
  rw [hk]
  exact List.mem_append_left _ hmem

theorem Continues.pending_mono {σ : Type} {net : ShaderNetwork} {name : String}
    {a b : WalkState (σ × List (String × String))} (h : Continues net name a b) :
    pending net b.converted ≤ pending net a.converted :=
  IECoreArnold.pending_le net _ _ h.keys_subset

theorem source_reachable (net : ShaderNetwork) (c : Connection) (hc : c ∈ net.connections) :
    c.source ∈ reachable net :=
  List.mem_cons_of_mem _ (List.mem_map.mpr ⟨c, hc, rfl⟩)

theorem walkConnections_terminates {σ : Type}
    (creator : σ → String → String → Option Nat × σ) (net : ShaderNetwork) (name : String)
    (fuel : Nat)
    (hwalk : ∀ (p : Parameter) (st : WalkState (σ × List (String × String))),
      p ∈ reachable net → pending net st.converted < fuel →
      ∃ r st1, convertWalk (recording creator) net name fuel p st = .ok (r, st1) ∧
        Continues net name st st1)
    (cs : List Connection) (hcs : ∀ c ∈ cs, c ∈ net.connections) :
    ∀ st : WalkState (σ × List (String × String)), pending net st.converted < fuel →
      ∃ st1, walkConnections (convertWalk (recording creator) net name fuel) cs st = .ok st1 ∧
        Continues net name st st1 := by
  induction cs with
  | nil =>
    intro st _
    exact ⟨st, rfl, Continues.refl net name st⟩
  | cons c cs ih =>
    intro st hst
    obtain ⟨r, st1, hw, hc1⟩ := hwalk c.source st
      (source_reachable net c (hcs c (List.mem_cons_self c cs))) hst
    obtain ⟨st2, hw2, hc2⟩ := ih (fun d hd => hcs d (List.mem_cons_of_mem c hd)) st1
      (lt_of_le_of_lt hc1.pending_mono hst)
    refine ⟨st2, ?_, hc1.trans hc2⟩
    rw [walkConnections, hw]
    exact hw2

theorem convertWalk_terminates {σ : Type}
    (creator : σ → String → String → Option Nat × σ) (net : ShaderNetwork) (name : String)
    (hwf : ∀ p ∈ reachable net, net.getShader p.shader ≠ none) :
    ∀ (fuel : Nat) (p : Parameter) (st : WalkState (σ × List (String × String))),
      p ∈ reachable net → pending net st.converted < fuel →
      ∃ r st1, convertWalk (recording creator) net name fuel p st = .ok (r, st1) ∧
        Continues net name st st1 := by
  intro fuel
  induction fuel with
  | zero => intro p st _ h; exact absurd h (Nat.not_lt_zero _)
  | succ fuel ih =>
    intro p st hp hst
    obtain ⟨shader, hsh⟩ := Option.ne_none_iff_exists'.mp (hwf p hp)
    have hkey : keyOf net p = (p.shader, oslOutputOf shader p) := by simp [keyOf, hsh]
    have hargs : creatorArgsOf net name p = (nodeTypeOf shader, nodeNameOf net name shader p) := by
      simp [creatorArgsOf, hsh]
    rw [convertWalk]
    simp only [hsh]
    cases hl : lookupKey (p.shader, oslOutputOf shader p) st.converted with
    | some node => exact ⟨node, st, rfl, Continues.refl net name st⟩
    | none =>
      simp only
      have hnot : keyOf net p ∉ keysOf st.converted := by
        rw [hkey]; exact (lookupKey_none_iff _ _).mp hl
      have hlog : (recording creator st.arnold (nodeTypeOf shader)
          (nodeNameOf net name shader p)).2.2 = st.arnold.2 ++ [creatorArgsOf net name p] := by
        simp [recording, hargs]
      generalize recording creator st.arnold (nodeTypeOf shader)
        (nodeNameOf net name shader p) = created at hlog ⊢
      obtain ⟨r, u⟩ := created
      simp only at hlog ⊢
      have hkeys : keysOf (assignKey (p.shader, oslOutputOf shader p) r
          (st.converted ++ [((p.shader, oslOutputOf shader p), none)])) =
          keysOf st.converted ++ [keyOf net p] := by
        rw [keysOf_assignKey, hkey]
        simp [keysOf]
      have hc1 : Continues net name st
          { arnold := u
            nodes := st.nodes
            converted := assignKey (p.shader, oslOutputOf shader p) r
              (st.converted ++ [((p.shader, oslOutputOf shader p), none)]) } := by
        refine ⟨[p], ?_, ?_, ?_, ?_⟩
        · intro q hq
          rw [List.mem_singleton] at hq
          exact hq ▸ hp
        · simpa using hkeys
        · simpa using hlog
        · intro hnd
          simp only
          rw [hkeys]
          exact List.Nodup.append hnd (List.nodup_singleton _)
            (by
              intro a ha hb
              rw [List.mem_singleton] at hb
              exact hnot (hb ▸ ha))
      have hpend : pending net (assignKey (p.shader, oslOutputOf shader p) r
          (st.converted ++ [((p.shader, oslOutputOf shader p), none)])) < fuel := by
        have hlt := pending_lt net st.converted _ hc1.keys_subset (keyOf net p)
          (List.mem_map.mpr ⟨p, hp, rfl⟩) hnot (by simp only; rw [hkeys]; simp)
        simp only at hlt
        omega
      cases r with
      | none => exact ⟨none, _, rfl, hc1⟩
      | some node =>
        simp only
        obtain ⟨st2, hw2, hc2⟩ := walkConnections_terminates creator net name fuel ih
          (net.inputConnections p.shader)
          (fun c hc => (List.mem_filter.mp hc).1)
          { arnold := u
            nodes := st.nodes
            converted := assignKey (p.shader, oslOutputOf shader p) (some node)
              (st.converted ++ [((p.shader, oslOutputOf shader p), none)]) } hpend
        rw [hw2]
        refine ⟨some node, _, rfl, hc1.trans (hc2.trans ?_)⟩
        obtain ⟨ps, h1, h2, h3, h4⟩ := Continues.refl net name st2
        exact ⟨ps, h1, h2, h3, h4⟩

theorem pending_nil_le (net : ShaderNetwork) : pending net [] ≤ net.connections.length + 1 := by
  unfold pending
  refine le_trans (List.length_filter_le _ _) ?_
  simp [reachable]

theorem keyOf_non_osl (net : ShaderNetwork) (p q : Parameter) (shader : Shader)
    (hs : net.getShader p.shader = some shader) (hosl : isOSLShader shader = false)
    (hq : q.shader = p.shader) : keyOf net q = keyOf net p := by
  simp [keyOf, hq, hs, oslOutputOf, hosl]

/-- C18: for every network whose referenced shaders exist, cyclic or not, the
walk from the output returns as soon as the fuel exceeds the number of
connections by 2. The calls made to the node creator are, in order, the calls
for a list of parameters whose keys are exactly the keys of `converted`, in
insertion order, and those keys are pairwise different: one call per pair of
shader handle and OSL output. For a shader that is not an OSL shader the key
does not depend on the parameter name. -/
theorem convertWalk_reuses_nodes {σ : Type} (creator : σ → String → String → Option Nat × σ)
    (net : ShaderNetwork) (name : String) (u : σ) (fuel : Nat)
    (hwf : ∀ p ∈ reachable net, net.getShader p.shader ≠ none)
    (hfuel : net.connections.length + 2 ≤ fuel) :
    ∃ (r : Option Nat) (st : WalkState (σ × List (String × String))) (ps : List Parameter),
      convertWalk (recording creator) net name fuel net.output (emptyWalk (u, [])) = .ok (r, st) ∧
      st.arnold.2 = ps.map (creatorArgsOf net name) ∧
      keysOf st.converted = ps.map (keyOf net) ∧
      (keysOf st.converted).Nodup ∧
      (∀ q ∈ ps, q ∈ reachable net) ∧
      (∀ (p q : Parameter) (shader : Shader), net.getShader p.shader = some shader →
        isOSLShader shader = false → q.shader = p.shader → keyOf net q = keyOf net p) := by
  have hpend : pending net (emptyWalk (u, ([] : List (String × String)))).converted < fuel :=
    lt_of_le_of_lt (pending_nil_le net) (by omega)
  obtain ⟨r, st, hw, ps, hps, hk, hl, hn⟩ := convertWalk_terminates creator net name hwf fuel
    net.output (emptyWalk (u, [])) (List.mem_cons_self _ _) hpend
  refine ⟨r, st, ps, hw, ?_, ?_, ?_, hps, fun p q shader => keyOf_non_osl net p q shader⟩
  · simpa [emptyWalk] using hl
  · simpa [emptyWalk, keysOf] using hk
  · exact hn (by simp [emptyWalk, keysOf])

theorem cyclicNetwork_wellFormed :
    ∀ p ∈ reachable cyclicNetwork, cyclicNetwork.getShader p.shader ≠ none := by
  decide

/-- Witness for C18 on a cyclic network: four calls for six connections, one
for the surface, one for `tint` although it is read through two parameters,
and one for each of the two top-level outputs of the OSL pattern. -/
theorem convertWalk_reuses_nodes_witness :
    (∀ p ∈ reachable cyclicNetwork, cyclicNetwork.getShader p.shader ≠ none) ∧
    cyclicNetwork.connections.length + 2 ≤ 8 ∧
    (∃ (r : Option Nat) (st : WalkState (Nat × List (String × String))) (ps : List Parameter),
      convertWalk (recording countingCreator) cyclicNetwork "shader" 8 cyclicNetwork.output
        (emptyWalk (0, [])) = .ok (r, st) ∧
      st.arnold.2 = ps.map (creatorArgsOf cyclicNetwork "shader") ∧
      keysOf st.converted = ps.map (keyOf cyclicNetwork) ∧
      (keysOf st.converted).Nodup ∧
      (∀ q ∈ ps, q ∈ reachable cyclicNetwork) ∧
      (∀ (p q : Parameter) (shader : Shader), cyclicNetwork.getShader p.shader = some shader →
        isOSLShader shader = false → q.shader = p.shader →
        keyOf cyclicNetwork q = keyOf cyclicNetwork p)) ∧
    (∃ st : WalkState (Nat × List (String × String)),
      convertWalk (recording countingCreator) cyclicNetwork "shader" 8 cyclicNetwork.output
        (emptyWalk (0, [])) = .ok (some 0, st) ∧
      st.arnold.2 = [("standard_surface", "shader"), ("osl", "shader:pattern:out"),
        ("flat", "shader:tint"), ("osl", "shader:pattern:alt")] ∧
      keysOf st.converted =
        [("surface", ""), ("pattern", "out"), ("tint", ""), ("pattern", "alt")]) :=
  ⟨cyclicNetwork_wellFormed, by decide,
    convertWalk_reuses_nodes countingCreator cyclicNetwork "shader" 0 8 cyclicNetwork_wellFormed
      (by decide),
    ⟨_, rfl, rfl, rfl⟩⟩

/-! ## `convert` on a shader that does not load -/

/-- C24: the network of one shader that carries blind data and whose node type
does not load, for every name and every positive fuel. The output handle is
not empty, the node creator returns null, the walk returns null having pushed
nothing, and `convert` then reads `back()` of the empty list. -/
theorem convert_back_of_empty_result (fuel : Nat) (name : String) :
    taggedNetwork.output.shader ≠ "" ∧
    (∃ shader, taggedNetwork.getShader taggedNetwork.output.shader = some shader ∧
      shader.blindData = ["user:tag"] ∧
      AiNode withoutMySurface emptyUniverse (nodeTypeOf shader)
        (nodeNameOf taggedNetwork name shader taggedNetwork.output) = (none, emptyUniverse)) ∧
    (∃ st, convertWalk (AiNode withoutMySurface) taggedNetwork name (fuel + 1)
        taggedNetwork.output (emptyWalk emptyUniverse) = .ok (none, st) ∧ st.nodes = []) ∧
    back [] = .error .emptyBack ∧
    convert id withoutMySurface (fuel + 1) taggedNetwork emptyUniverse name =
      .error .emptyBack := by
  refine ⟨by decide, ⟨_, rfl, rfl, rfl⟩, ⟨_, rfl, rfl⟩, rfl, rfl⟩

/-! ## Walks with any node creator -/

theorem walkConnections_preserves {σ : Type}
    (creator : σ → String → String → Option Nat × σ) (net : ShaderNetwork) (name : String)
    (J : σ → Prop) (P : σ → Nat → Prop) (fuel : Nat)
    (hwalk : ∀ (p : Parameter) (st : WalkState σ),
      p ∈ reachable net → pending net st.converted < fuel → J st.arnold →
      (∀ nd ∈ st.nodes, P st.arnold nd) →
      ∃ r st1, convertWalk creator net name fuel p st = .ok (r, st1) ∧
        (∀ k, k ∈ keysOf st.converted → k ∈ keysOf st1.converted) ∧ J st1.arnold ∧
        (∀ nd ∈ st1.nodes, P st1.arnold nd) ∧ (∀ nd, P st.arnold nd → P st1.arnold nd))
    (cs : List Connection) (hcs : ∀ c ∈ cs, c ∈ net.connections) :
    ∀ st : WalkState σ, pending net st.converted < fuel → J st.arnold →
      (∀ nd ∈ st.nodes, P st.arnold nd) →
      ∃ st1, walkConnections (convertWalk creator net name fuel) cs st = .ok st1 ∧
        (∀ k, k ∈ keysOf st.converted → k ∈ keysOf st1.converted) ∧ J st1.arnold ∧
        (∀ nd ∈ st1.nodes, P st1.arnold nd) ∧ (∀ nd, P st.arnold nd → P st1.arnold nd) := by
  induction cs with
  | nil =>
    intro st _ hJ hP
    exact ⟨st, rfl, fun _ h => h, hJ, hP, fun _ h => h⟩
  | cons c cs ih =>
    intro st hst hJ hP
    obtain ⟨r, st1, hw, hk1, hJ1, hP1, hm1⟩ := hwalk c.source st
      (source_reachable net c (hcs c (List.mem_cons_self c cs))) hst hJ hP
    obtain ⟨st2, hw2, hk2, hJ2, hP2, hm2⟩ := ih (fun d hd => hcs d (List.mem_cons_of_mem c hd))
      st1 (lt_of_le_of_lt (pending_le net _ _ hk1) hst) hJ1 hP1
    refine ⟨st2, ?_, fun k h => hk2 k (hk1 k h), hJ2, hP2, fun nd h => hm2 nd (hm1 nd h)⟩
    rw [walkConnections, hw]
    exact hw2

theorem convertWalk_preserves {σ : Type}
    (creator : σ → String → String → Option Nat × σ) (net : ShaderNetwork) (name : String)
    (hwf : WellFormed net) (J : σ → Prop) (P : σ → Nat → Prop)
    (hstate : ∀ s t nm, J s → J (creator s t nm).2)
    (hkeep : ∀ s t nm nd, J s → P s nd → P (creator s t nm).2 nd)
    (hresult : ∀ s t nm nd, J s → (creator s t nm).1 = some nd → P (creator s t nm).2 nd) :
    ∀ (fuel : Nat) (p : Parameter) (st : WalkState σ),
      p ∈ reachable net → pending net st.converted < fuel → J st.arnold →
      (∀ nd ∈ st.nodes, P st.arnold nd) →
      ∃ r st1, convertWalk creator net name fuel p st = .ok (r, st1) ∧
        (∀ k, k ∈ keysOf st.converted → k ∈ keysOf st1.converted) ∧ J st1.arnold ∧
        (∀ nd ∈ st1.nodes, P st1.arnold nd) ∧ (∀ nd, P st.arnold nd → P st1.arnold nd) := by
  intro fuel
  induction fuel with
  | zero => intro p st _ h; exact absurd h (Nat.not_lt_zero _)
  | succ fuel ih =>
    intro p st hp hst hJ hP
    obtain ⟨shader, hsh⟩ := Option.ne_none_iff_exists'.mp (hwf p hp)
    have hkey : keyOf net p = (p.shader, oslOutputOf shader p) := by simp [keyOf, hsh]
    rw [convertWalk]
    simp only [hsh]
    cases hl : lookupKey (p.shader, oslOutputOf shader p) st.converted with
    | some node => exact ⟨node, st, rfl, fun _ h => h, hJ, hP, fun _ h => h⟩
    | none =>
      simp only
      have hnot : keyOf net p ∉ keysOf st.converted := by
        rw [hkey]; exact (lookupKey_none_iff _ _).mp hl
      have hJ1 := hstate st.arnold (nodeTypeOf shader) (nodeNameOf net name shader p) hJ
      have hK1 := hkeep st.arnold (nodeTypeOf shader) (nodeNameOf net name shader p)
      have hR1 := hresult st.arnold (nodeTypeOf shader) (nodeNameOf net name shader p)
      generalize creator st.arnold (nodeTypeOf shader)
        (nodeNameOf net name shader p) = created at hJ1 hK1 hR1 ⊢
      obtain ⟨r, u⟩ := created
      simp only at hJ1 hK1 hR1 ⊢
      have hkeys : keysOf (assignKey (p.shader, oslOutputOf shader p) r
          (st.converted ++ [((p.shader, oslOutputOf shader p), none)])) =
          keysOf st.converted ++ [keyOf net p] := by
        rw [keysOf_assignKey, hkey]
        simp [keysOf]
      have hsub : ∀ k, k ∈ keysOf st.converted →
          k ∈ keysOf (assignKey (p.shader, oslOutputOf shader p) r
            (st.converted ++ [((p.shader, oslOutputOf shader p), none)])) := by
        intro k hk
        rw [hkeys]
        exact List.mem_append_left _ hk
      have hpend : pending net (assignKey (p.shader, oslOutputOf shader p) r
          (st.converted ++ [((p.shader, oslOutputOf shader p), none)])) < fuel := by
        have hlt := pending_lt net st.converted _ hsub (keyOf net p)
          (List.mem_map.mpr ⟨p, hp, rfl⟩) hnot (by rw [hkeys]; simp)
        omega
      cases r with
      | none =>
        exact ⟨none, _, rfl, hsub, hJ1, fun nd hnd => hK1 nd hJ (hP nd hnd),
          fun nd h => hK1 nd hJ h⟩
      | some node =>
        simp only
        obtain ⟨st2, hw2, hk2, hJ2, hP2, hm2⟩ := walkConnections_preserves creator net name J P
          fuel ih (net.inputConnections p.shader) (fun c hc => (List.mem_filter.mp hc).1)
          { arnold := u
            nodes := st.nodes
            converted := assignKey (p.shader, oslOutputOf shader p) (some node)
              (st.converted ++ [((p.shader, oslOutputOf shader p), none)]) } hpend hJ1
          (fun nd hnd => hK1 nd hJ (hP nd hnd))
        rw [hw2]
        refine ⟨some node, _, rfl, fun k h => hk2 k (hsub k h), hJ2, ?_,
          fun nd h => hm2 nd (hK1 nd hJ h)⟩
        intro nd hnd
        simp only [List.mem_append, List.mem_singleton] at hnd
        rcases hnd with h | rfl
        · exact hP2 nd h
        · exact hm2 nd (hR1 nd hJ rfl)

/-! ## The order of the nodes `convert` returns -/

theorem lookupKey_some_mem (k : Key) (v : Option Nat) (m : ShaderMap)
    (h : lookupKey k m = some v) : (k, v) ∈ m := by
  induction m with
  | nil => simp [lookupKey] at h
  | cons e rest ih =>
    obtain ⟨k0, v0⟩ := e
    by_cases hk : k0 = k
    · simp only [lookupKey, hk, if_true, Option.some.injEq] at h
      simp [hk, h]
    · simp only [lookupKey, hk, if_false] at h
      exact List.mem_cons_of_mem _ (ih h)

theorem assignKey_append_new (k : Key) (v w : Option Nat) (m : ShaderMap)
    (h : k ∉ keysOf m) : assignKey k v (m ++ [(k, w)]) = m ++ [(k, v)] := by
  induction m with
  | nil => simp [assignKey]
  | cons e rest ih =>
    obtain ⟨k0, v0⟩ := e
    have hk : k0 ≠ k := by
      intro hk
      exact h (by simp [keysOf, hk])
    have hrest : k ∉ keysOf rest := by
      intro hmem
      exact h (by simp only [keysOf, List.map_cons, List.mem_cons]; exact Or.inr hmem)
    have e := ih hrest
    simp only [List.cons_append, assignKey, hk, if_false]
    exact congrArg _ e

theorem lookupShader_mem (handle : String) (s : Shader) (l : List (String × Shader))
    (h : lookupShader handle l = some s) : (handle, s) ∈ l := by
  induction l with
  | nil => simp [lookupShader] at h
  | cons e rest ih =>
    obtain ⟨h0, s0⟩ := e
    by_cases hk : h0 = handle
    · simp only [lookupShader, hk, if_true, Option.some.injEq] at h
      simp [hk, h]
    · simp only [lookupShader, hk, if_false] at h
      exact List.mem_cons_of_mem _ (ih h)

theorem aiNode_of_loads (loads : String → Bool) (u : Universe) (t nm : String)
    (h : loads t = true) :
    AiNode loads u t nm =
      (some u.created.length, { created := u.created ++ [⟨t, nm⟩], destroyed := u.destroyed }) := by
  simp [AiNode, h]

theorem before_append (a b : Nat) (l l1 : List Nat) (h : Before a b l) :
    Before a b (l ++ l1) := by
  obtain ⟨ha, hb, hlt⟩ := h
  refine ⟨List.mem_append_left _ ha, List.mem_append_left _ hb, ?_⟩
  rw [List.indexOf_append_of_mem ha, List.indexOf_append_of_mem hb]
  exact hlt

theorem before_snoc (a b : Nat) (l : List Nat) (ha : a ∈ l) (hb : b ∉ l) :
    Before a b (l ++ [b]) := by
  refine ⟨List.mem_append_left _ ha, by simp, ?_⟩
  rw [List.indexOf_append_of_mem ha, List.indexOf_append_of_not_mem hb]
  have := List.indexOf_lt_length.mpr ha
  omega

theorem walkInv_value (net : ShaderNetwork) (base : Nat) (st : WalkState Universe)
    (h : WalkInv net base st) (k : Key) (v : Option Nat) (hm : (k, v) ∈ st.converted) :
    ∃ nd, v = some nd ∧ base ≤ nd ∧ nd < st.arnold.created.length := by
  have hv : v ∈ st.converted.map (fun e => e.2) := List.mem_map.mpr ⟨(k, v), hm, rfl⟩
  rw [h.values] at hv
  obtain ⟨nd, hnd, rfl⟩ := List.mem_map.mp hv
  obtain ⟨i, hi, rfl⟩ := List.mem_range'.mp hnd
  have := h.base_le
  exact ⟨_, rfl, by omega, by omega⟩

theorem walkInv_key_unique (net : ShaderNetwork) (base : Nat) (st : WalkState Universe)
    (h : WalkInv net base st) (k1 k2 : Key) (nd : Nat)
    (h1 : (k1, some nd) ∈ st.converted) (h2 : (k2, some nd) ∈ st.converted) : k1 = k2 := by
  have hnd : (st.converted.map (fun e => e.2)).Nodup := by
    rw [h.values]
    exact (List.nodup_range' _ _).map (Option.some_injective _)
  have := List.inj_on_of_nodup_map hnd h1 h2 rfl
  exact congrArg Prod.fst this

theorem walkInv_exists_key (net : ShaderNetwork) (base : Nat) (st : WalkState Universe)
    (h : WalkInv net base st) (nd : Nat) (hb : base ≤ nd)
    (hl : nd < st.arnold.created.length) : ∃ k, (k, some nd) ∈ st.converted := by
  have hv : some nd ∈ (List.range' base (st.arnold.created.length - base)).map some := by
    refine List.mem_map.mpr ⟨nd, List.mem_range'.mpr ⟨nd - base, by omega, by omega⟩, rfl⟩
  rw [← h.values] at hv
  obtain ⟨e, he, hev⟩ := List.mem_map.mp hv
  obtain ⟨k, v⟩ := e
  simp only at hev
  exact ⟨k, hev ▸ he⟩

theorem extends_refl (st : WalkState Universe) : Extends st st :=
  ⟨List.prefix_refl _, List.prefix_refl _, le_refl _, fun _ h => Or.inl h,
    fun _ _ h1 h2 => ⟨h1, h2⟩⟩

theorem extends_trans (a b c : WalkState Universe) (h1 : Extends a b) (h2 : Extends b c) :
    Extends a c := by
  refine ⟨h1.converted.trans h2.converted, h1.nodes.trans h2.nodes,
    le_trans h1.created h2.created, ?_, ?_⟩
  · intro nd hnd
    rcases h2.fresh nd hnd with h | h
    · exact h1.fresh nd h
    · exact Or.inr (le_trans h1.created h)
  · intro k nd hk hn
    obtain ⟨hk1, hn1⟩ := h2.started k nd hk hn
    exact h1.started k nd hk1 hn1

theorem walkConnections_ordered (loads : String → Bool) (net : ShaderNetwork) (name : String)
    (base fuel : Nat) (handle : String)
    (hwalk : ∀ (p : Parameter) (st : WalkState Universe) (r : Option Nat)
      (st1 : WalkState Universe) (A : String → Prop),
      convertWalk (AiNode loads) net name fuel p st = .ok (r, st1) → WalkInv net base st →
      (∀ k nd, (k, some nd) ∈ st.converted → nd ∉ st.nodes → A k.1) →
      (∀ a, A a → Relation.TransGen (dependsOn net) a p.shader) →
      WalkInv net base st1 ∧ Extends st st1 ∧
      (∃ nd, r = some nd ∧ (keyOf net p, some nd) ∈ st1.converted ∧
        (nd ∈ st1.nodes ∨ Relation.TransGen (dependsOn net) p.shader p.shader)) ∧
      (lookupKey (keyOf net p) st.converted = none → st1.nodes.getLast? = r))
    (cs : List Connection)
    (hcs : ∀ c ∈ cs, c ∈ net.connections ∧ c.destination.shader = handle) :
    ∀ (st st1 : WalkState Universe) (A : String → Prop),
      walkConnections (convertWalk (AiNode loads) net name fuel) cs st = .ok st1 →
      WalkInv net base st →
      (∀ k nd, (k, some nd) ∈ st.converted → nd ∉ st.nodes → A k.1) →
      (∀ a, A a → Relation.ReflTransGen (dependsOn net) a handle) →
      WalkInv net base st1 ∧ Extends st st1 ∧
      ∀ c ∈ cs, ∃ ns, (keyOf net c.source, some ns) ∈ st1.converted ∧
        (ns ∈ st1.nodes ∨
          Relation.TransGen (dependsOn net) c.source.shader c.source.shader) := by
  induction cs with
  | nil =>
    intro st st1 A h hinv _ _
    simp only [walkConnections, Except.ok.injEq] at h
    subst h
    exact ⟨hinv, extends_refl st, by simp⟩
  | cons c cs ih =>
    intro st st1 A h hinv hA hreach
    rw [walkConnections] at h
    cases hw : convertWalk (AiNode loads) net name fuel c.source st with
    | error f => simp [hw] at h
    | ok res =>
      obtain ⟨r, stm⟩ := res
      simp only [hw] at h
      have hc := hcs c (List.mem_cons_self c cs)
      obtain ⟨hinvm, hextm, ⟨ns, _, hns, hnsn⟩, _⟩ := hwalk c.source st r stm A hw hinv hA
        (fun a ha => Relation.TransGen.tail' (hreach a ha) ⟨c, hc.1, hc.2, rfl⟩)
      obtain ⟨hinv1, hext1, hrest⟩ := ih (fun d hd => hcs d (List.mem_cons_of_mem c hd))
        stm st1 A h hinvm
        (fun k nd hk hn => hA k nd (hextm.started k nd hk hn).1 (hextm.started k nd hk hn).2)
        hreach
      refine ⟨hinv1, extends_trans _ _ _ hextm hext1, ?_⟩
      intro d hd
      rcases List.mem_cons.mp hd with rfl | hd
      · exact ⟨ns, hext1.converted.subset hns, hnsn.imp (fun h => hext1.nodes.subset h) id⟩
      · exact hrest d hd

theorem convertWalk_ordered (loads : String → Bool) (net : ShaderNetwork) (name : String)
    (base : Nat) (hload : AllLoad loads net) :
    ∀ (fuel : Nat) (p : Parameter) (st : WalkState Universe) (r : Option Nat)
      (st1 : WalkState Universe) (A : String → Prop),
      convertWalk (AiNode loads) net name fuel p st = .ok (r, st1) → WalkInv net base st →
      (∀ k nd, (k, some nd) ∈ st.converted → nd ∉ st.nodes → A k.1) →
      (∀ a, A a → Relation.TransGen (dependsOn net) a p.shader) →
      WalkInv net base st1 ∧ Extends st st1 ∧
      (∃ nd, r = some nd ∧ (keyOf net p, some nd) ∈ st1.converted ∧
        (nd ∈ st1.nodes ∨ Relation.TransGen (dependsOn net) p.shader p.shader)) ∧
      (lookupKey (keyOf net p) st.converted = none → st1.nodes.getLast? = r) := by
  intro fuel
  induction fuel with
  | zero =>
    intro p st r st1 A h
    simp [convertWalk] at h
  | succ fuel ih =>
    intro p st r st1 A h hinv hA hreach
    rw [convertWalk] at h
    cases hsh : net.getShader p.shader with
    | none => simp [hsh] at h
    | some shader =>
      simp only [hsh] at h
      have hkey : keyOf net p = (p.shader, oslOutputOf shader p) := by simp [keyOf, hsh]
      cases hl : lookupKey (p.shader, oslOutputOf shader p) st.converted with
      | some v =>
        simp only [hl, Except.ok.injEq, Prod.mk.injEq] at h
        obtain ⟨rfl, rfl⟩ := h
        have hmem := lookupKey_some_mem _ _ _ hl
        obtain ⟨nd, rfl, _, _⟩ := walkInv_value net base st hinv _ _ hmem
        refine ⟨hinv, extends_refl st, ⟨nd, rfl, hkey ▸ hmem, ?_⟩, ?_⟩
        · by_cases hn : nd ∈ st.nodes
          · exact Or.inl hn
          · exact Or.inr (hreach _ (hA _ nd hmem hn))
        · intro hnone
          rw [hkey, hl] at hnone
          cases hnone
      | none =>
        simp only [hl] at h
        have hnot : (p.shader, oslOutputOf shader p) ∉ keysOf st.converted :=
          (lookupKey_none_iff _ _).mp hl
        have hlt : loads (nodeTypeOf shader) = true :=
          hload (p.shader, shader) (lookupShader_mem _ _ _ hsh)
        rw [aiNode_of_loads loads st.arnold _ _ hlt, assignKey_append_new _ _ _ _ hnot] at h
        simp only at h
        have hbL := hinv.base_le
        have hLnot : st.arnold.created.length ∉ st.nodes := fun hm =>
          absurd (hinv.bounds _ hm).2 (Nat.lt_irrefl _)
        have hinvA : WalkInv net base
            { arnold :=
                { created := st.arnold.created ++
                    [⟨nodeTypeOf shader, nodeNameOf net name shader p⟩],
                  destroyed := st.arnold.destroyed }
              nodes := st.nodes
              converted := st.converted ++
                [((p.shader, oslOutputOf shader p), some st.arnold.created.length)] } := by
          refine ⟨?_, ?_, ?_, hinv.nodup, ?_, ?_⟩
          · simp only [keysOf, List.map_append, List.map_cons, List.map_nil]
            refine List.Nodup.append hinv.keys (List.nodup_singleton _) ?_
            intro a ha hb
            rw [List.mem_singleton] at hb
            exact hnot (hb ▸ ha)
          · simp only [List.length_append, List.length_singleton]
            omega
          · simp only [List.map_append, List.map_cons, List.map_nil, List.length_append,
              List.length_singleton]
            rw [hinv.values]
            have e : st.arnold.created.length + 1 - base =
                (st.arnold.created.length - base) + 1 := by omega
            rw [e, List.range'_concat, List.map_append]
            simp only [List.map_cons, List.map_nil, Nat.one_mul]
            have e2 : base + (st.arnold.created.length - base) = st.arnold.created.length := by
              omega
            rw [e2]
          · intro nd hnd
            have := hinv.bounds nd hnd
            simp only [List.length_append, List.length_singleton]
            omega
          · intro k nd hk hnd c hc hd
            simp only [List.mem_append, List.mem_singleton, Prod.mk.injEq,
              Option.some.injEq] at hk
            rcases hk with hk | ⟨_, rfl⟩
            · obtain ⟨ns, hns, hb⟩ := hinv.ordered k nd hk hnd c hc hd
              exact ⟨ns, List.mem_append_left _ hns, hb⟩
            · exact absurd hnd hLnot
        cases hw : walkConnections (convertWalk (AiNode loads) net name fuel)
            (net.inputConnections p.shader)
            { arnold :=
                { created := st.arnold.created ++
                    [⟨nodeTypeOf shader, nodeNameOf net name shader p⟩],
                  destroyed := st.arnold.destroyed }
              nodes := st.nodes
              converted := st.converted ++
                [((p.shader, oslOutputOf shader p), some st.arnold.created.length)] } with
        | error f => simp [hw] at h
        | ok st2 =>
          simp only [hw, Except.ok.injEq, Prod.mk.injEq] at h
          obtain ⟨rfl, rfl⟩ := h
          obtain ⟨hinv2, hext2, hsrc⟩ := walkConnections_ordered loads net name base fuel
            p.shader ih (net.inputConnections p.shader)
            (fun c hc => ⟨(List.mem_filter.mp hc).1, by
              simpa using (List.mem_filter.mp hc).2⟩)
            _ st2 (fun a => A a ∨ a = p.shader) hw hinvA
            (by
              intro k nd hk hn
              simp only [List.mem_append, List.mem_singleton, Prod.mk.injEq,
                Option.some.injEq] at hk
              rcases hk with hk | ⟨rfl, _⟩
              · exact Or.inl (hA k nd hk hn)
              · exact Or.inr rfl)
            (by
              intro a ha
              rcases ha with ha | rfl
              · exact (hreach a ha).to_reflTransGen
              · exact Relation.ReflTransGen.refl)
          have hkm : ((p.shader, oslOutputOf shader p), some st.arnold.created.length) ∈
              st2.converted := hext2.converted.subset (by simp)
          have hL2 : st.arnold.created.length ∉ st2.nodes := by
            intro hm
            rcases hext2.fresh _ hm with h1 | h1
            · exact hLnot h1
            · simp only [List.length_append, List.length_singleton] at h1
              omega
          have hc2 := hext2.created
          simp only [List.length_append, List.length_singleton] at hc2
          refine ⟨⟨hinv2.keys, hinv2.base_le, hinv2.values, ?_, ?_, ?_⟩,
            ⟨?_, ?_, ?_, ?_, ?_⟩, ⟨_, rfl, hkey ▸ hkm, Or.inl (by simp)⟩,
            fun _ => List.getLast?_concat _⟩
          · exact List.Nodup.append hinv2.nodup (List.nodup_singleton _)
              (by
                intro a ha hb
                rw [List.mem_singleton] at hb
                exact hL2 (hb ▸ ha))
          · intro nd hnd
            simp only [List.mem_append, List.mem_singleton] at hnd
            rcases hnd with hnd | rfl
            · exact hinv2.bounds nd hnd
            · refine ⟨hbL, ?_⟩
              show st.arnold.created.length < st2.arnold.created.length
              omega
          · intro k nd hk hnd c hc hd
            simp only [List.mem_append, List.mem_singleton] at hnd
            rcases hnd with hnd | rfl
            · obtain ⟨ns, hns, hb⟩ := hinv2.ordered k nd hk hnd c hc hd
              exact ⟨ns, hns, hb.imp (before_append _ _ _ _) id⟩
            · have hk' := walkInv_key_unique net base st2 hinv2 _ _ _ hk hkm
              subst hk'
              obtain ⟨ns, hns, hnn⟩ := hsrc c (List.mem_filter.mpr ⟨hc, by simpa using hd⟩)
              exact ⟨ns, hns, hnn.imp (fun h => before_snoc _ _ _ h hL2) id⟩
          · exact (List.prefix_append _ _).trans hext2.converted
          · exact hext2.nodes.trans (List.prefix_append _ _)
          · show st.arnold.created.length ≤ st2.arnold.created.length
            omega
          · intro nd hnd
            simp only [List.mem_append, List.mem_singleton] at hnd
            rcases hnd with hnd | rfl
            · rcases hext2.fresh nd hnd with h1 | h1
              · exact Or.inl h1
              · simp only [List.length_append, List.length_singleton] at h1
                exact Or.inr (by omega)
            · exact Or.inr (le_refl _)
          · intro k nd hk hn
            simp only [List.mem_append, List.mem_singleton, not_or] at hn
            obtain ⟨hkA, hnA⟩ := hext2.started k nd hk hn.1
            simp only [List.mem_append, List.mem_singleton, Prod.mk.injEq,
              Option.some.injEq] at hkA
            rcases hkA with hkA | ⟨_, hnd⟩
            · exact ⟨hkA, hnA⟩
            · exact absurd hnd hn.2

theorem lookupKey_of_mem (k : Key) (v : Option Nat) (m : ShaderMap)
    (hn : (keysOf m).Nodup) (h : (k, v) ∈ m) : lookupKey k m = some v := by
  induction m with
  | nil => simp at h
  | cons e rest ih =>
    obtain ⟨k0, v0⟩ := e
    simp only [keysOf, List.map_cons, List.nodup_cons] at hn
    rcases List.mem_cons.mp h with heq | hmem
    · simp only [Prod.mk.injEq] at heq
      simp [lookupKey, heq.1, heq.2]
    · have hne : k0 ≠ k := by
        intro hk
        exact hn.1 (List.mem_map.mpr ⟨(k, v), hmem, hk.symm⟩)
      simp only [lookupKey, hne, if_false]
      exact ih hn.2 hmem

theorem setBlindData_ok (result : List Nat) (node : Nat) (h : result.getLast? = some node)
    (blindData : List String) : setBlindData result blindData = .ok () := by
  induction blindData with
  | nil => rfl
  | cons b rest ih => simp [setBlindData, back, h, ih]

theorem walkInv_empty (net : ShaderNetwork) (u : Universe) :
    WalkInv net u.created.length (emptyWalk u) := by
  refine ⟨?_, le_refl _, ?_, ?_, ?_, ?_⟩ <;> simp [emptyWalk, keysOf]

theorem acyclic_of_rank (net : ShaderNetwork) (rank : String → Nat)
    (h : ∀ c ∈ net.connections, rank c.source.shader < rank c.destination.shader) :
    Acyclic net := by
  have hlt : ∀ a b, Relation.TransGen (dependsOn net) a b → rank b < rank a := by
    intro a b hab
    induction hab with
    | single hs =>
      obtain ⟨c, hc, rfl, rfl⟩ := hs
      exact h c hc
    | tail _ hs ih =>
      obtain ⟨c, hc, rfl, rfl⟩ := hs
      exact lt_trans (h c hc) ih
  intro handle hh
  exact Nat.lt_irrefl _ (hlt handle handle hh)

/-- Counterexample for C23 as stated: in the network where the pattern reads
the surface back, every shader loads and `convert` returns the nodes 2, 1, 3,
0; the node 1 of the pattern has an input connection from the surface, whose
node 0 does not come before it. -/
theorem convert_dependencies_first_counterexample :
    cyclicNetwork.output.shader ≠ "" ∧ WellFormed cyclicNetwork ∧
    AllLoad everything cyclicNetwork ∧
    ∃ st : WalkState Universe,
      convertWalk (AiNode everything) cyclicNetwork "shader" 8 cyclicNetwork.output
        (emptyWalk emptyUniverse) = .ok (some 0, st) ∧
      convert id everything 8 cyclicNetwork emptyUniverse "shader" = .ok (st.nodes, st.arnold) ∧
      st.nodes = [2, 1, 3, 0] ∧
      (⟨⟨"surface", "out"⟩, ⟨"pattern", "scale"⟩⟩ : Connection) ∈
        cyclicNetwork.inputConnections "pattern" ∧
      lookupKey ("pattern", "out") st.converted = some (some 1) ∧
      nodeOf cyclicNetwork st.converted ⟨"surface", "out"⟩ = some 0 ∧
      ¬ Before 0 1 st.nodes := by
  refine ⟨by decide, cyclicNetwork_wellFormed, by unfold AllLoad; decide, _, rfl, rfl, rfl,
    by decide, rfl, rfl, ?_⟩
  intro h
  exact absurd h.2.2 (by decide)

/-- C23, amended: for a network with a non-empty output whose connections and
output name shaders of the network and in which every shader loads, with
enough fuel, `convert` returns. The list holds exactly the nodes created, each
once, and every node in it is the node of a key. The node of the source of
each input connection comes before the node itself unless the shader of that
source reads itself through a chain of connections; so in a network without
cycles every node comes after the nodes of all its sources. The last element
is the node created for the output parameter. -/
theorem convert_dependencies_first (conv : ShaderNetwork → ShaderNetwork)
    (loads : String → Bool) (fuel : Nat) (shaderNetwork : ShaderNetwork) (u : Universe)
    (name : String)
    (hout : (conv shaderNetwork).output.shader ≠ "")
    (hwf : WellFormed (conv shaderNetwork))
    (hload : AllLoad loads (conv shaderNetwork))
    (hfuel : (conv shaderNetwork).connections.length + 2 ≤ fuel) :
    ∃ (out : Nat) (st : WalkState Universe),
      convertWalk (AiNode loads) (conv shaderNetwork) name fuel (conv shaderNetwork).output
        (emptyWalk u) = .ok (some out, st) ∧
      convert conv loads fuel shaderNetwork u name = .ok (st.nodes, st.arnold) ∧
      st.nodes.Nodup ∧
      (∀ nd, nd ∈ st.nodes ↔ u.created.length ≤ nd ∧ nd < st.arnold.created.length) ∧
      (∀ nd ∈ st.nodes, ∃ k, lookupKey k st.converted = some (some nd)) ∧
      (∀ k nd, lookupKey k st.converted = some (some nd) →
        ∀ c ∈ (conv shaderNetwork).inputConnections k.1,
          ∃ ns, nodeOf (conv shaderNetwork) st.converted c.source = some ns ∧
            (Before ns nd st.nodes ∨
              Relation.TransGen (dependsOn (conv shaderNetwork))
                c.source.shader c.source.shader)) ∧
      (Acyclic (conv shaderNetwork) →
        ∀ k nd, lookupKey k st.converted = some (some nd) →
          ∀ c ∈ (conv shaderNetwork).inputConnections k.1,
            ∃ ns, nodeOf (conv shaderNetwork) st.converted c.source = some ns ∧
              Before ns nd st.nodes) ∧
      nodeOf (conv shaderNetwork) st.converted (conv shaderNetwork).output = some out ∧
      st.nodes.getLast? = some out := by
  have hpend : pending (conv shaderNetwork) (emptyWalk u).converted < fuel :=
    lt_of_le_of_lt (pending_nil_le _) (by omega)
  obtain ⟨r, st, hw, _⟩ := convertWalk_preserves (AiNode loads) (conv shaderNetwork) name hwf
    (fun _ => True) (fun _ _ => True) (fun _ _ _ _ => trivial) (fun _ _ _ _ _ _ => trivial)
    (fun _ _ _ _ _ _ => trivial) fuel (conv shaderNetwork).output (emptyWalk u)
    (List.mem_cons_self _ _) hpend trivial (fun _ _ => trivial)
  obtain ⟨hinv, hext, ⟨out, rfl, hmem, _⟩, hlast⟩ := convertWalk_ordered loads
    (conv shaderNetwork) name u.created.length hload fuel (conv shaderNetwork).output
    (emptyWalk u) r st (fun _ => False) hw (walkInv_empty _ u)
    (by intro k nd hk; simp [emptyWalk] at hk) (fun a ha => ha.elim)
  have hfin : ∀ k nd, (k, some nd) ∈ st.converted → nd ∈ st.nodes := by
    intro k nd hk
    by_contra hn
    have := (hext.started k nd hk hn).1
    simp [emptyWalk] at this
  have hl := hlast (by simp [emptyWalk, lookupKey])
  obtain ⟨shader, hsh⟩ := Option.ne_none_iff_exists'.mp
    (hwf (conv shaderNetwork).output (List.mem_cons_self _ _))
  have hord : ∀ k nd, lookupKey k st.converted = some (some nd) →
      ∀ c ∈ (conv shaderNetwork).inputConnections k.1,
        ∃ ns, nodeOf (conv shaderNetwork) st.converted c.source = some ns ∧
          (Before ns nd st.nodes ∨
            Relation.TransGen (dependsOn (conv shaderNetwork))
              c.source.shader c.source.shader) := by
    intro k nd hk c hc
    have hkm := lookupKey_some_mem _ _ _ hk
    obtain ⟨ns, hns, hb⟩ := hinv.ordered k nd hkm (hfin k nd hkm) c (List.mem_filter.mp hc).1
      (by simpa using (List.mem_filter.mp hc).2)
    exact ⟨ns, by simp [nodeOf, lookupKey_of_mem _ _ _ hinv.keys hns], hb⟩
  refine ⟨out, st, hw, ?_, hinv.nodup, ?_, ?_, hord, ?_, ?_, hl⟩
  · simp only [convert, hout, if_false, hw, hsh, setBlindData_ok st.nodes out hl]
  · intro nd
    constructor
    · intro h
      exact hinv.bounds nd h
    · intro h
      obtain ⟨k, hk⟩ := walkInv_exists_key _ _ st hinv nd h.1 h.2
      exact hfin k nd hk
  · intro nd hnd
    obtain ⟨k, hk⟩ := walkInv_exists_key _ _ st hinv nd (hinv.bounds nd hnd).1
      (hinv.bounds nd hnd).2
    exact ⟨k, lookupKey_of_mem _ _ _ hinv.keys hk⟩
  · intro hac k nd hk c hc
    obtain ⟨ns, hns, hb⟩ := hord k nd hk c hc
    exact ⟨ns, hns, hb.resolve_right (hac _)⟩
  · simp [nodeOf, lookupKey_of_mem _ _ _ hinv.keys hmem]

theorem layeredNetwork_acyclic : Acyclic layeredNetwork :=
  acyclic_of_rank layeredNetwork
    (fun s => if s = "surface" then 2 else if s = "pattern" then 1 else 0) (by decide)

/-- Witness for C23 on a surface reading a pattern and a tint, the pattern
reading the tint: the tint comes first and the surface last. -/
theorem convert_dependencies_first_witness :
    (id layeredNetwork).output.shader ≠ "" ∧ WellFormed (id layeredNetwork) ∧
    AllLoad everything (id layeredNetwork) ∧
    (id layeredNetwork).connections.length + 2 ≤ 8 ∧ Acyclic (id layeredNetwork) ∧
    (∃ st : WalkState Universe,
      convert id everything 8 layeredNetwork emptyUniverse "shader" = .ok (st.nodes, st.arnold) ∧
      st.nodes = [2, 1, 3, 0] ∧
      keysOf st.converted =
        [("surface", ""), ("pattern", "out"), ("tint", ""), ("pattern", "alt")]) ∧
    ∃ (out : Nat) (st : WalkState Universe),
      convertWalk (AiNode everything) (id layeredNetwork) "shader" 8 (id layeredNetwork).output
        (emptyWalk emptyUniverse) = .ok (some out, st) ∧
      convert id everything 8 layeredNetwork emptyUniverse "shader" = .ok (st.nodes, st.arnold) ∧
      st.nodes.Nodup ∧
      (∀ nd, nd ∈ st.nodes ↔
        emptyUniverse.created.length ≤ nd ∧ nd < st.arnold.created.length) ∧
      (∀ nd ∈ st.nodes, ∃ k, lookupKey k st.converted = some (some nd)) ∧
      (∀ k nd, lookupKey k st.converted = some (some nd) →
        ∀ c ∈ (id layeredNetwork).inputConnections k.1,
          ∃ ns, nodeOf (id layeredNetwork) st.converted c.source = some ns ∧
            (Before ns nd st.nodes ∨
              Relation.TransGen (dependsOn (id layeredNetwork))
                c.source.shader c.source.shader)) ∧
      (Acyclic (id layeredNetwork) →
        ∀ k nd, lookupKey k st.converted = some (some nd) →
          ∀ c ∈ (id layeredNetwork).inputConnections k.1,
            ∃ ns, nodeOf (id layeredNetwork) st.converted c.source = some ns ∧
              Before ns nd st.nodes) ∧
      nodeOf (id layeredNetwork) st.converted (id layeredNetwork).output = some out ∧
      st.nodes.getLast? = some out :=
  ⟨by decide, by unfold WellFormed; decide, by unfold AllLoad; decide, by decide,
    layeredNetwork_acyclic,
    ⟨⟨_, [2, 1, 3, 0], _⟩, rfl, rfl, rfl⟩,
    convert_dependencies_first id everything 8 layeredNetwork emptyUniverse "shader"
      (by decide) (by unfold WellFormed; decide) (by unfold AllLoad; decide) (by decide)⟩

/-! ## `update` -/

theorem assignOriginal_new (name : String) (node : Nat) (m : OriginalNodes)
    (h : name ∉ m.map (fun e => e.1)) : assignOriginal name node m = m ++ [(name, node)] := by
  induction m with
  | nil => rfl
  | cons e rest ih =>
    obtain ⟨k, v⟩ := e
    simp only [List.map_cons, List.mem_cons, not_or] at h
    have hk : k ≠ name := fun hk => h.1 hk.symm
    have e := ih h.2
    simp only [assignOriginal, hk, if_false, List.cons_append]
    exact congrArg _ e

theorem collectOriginals_from (u : Universe) (nodes : List Nat) :
    ∀ acc : OriginalNodes,
      (acc.map (fun e => e.1) ++ nodes.map (AiNodeGetName u)).Nodup →
      nodes.foldl (fun m n => assignOriginal (AiNodeGetName u n) n m) acc =
        acc ++ nodes.map (fun n => (AiNodeGetName u n, n)) := by
  induction nodes with
  | nil => intro acc _; simp
  | cons n rest ih =>
    intro acc hn
    have hnot : AiNodeGetName u n ∉ acc.map (fun e => e.1) := by
      intro hmem
      have := List.nodup_append.mp hn
      exact this.2.2 hmem (List.mem_cons_self _ _)
    rw [List.foldl_cons, assignOriginal_new _ _ _ hnot, ih]
    · simp
    · simpa [List.map_append, List.append_assoc] using hn

theorem collectOriginals_eq (u : Universe) (nodes : List Nat)
    (h : (nodes.map (AiNodeGetName u)).Nodup) :
    collectOriginals u nodes = nodes.map (fun n => (AiNodeGetName u n, n)) := by
  have := collectOriginals_from u nodes [] (by simpa using h)
  simpa [collectOriginals] using this

theorem findOriginal_some_mem (name : String) (node : Nat) (m : OriginalNodes)
    (h : findOriginal name m = some node) : (name, node) ∈ m := by
  induction m with
  | nil => simp [findOriginal] at h
  | cons e rest ih =>
    obtain ⟨k, v⟩ := e
    by_cases hk : k = name
    · simp only [findOriginal, hk, if_true, Option.some.injEq] at h
      simp [hk, h]
    · simp only [findOriginal, hk, if_false] at h
      exact List.mem_cons_of_mem _ (ih h)

theorem findOriginal_none (name : String) (m : OriginalNodes)
    (h : findOriginal name m = none) : name ∉ m.map (fun e => e.1) := by
  induction m with
  | nil => simp
  | cons e rest ih =>
    obtain ⟨k, v⟩ := e
    by_cases hk : k = name
    · simp [findOriginal, hk] at h
    · simp only [findOriginal, hk, if_false] at h
      simp only [List.map_cons, List.mem_cons, not_or]
      exact ⟨fun h' => hk h'.symm, ih h⟩

theorem findOriginal_perm (name : String) (node : Nat) (m : OriginalNodes)
    (h : findOriginal name m = some node) :
    (m.map (fun e => e.2)).Perm (node :: (eraseOriginal name m).map (fun e => e.2)) := by
  induction m with
  | nil => simp [findOriginal] at h
  | cons e rest ih =>
    obtain ⟨k, v⟩ := e
    by_cases hk : k = name
    · simp only [findOriginal, hk, if_true, Option.some.injEq] at h
      simp [eraseOriginal, hk, h]
    · simp only [findOriginal, hk, if_false] at h
      simp only [eraseOriginal, hk, if_false, List.map_cons]
      exact ((ih h).cons v).trans (List.Perm.swap _ _ _)

theorem destroy_foldl_eq (m : OriginalNodes) :
    ∀ u : Universe, m.foldl (fun u e => AiNodeDestroy u e.2) u =
      { created := u.created, destroyed := u.destroyed ++ m.map (fun e => e.2) } := by
  induction m with
  | nil => intro u; simp
  | cons e rest ih =>
    intro u
    rw [List.foldl_cons, ih (AiNodeDestroy u e.2)]
    simp [AiNodeDestroy]

theorem destroyOriginals_eq (order : OriginalNodes → OriginalNodes) (m : OriginalNodes)
    (u : Universe) :
    destroyOriginals order u m =
      { created := u.created, destroyed := u.destroyed ++ (order m).map (fun e => e.2) } :=
  destroy_foldl_eq (order m) u

theorem aiNode_created (loads : String → Bool) (u : Universe) (t nm : String) :
    u.created.length ≤ (AiNode loads u t nm).2.created.length ∧
    (AiNode loads u t nm).2.destroyed = u.destroyed ∧
    ∀ nd, (AiNode loads u t nm).1 = some nd → nd = u.created.length := by
  unfold AiNode
  split <;> simp

theorem updateCreator_inv (loads : String → Bool) (u : Universe) (nodes : List Nat)
    (s : UpdateState) (t nm : String) (h : UpdateInv u nodes s) :
    UpdateInv u nodes (updateCreator loads s t nm).2 := by
  obtain ⟨hc, D, hD, hp⟩ := h
  unfold updateCreator
  cases hf : findOriginal nm s.originalNodes with
  | none =>
    simp only
    obtain ⟨h1, h2, _⟩ := aiNode_created loads s.arnold t nm
    exact ⟨le_trans hc h1, D, by rw [h2, hD], hp⟩
  | some node =>
    simp only
    have hperm := findOriginal_perm nm node s.originalNodes hf
    split
    · refine ⟨hc, D, hD, ?_⟩
      simp only
      refine List.Perm.trans ?_ hp
      refine List.Perm.append_right D ?_
      have h1 : (List.map (fun e => e.2) (eraseOriginal nm s.originalNodes) ++
          (s.reusedNodes ++ [node])).Perm
          (node :: List.map (fun e => e.2) (eraseOriginal nm s.originalNodes) ++
            s.reusedNodes) := by
        rw [← List.append_assoc]
        exact List.perm_append_singleton _ _
      exact h1.trans (List.Perm.append_right _ hperm.symm)
    · obtain ⟨h1, h2, _⟩ := aiNode_created loads (AiNodeDestroy s.arnold node) t nm
      refine ⟨le_trans hc h1, D ++ [node], ?_, ?_⟩
      · simp only
        rw [h2]
        simp [AiNodeDestroy, hD]
      · simp only
        refine List.Perm.trans ?_ hp
        have h3 : (List.map (fun e => e.2) (eraseOriginal nm s.originalNodes) ++
            s.reusedNodes ++ (D ++ [node])).Perm
            (node :: List.map (fun e => e.2) (eraseOriginal nm s.originalNodes) ++
              s.reusedNodes ++ D) := by
          rw [← List.append_assoc]
          exact List.perm_append_singleton _ _
        refine h3.trans ?_
        exact List.Perm.append_right D (List.Perm.append_right _ hperm.symm)

theorem updateCreator_keep (loads : String → Bool) (u : Universe) (s : UpdateState)
    (t nm : String) (nd : Nat) (h : nd ∈ s.reusedNodes ∨ u.created.length ≤ nd) :
    nd ∈ (updateCreator loads s t nm).2.reusedNodes ∨ u.created.length ≤ nd := by
  rcases h with h | h
  · left
    cases hf : findOriginal nm s.originalNodes with
    | none => simpa only [updateCreator, hf] using h
    | some node =>
      by_cases he : AiNodeEntryGetName s.arnold node = t
      · simp only [updateCreator, hf, he, if_true]
        exact List.mem_append_left _ h
      · simpa only [updateCreator, hf, he, if_false] using h
  · exact Or.inr h

theorem updateCreator_result (loads : String → Bool) (u : Universe) (nodes : List Nat)
    (s : UpdateState) (t nm : String) (nd : Nat) (hinv : UpdateInv u nodes s)
    (h : (updateCreator loads s t nm).1 = some nd) :
    nd ∈ (updateCreator loads s t nm).2.reusedNodes ∨ u.created.length ≤ nd := by
  have hc := hinv.created
  cases hf : findOriginal nm s.originalNodes with
  | none =>
    simp only [updateCreator, hf] at h ⊢
    obtain ⟨_, _, h3⟩ := aiNode_created loads s.arnold t nm
    have := h3 nd h
    exact Or.inr (by omega)
  | some node =>
    by_cases he : AiNodeEntryGetName s.arnold node = t
    · simp only [updateCreator, hf, he, if_true, Option.some.injEq] at h ⊢
      subst h
      exact Or.inl (by simp)
    · simp only [updateCreator, hf, he, if_false] at h ⊢
      obtain ⟨_, _, h3⟩ := aiNode_created loads (AiNodeDestroy s.arnold node) t nm
      have := h3 nd h
      simp only [AiNodeDestroy] at this
      exact Or.inr (by omega)

theorem updateCreator_reused (loads : String → Bool) (s : UpdateState) (t nm : String)
    (nd : Nat) (h : nd ∈ (updateCreator loads s t nm).2.reusedNodes) :
    nd ∈ s.reusedNodes ∨ (updateCreator loads s t nm).1 = some nd := by
  cases hf : findOriginal nm s.originalNodes with
  | none =>
    simp only [updateCreator, hf] at h ⊢
    exact Or.inl h
  | some node =>
    by_cases he : AiNodeEntryGetName s.arnold node = t
    · simp only [updateCreator, hf, he, if_true, List.mem_append, List.mem_singleton] at h ⊢
      rcases h with h | h
      · exact Or.inl h
      · exact Or.inr (by rw [h])
    · simp only [updateCreator, hf, he, if_false] at h ⊢
      exact Or.inl h

theorem convertWalk_new_key {σ : Type} (creator : σ → String → String → Option Nat × σ)
    (net : ShaderNetwork) (name : String) (fuel : Nat) (p : Parameter) (st : WalkState σ)
    (r : Option Nat) (st1 : WalkState σ) (shader : Shader)
    (h : convertWalk creator net name fuel p st = .ok (r, st1))
    (hsh : net.getShader p.shader = some shader)
    (hl : lookupKey (p.shader, oslOutputOf shader p) st.converted = none) :
    r = (creator st.arnold (nodeTypeOf shader) (nodeNameOf net name shader p)).1 ∧
    (r = none → st1.nodes = st.nodes) ∧
    (∀ nd, r = some nd → st1.nodes.getLast? = some nd) := by
  cases fuel with
  | zero => simp [convertWalk] at h
  | succ fuel =>
    rw [convertWalk] at h
    simp only [hsh, hl] at h
    generalize creator st.arnold (nodeTypeOf shader) (nodeNameOf net name shader p) =
      created at h ⊢
    obtain ⟨r0, s0⟩ := created
    cases r0 with
    | none =>
      simp only [Except.ok.injEq, Prod.mk.injEq] at h
      obtain ⟨rfl, rfl⟩ := h
      simp
    | some node =>
      simp only at h
      split at h
      · cases h
      · simp only [Except.ok.injEq, Prod.mk.injEq] at h
        obtain ⟨rfl, rfl⟩ := h
        simp

theorem walkConnections_results_pushed {σ : Type}
    (creator : σ → String → String → Option Nat × σ) (net : ShaderNetwork) (name : String)
    (R : σ → Nat → Prop) (fuel : Nat)
    (hwalk : ∀ (p : Parameter) (st : WalkState σ) (r : Option Nat) (st1 : WalkState σ)
      (stack : List Nat), convertWalk creator net name fuel p st = .ok (r, st1) →
      (∀ nd, R st.arnold nd → nd ∈ st.nodes ∨ nd ∈ stack) →
      ∀ nd, R st1.arnold nd → nd ∈ st1.nodes ∨ nd ∈ stack)
    (cs : List Connection) :
    ∀ (st st1 : WalkState σ) (stack : List Nat),
      walkConnections (convertWalk creator net name fuel) cs st = .ok st1 →
      (∀ nd, R st.arnold nd → nd ∈ st.nodes ∨ nd ∈ stack) →
      ∀ nd, R st1.arnold nd → nd ∈ st1.nodes ∨ nd ∈ stack := by
  induction cs with
  | nil =>
    intro st st1 stack h hI
    simp only [walkConnections, Except.ok.injEq] at h
    subst h
    exact hI
  | cons c cs ih =>
    intro st st1 stack h hI
    rw [walkConnections] at h
    cases hw : convertWalk creator net name fuel c.source st with
    | error f => simp [hw] at h
    | ok res =>
      obtain ⟨r, stm⟩ := res
      simp only [hw] at h
      exact ih stm st1 stack h (hwalk c.source st r stm stack hw hI)

theorem convertWalk_results_pushed {σ : Type}
    (creator : σ → String → String → Option Nat × σ) (net : ShaderNetwork) (name : String)
    (R : σ → Nat → Prop)
    (hR : ∀ s t nm nd, R (creator s t nm).2 nd → R s nd ∨ (creator s t nm).1 = some nd) :
    ∀ (fuel : Nat) (p : Parameter) (st : WalkState σ) (r : Option Nat) (st1 : WalkState σ)
      (stack : List Nat), convertWalk creator net name fuel p st = .ok (r, st1) →
      (∀ nd, R st.arnold nd → nd ∈ st.nodes ∨ nd ∈ stack) →
      ∀ nd, R st1.arnold nd → nd ∈ st1.nodes ∨ nd ∈ stack := by
  intro fuel
  induction fuel with
  | zero =>
    intro p st r st1 stack h
    simp [convertWalk] at h
  | succ fuel ih =>
    intro p st r st1 stack h hI
    rw [convertWalk] at h
    cases hsh : net.getShader p.shader with
    | none => simp [hsh] at h
    | some shader =>
      simp only [hsh] at h
      cases hl : lookupKey (p.shader, oslOutputOf shader p) st.converted with
      | some v =>
        simp only [hl, Except.ok.injEq, Prod.mk.injEq] at h
        obtain ⟨rfl, rfl⟩ := h
        exact hI
      | none =>
        simp only [hl] at h
        have hR1 := hR st.arnold (nodeTypeOf shader) (nodeNameOf net name shader p)
        generalize creator st.arnold (nodeTypeOf shader) (nodeNameOf net name shader p) =
          created at h hR1
        obtain ⟨r0, s0⟩ := created
        simp only at hR1
        cases r0 with
        | none =>
          simp only [Except.ok.injEq, Prod.mk.injEq] at h
          obtain ⟨rfl, rfl⟩ := h
          intro nd hnd
          rcases hR1 nd hnd with h1 | h1
          · exact hI nd h1
          · cases h1
        | some node =>
          simp only at h
          cases hw : walkConnections (convertWalk creator net name fuel)
              (net.inputConnections p.shader)
              { arnold := s0
                nodes := st.nodes
                converted := assignKey (p.shader, oslOutputOf shader p) (some node)
                  (st.converted ++ [((p.shader, oslOutputOf shader p), none)]) } with
          | error f => simp [hw] at h
          | ok st2 =>
            simp only [hw, Except.ok.injEq, Prod.mk.injEq] at h
            obtain ⟨rfl, rfl⟩ := h
            have h2 := walkConnections_results_pushed creator net name R fuel ih
              (net.inputConnections p.shader) _ st2 (node :: stack) hw
              (by
                intro nd hnd
                rcases hR1 nd hnd with h1 | h1
                · rcases hI nd h1 with h3 | h3
                  · exact Or.inl h3
                  · exact Or.inr (List.mem_cons_of_mem _ h3)
                · simp only [Option.some.injEq] at h1
                  exact Or.inr (by simp [h1]))
            intro nd hnd
            rcases h2 nd hnd with h3 | h3
            · exact Or.inl (List.mem_append_left _ h3)
            · rcases List.mem_cons.mp h3 with h4 | h4
              · exact Or.inl (by simp [h4])
              · exact Or.inr h4

theorem assignOriginal_mem (name : String) (node : Nat) (m : OriginalNodes)
    (e : String × Nat) (h : e ∈ assignOriginal name node m) : e ∈ m ∨ e = (name, node) := by
  induction m with
  | nil =>
    simp only [assignOriginal, List.mem_singleton] at h
    exact Or.inr h
  | cons e0 rest ih =>
    obtain ⟨k, v⟩ := e0
    by_cases hk : k = name
    · simp only [assignOriginal, hk, if_true, List.mem_cons] at h
      rcases h with h | h
      · exact Or.inr h
      · exact Or.inl (List.mem_cons_of_mem _ h)
    · simp only [assignOriginal, hk, if_false, List.mem_cons] at h
      rcases h with h | h
      · exact Or.inl (h ▸ List.mem_cons_self _ _)
      · rcases ih h with h1 | h1
        · exact Or.inl (List.mem_cons_of_mem _ h1)
        · exact Or.inr h1

theorem collectOriginals_mem (u : Universe) (nodes : List Nat) (e : String × Nat)
    (h : e ∈ collectOriginals u nodes) : e.2 ∈ nodes ∧ e.1 = AiNodeGetName u e.2 := by
  have key : ∀ (l : List Nat) (acc : OriginalNodes),
      (∀ x ∈ acc, x.2 ∈ nodes ∧ x.1 = AiNodeGetName u x.2) → (∀ n ∈ l, n ∈ nodes) →
      ∀ x ∈ l.foldl (fun m n => assignOriginal (AiNodeGetName u n) n m) acc,
        x.2 ∈ nodes ∧ x.1 = AiNodeGetName u x.2 := by
    intro l
    induction l with
    | nil => intro acc hacc _ x hx; exact hacc x hx
    | cons n rest ih =>
      intro acc hacc hl x hx
      refine ih _ ?_ (fun m hm => hl m (List.mem_cons_of_mem _ hm)) x hx
      intro y hy
      rcases assignOriginal_mem _ _ _ _ hy with h1 | h1
      · exact hacc y h1
      · subst h1
        exact ⟨hl n (List.mem_cons_self _ _), rfl⟩
  exact key nodes [] (by simp) (fun n hn => hn) e h

theorem eraseOriginal_subset (name : String) (m : OriginalNodes) (e : String × Nat)
    (h : e ∈ eraseOriginal name m) : e ∈ m := by
  induction m with
  | nil => simp [eraseOriginal] at h
  | cons e0 rest ih =>
    obtain ⟨k, v⟩ := e0
    by_cases hk : k = name
    · simp only [eraseOriginal, hk, if_true] at h
      exact List.mem_cons_of_mem _ h
    · simp only [eraseOriginal, hk, if_false, List.mem_cons] at h
      rcases h with h | h
      · exact h ▸ List.mem_cons_self _ _
      · exact List.mem_cons_of_mem _ (ih h)

theorem updateCreator_sound (loads : String → Bool) (u : Universe) (nodes : List Nat)
    (s : UpdateState) (t nm : String) (h : UpdateSound u nodes s) :
    UpdateSound u nodes (updateCreator loads s t nm).2 := by
  obtain ⟨hc, ho, hr⟩ := h
  cases hf : findOriginal nm s.originalNodes with
  | none =>
    simp only [updateCreator, hf]
    exact ⟨le_trans hc (aiNode_created loads s.arnold t nm).1, ho, hr⟩
  | some node =>
    have hmem := findOriginal_some_mem _ _ _ hf
    by_cases he : AiNodeEntryGetName s.arnold node = t
    · simp only [updateCreator, hf, he, if_true]
      refine ⟨hc, fun e h => ho e (eraseOriginal_subset _ _ _ h), ?_⟩
      intro n hn
      simp only [List.mem_append, List.mem_singleton] at hn
      rcases hn with hn | rfl
      · exact hr n hn
      · exact (ho _ hmem).1
    · simp only [updateCreator, hf, he, if_false]
      exact ⟨le_trans hc (aiNode_created loads (AiNodeDestroy s.arnold node) t nm).1,
        fun e h => ho e (eraseOriginal_subset _ _ _ h), hr⟩

theorem updateCreator_result_sound (loads : String → Bool) (u : Universe) (nodes : List Nat)
    (s : UpdateState) (t nm : String) (nd : Nat) (hinv : UpdateSound u nodes s)
    (h : (updateCreator loads s t nm).1 = some nd) :
    nd ∈ (updateCreator loads s t nm).2.reusedNodes ∨ u.created.length ≤ nd := by
  have hc := hinv.created
  cases hf : findOriginal nm s.originalNodes with
  | none =>
    simp only [updateCreator, hf] at h ⊢
    obtain ⟨_, _, h3⟩ := aiNode_created loads s.arnold t nm
    have := h3 nd h
    exact Or.inr (by omega)
  | some node =>
    by_cases he : AiNodeEntryGetName s.arnold node = t
    · simp only [updateCreator, hf, he, if_true, Option.some.injEq] at h ⊢
      subst h
      exact Or.inl (by simp)
    · simp only [updateCreator, hf, he, if_false] at h ⊢
      obtain ⟨_, _, h3⟩ := aiNode_created loads (AiNodeDestroy s.arnold node) t nm
      have := h3 nd h
      simp only [AiNodeDestroy] at this
      exact Or.inr (by omega)

theorem updateSound_start (u : Universe) (nodes : List Nat) :
    UpdateSound u nodes (startOf u nodes) :=
  ⟨le_refl _, fun e h => collectOriginals_mem u nodes e h, by simp [startOf]⟩

theorem updateInv_start (u : Universe) (nodes : List Nat)
    (hnames : (nodes.map (AiNodeGetName u)).Nodup) :
    UpdateInv u nodes (startOf u nodes) := by
  refine ⟨le_refl _, [], by simp [startOf], ?_⟩
  simp only [startOf, List.append_nil]
  rw [collectOriginals_eq u nodes hnames, List.map_map]
  have : ((fun e : String × Nat => e.2) ∘ fun n => (AiNodeGetName u n, n)) = id := rfl
  rw [this, List.map_id]

theorem updateCreator_first_reused (loads : String → Bool) (u : Universe) (nodes : List Nat)
    (t nm : String) (hvalid : ∀ n ∈ nodes, n < u.created.length) :
    ∀ n ∈ nodes, (updateCreator loads (startOf u nodes) t nm).1 = some n →
      AiNodeGetName u n = nm ∧ AiNodeEntryGetName u n = t := by
  have hfresh : ∀ (v : Universe) (n : Nat), v.created.length = u.created.length → n ∈ nodes →
      (AiNode loads v t nm).1 ≠ some n := by
    intro v n hv hn h
    have := (aiNode_created loads v t nm).2.2 n h
    have := hvalid n hn
    omega
  have hstart : (startOf u nodes).originalNodes = collectOriginals u nodes := rfl
  have hstartu : (startOf u nodes).arnold = u := rfl
  intro n hn h
  cases hf : findOriginal nm (collectOriginals u nodes) with
  | none =>
    simp only [updateCreator, hstart, hstartu, hf] at h
    exact absurd h (hfresh u n rfl hn)
  | some n0 =>
    have hmem := collectOriginals_mem u nodes _ (findOriginal_some_mem _ _ _ hf)
    by_cases he : AiNodeEntryGetName u n0 = t
    · simp only [updateCreator, hstart, hstartu, hf, he, if_true, Option.some.injEq] at h
      subst h
      exact ⟨hmem.2.symm, he⟩
    · simp only [updateCreator, hstart, hstartu, hf, he, if_false] at h
      exact absurd h (hfresh (AiNodeDestroy u n0) n rfl hn)

theorem updateCreator_first_found (loads : String → Bool) (u : Universe) (nodes : List Nat)
    (t nm : String) (hnames : (nodes.map (AiNodeGetName u)).Nodup)
    (h : ∃ n ∈ nodes, AiNodeGetName u n = nm ∧ AiNodeEntryGetName u n = t) :
    ∃ n ∈ nodes, (updateCreator loads (startOf u nodes) t nm).1 = some n := by
  have hstart : (startOf u nodes).originalNodes = collectOriginals u nodes := rfl
  have hstartu : (startOf u nodes).arnold = u := rfl
  obtain ⟨n, hn, hname, hentry⟩ := h
  cases hf : findOriginal nm (collectOriginals u nodes) with
  | none =>
    have hno := findOriginal_none _ _ hf
    rw [collectOriginals_eq u nodes hnames] at hno
    have h1 : (AiNodeGetName u n, n) ∈ List.map (fun n => (AiNodeGetName u n, n)) nodes :=
      List.mem_map.mpr ⟨n, hn, rfl⟩
    exact absurd (List.mem_map.mpr ⟨_, h1, hname⟩) hno
  | some n0 =>
    have hmem := collectOriginals_mem u nodes _ (findOriginal_some_mem _ _ _ hf)
    have : n = n0 := List.inj_on_of_nodup_map hnames hn hmem.1 (hname.trans hmem.2)
    subst this
    simp only [updateCreator, hstart, hstartu, hf, hentry, if_true]
    exact ⟨n, hn, rfl⟩

/-- C25, amended: `update` given an empty list returns false and leaves the
list empty. Given a non-empty list of nodes of the universe and a network whose
connections and output name shaders of the network, with enough fuel, and
whatever the order in which the map of original nodes is iterated, it returns.
The last element of the new list is the node the walk returned for the output;
the result is true exactly when that element is one of the original nodes,
and it then is in `reusedNodes` and has the name and the node entry the walk
asked for. A node is in `reusedNodes` exactly when it is an original node in
the new list, and every other node of the new list is new. When the original
nodes have pairwise distinct names, an original node with the name and node
entry asked for the output makes the result true, every original node that is
not reused is destroyed exactly once, and no reused node is destroyed. -/
theorem update_reuses_or_destroys (order : OriginalNodes → OriginalNodes)
    (loads : String → Bool) (fuel : Nat) (nodes : List Nat)
    (net : ShaderNetwork) (u : Universe)
    (horder : ∀ m, (order m).Perm m)
    (hne : nodes ≠ [])
    (hvalid : ∀ n ∈ nodes, n < u.created.length)
    (hwf : WellFormed net) (hfuel : net.connections.length + 2 ≤ fuel) :
    update order loads fuel [] net u = .ok (false, [], u) ∧
    ∃ (last : Nat) (out : Option Nat) (st : WalkState UpdateState) (r : Updated),
      nodes.getLast? = some last ∧
      convertWalk (updateCreator loads) net (AiNodeGetName u last) fuel net.output
        (emptyWalk (startOf u nodes)) = .ok (out, st) ∧
      updateNodes order loads fuel nodes net u = .ok r ∧
      update order loads fuel nodes net u = .ok (r.result, r.nodes, r.arnold) ∧
      r.nodes = st.nodes ∧ r.nodes.getLast? = out ∧
      (r.result = true ↔ ∃ n ∈ nodes, r.nodes.getLast? = some n) ∧
      (∀ n ∈ nodes, r.nodes.getLast? = some n →
        n ∈ r.reusedNodes ∧
        AiNodeGetName u n = (creatorArgsOf net (AiNodeGetName u last) net.output).2 ∧
        AiNodeEntryGetName u n = (creatorArgsOf net (AiNodeGetName u last) net.output).1) ∧
      (∀ n, n ∈ r.reusedNodes ↔ n ∈ nodes ∧ n ∈ r.nodes) ∧
      (∀ n ∈ r.nodes, n ∈ nodes ∨ u.created.length ≤ n) ∧
      ((nodes.map (AiNodeGetName u)).Nodup →
        ((∃ n ∈ nodes,
            AiNodeGetName u n = (creatorArgsOf net (AiNodeGetName u last) net.output).2 ∧
            AiNodeEntryGetName u n = (creatorArgsOf net (AiNodeGetName u last) net.output).1) →
          r.result = true) ∧
        (∀ n ∈ nodes, n ∉ r.reusedNodes →
          r.arnold.destroyed.count n = u.destroyed.count n + 1) ∧
        (∀ n ∈ nodes, n ∈ r.reusedNodes →
          r.arnold.destroyed.count n = u.destroyed.count n)) := by
  refine ⟨rfl, ?_⟩
  obtain ⟨last, hlast⟩ : ∃ last, nodes.getLast? = some last := by
    cases hg : nodes.getLast? with
    | none => exact absurd (List.getLast?_eq_none_iff.mp hg) hne
    | some last => exact ⟨last, rfl⟩
  have hpend : pending net (emptyWalk (startOf u nodes)).converted < fuel :=
    lt_of_le_of_lt (pending_nil_le _) (by omega)
  obtain ⟨out, st, hw, _, hJ, hP, _⟩ := convertWalk_preserves (updateCreator loads) net
    (AiNodeGetName u last) hwf (UpdateSound u nodes)
    (fun s nd => nd ∈ s.reusedNodes ∨ u.created.length ≤ nd)
    (fun s t nm h => updateCreator_sound loads u nodes s t nm h)
    (fun s t nm nd _ h => updateCreator_keep loads u s t nm nd h)
    (fun s t nm nd hinv h => updateCreator_result_sound loads u nodes s t nm nd hinv h)
    fuel net.output (emptyWalk (startOf u nodes)) (List.mem_cons_self _ _) hpend
    (updateSound_start u nodes)
    (by intro nd hnd; simp [emptyWalk] at hnd)
  have hpushed : ∀ nd, nd ∈ st.arnold.reusedNodes → nd ∈ st.nodes := by
    intro nd hnd
    have := convertWalk_results_pushed (updateCreator loads) net (AiNodeGetName u last)
      (fun s nd => nd ∈ s.reusedNodes)
      (fun s t nm nd h => updateCreator_reused loads s t nm nd h)
      fuel net.output _ out st [] hw (by intro nd hnd; simp [emptyWalk, startOf] at hnd) nd hnd
    simpa using this
  obtain ⟨shader, hsh⟩ := Option.ne_none_iff_exists'.mp
    (hwf net.output (List.mem_cons_self _ _))
  have hargs : creatorArgsOf net (AiNodeGetName u last) net.output =
      (nodeTypeOf shader, nodeNameOf net (AiNodeGetName u last) shader net.output) := by
    simp [creatorArgsOf, hsh]
  obtain ⟨hout, hnone, hsome⟩ := convertWalk_new_key (updateCreator loads) net
    (AiNodeGetName u last) fuel net.output _ out st shader hw hsh (by simp [emptyWalk, lookupKey])
  have hgl : st.nodes.getLast? = out := by
    cases out with
    | none => rw [hnone rfl]; rfl
    | some nd => exact hsome nd rfl
  have hfirstB := updateCreator_first_reused loads u nodes (nodeTypeOf shader)
    (nodeNameOf net (AiNodeGetName u last) shader net.output) hvalid
  simp only [emptyWalk] at hout
  rw [← hout] at hfirstB
  have hreused_sub : ∀ n, n ∈ st.arnold.reusedNodes → n ∈ nodes := hJ.reused
  have hnew : ∀ n ∈ nodes, n ∈ st.nodes → n ∈ st.arnold.reusedNodes := by
    intro n hn hm
    rcases hP n hm with h | h
    · exact h
    · have := hvalid n hn
      omega
  refine ⟨last, out, st,
    { result := lastReused st.nodes st.arnold.reusedNodes
      nodes := st.nodes
      arnold := destroyOriginals order st.arnold.arnold st.arnold.originalNodes
      reusedNodes := st.arnold.reusedNodes },
    hlast, hw, ?_, ?_, rfl, hgl, ?_, ?_, ?_, ?_, ?_⟩
  · simp only [updateNodes, hlast, hw]
  · simp only [update, updateNodes, hlast, hw]
  · simp only [lastReused]
    constructor
    · intro h
      cases hg : st.nodes.getLast? with
      | none => simp [hg] at h
      | some x =>
        simp only [hg, decide_eq_true_eq] at h
        exact ⟨x, hreused_sub x h, rfl⟩
    · rintro ⟨n, hn, hg⟩
      simp only [hg, decide_eq_true_eq]
      exact hnew n hn (List.mem_of_mem_getLast? hg)
  · intro n hn hg
    simp only at hg ⊢
    rw [hargs]
    exact ⟨hnew n hn (List.mem_of_mem_getLast? hg), hfirstB n hn (hgl.symm.trans hg)⟩
  · intro n
    simp only
    exact ⟨fun h => ⟨hreused_sub n h, hpushed n h⟩, fun h => hnew n h.1 h.2⟩
  · intro n hn
    simp only at hn
    rcases hP n hn with h | h
    · exact Or.inl (hreused_sub n h)
    · exact Or.inr h
  · intro hnames
    obtain ⟨out2, st2, hw2, _, hJ2, _, _⟩ := convertWalk_preserves (updateCreator loads) net
      (AiNodeGetName u last) hwf (UpdateInv u nodes)
      (fun s nd => nd ∈ s.reusedNodes ∨ u.created.length ≤ nd)
      (fun s t nm h => updateCreator_inv loads u nodes s t nm h)
      (fun s t nm nd _ h => updateCreator_keep loads u s t nm nd h)
      (fun s t nm nd hinv h => updateCreator_result loads u nodes s t nm nd hinv h)
      fuel net.output (emptyWalk (startOf u nodes)) (List.mem_cons_self _ _) hpend
      (updateInv_start u nodes hnames)
      (by intro nd hnd; simp [emptyWalk] at hnd)
    rw [hw] at hw2
    simp only [Except.ok.injEq, Prod.mk.injEq] at hw2
    obtain ⟨_, rfl⟩ := hw2
    obtain ⟨_, D, hD, hperm⟩ := hJ2
    have hnd : nodes.Nodup := List.Nodup.of_map _ hnames
    have hcount : ∀ n ∈ nodes,
        (st.arnold.originalNodes.map (fun e => e.2)).count n + st.arnold.reusedNodes.count n +
          D.count n = 1 := by
      intro n hn
      have := hperm.count_eq n
      rw [List.count_eq_one_of_mem hnd hn] at this
      simp only [List.count_append] at this
      omega
    have hdestroyed : ∀ n, (destroyOriginals order st.arnold.arnold
        st.arnold.originalNodes).destroyed.count n =
        u.destroyed.count n + D.count n +
          (st.arnold.originalNodes.map (fun e => e.2)).count n := by
      intro n
      rw [destroyOriginals_eq, hD]
      simp only [List.count_append]
      rw [((horder st.arnold.originalNodes).map (fun e => e.2)).count_eq n]
    refine ⟨?_, ?_, ?_⟩
    · intro hex
      rw [hargs] at hex
      obtain ⟨n, hn, ho⟩ := updateCreator_first_found loads u nodes _ _ hnames hex
      rw [← hout] at ho
      have hg : st.nodes.getLast? = some n := by rw [hgl, ho]
      simp only [lastReused, hg, decide_eq_true_eq]
      exact hnew n hn (List.mem_of_mem_getLast? hg)
    · intro n hn hnot
      simp only at hnot ⊢
      rw [hdestroyed]
      have := hcount n hn
      rw [List.count_eq_zero_of_not_mem hnot] at this
      omega
    · intro n hn hin
      simp only at hin ⊢
      rw [hdestroyed]
      have := hcount n hn
      have hpos : 0 < st.arnold.reusedNodes.count n := List.count_pos_iff.mpr hin
      omega

/-- Counterexample for C25 as stated: two original nodes with the same name
`shader:out`, of node types that the new network does not use. The map of
original nodes keeps one entry for the name, that of the later node 0; node 1
is an original node that is not reused, and it is not destroyed. -/
theorem update_same_name_counterexample :
    ([1, 0] : List Nat) ≠ [] ∧
    (∀ n ∈ ([1, 0] : List Nat), n < sameNameUniverse.created.length) ∧
    WellFormed plainNetwork ∧
    AiNodeGetName sameNameUniverse 1 = AiNodeGetName sameNameUniverse 0 ∧
    ∃ r : Updated,
      updateNodes id everything 8 [1, 0] plainNetwork sameNameUniverse = .ok r ∧
      r.nodes = [3, 2] ∧ r.reusedNodes = [] ∧ r.arnold.destroyed = [0] ∧
      1 ∈ ([1, 0] : List Nat) ∧ 1 ∉ r.reusedNodes ∧
      r.arnold.destroyed.count 1 ≠ sameNameUniverse.destroyed.count 1 + 1 := by
  refine ⟨by decide, by decide, by unfold WellFormed; decide, rfl, _, rfl, rfl, rfl, rfl,
    by decide, by decide, by decide⟩

/-- Witness for C25: the four nodes of the layered network updated to a
network that keeps the surface and the tint, the map of original nodes being
iterated in reverse. Both are reused, the two nodes of the pattern are the ones
destroyed, once each, and the result is true. -/
theorem update_reuses_or_destroys_witness :
    (∀ m : OriginalNodes, (List.reverse m).Perm m) ∧
    ([2, 1, 3, 0] : List Nat) ≠ [] ∧
    (∀ n ∈ ([2, 1, 3, 0] : List Nat), n < layeredUniverse.created.length) ∧
    WellFormed plainNetwork ∧ plainNetwork.connections.length + 2 ≤ 8 ∧
    (([2, 1, 3, 0] : List Nat).map (AiNodeGetName layeredUniverse)).Nodup ∧
    (∃ r : Updated,
      updateNodes List.reverse everything 8 [2, 1, 3, 0] plainNetwork layeredUniverse = .ok r ∧
      r.result = true ∧ r.nodes = [2, 0] ∧ r.reusedNodes.Perm [0, 2] ∧
      r.arnold.destroyed.Perm [1, 3] ∧ r.arnold.created = layeredUniverse.created) ∧
    (update List.reverse everything 8 [] plainNetwork layeredUniverse =
      .ok (false, [], layeredUniverse) ∧
    ∃ (last : Nat) (out : Option Nat) (st : WalkState UpdateState) (r : Updated),
      ([2, 1, 3, 0] : List Nat).getLast? = some last ∧
      convertWalk (updateCreator everything) plainNetwork (AiNodeGetName layeredUniverse last) 8
        plainNetwork.output (emptyWalk (startOf layeredUniverse [2, 1, 3, 0])) = .ok (out, st) ∧
      updateNodes List.reverse everything 8 [2, 1, 3, 0] plainNetwork layeredUniverse = .ok r ∧
      update List.reverse everything 8 [2, 1, 3, 0] plainNetwork layeredUniverse =
        .ok (r.result, r.nodes, r.arnold) ∧
      r.nodes = st.nodes ∧ r.nodes.getLast? = out ∧
      (r.result = true ↔ ∃ n ∈ ([2, 1, 3, 0] : List Nat), r.nodes.getLast? = some n) ∧
      (∀ n ∈ ([2, 1, 3, 0] : List Nat), r.nodes.getLast? = some n →
        n ∈ r.reusedNodes ∧
        AiNodeGetName layeredUniverse n =
          (creatorArgsOf plainNetwork (AiNodeGetName layeredUniverse last)
            plainNetwork.output).2 ∧
        AiNodeEntryGetName layeredUniverse n =
          (creatorArgsOf plainNetwork (AiNodeGetName layeredUniverse last)
            plainNetwork.output).1) ∧
      (∀ n, n ∈ r.reusedNodes ↔ n ∈ ([2, 1, 3, 0] : List Nat) ∧ n ∈ r.nodes) ∧
      (∀ n ∈ r.nodes, n ∈ ([2, 1, 3, 0] : List Nat) ∨ layeredUniverse.created.length ≤ n) ∧
      ((([2, 1, 3, 0] : List Nat).map (AiNodeGetName layeredUniverse)).Nodup →
        ((∃ n ∈ ([2, 1, 3, 0] : List Nat),
            AiNodeGetName layeredUniverse n =
              (creatorArgsOf plainNetwork (AiNodeGetName layeredUniverse last)
                plainNetwork.output).2 ∧
            AiNodeEntryGetName layeredUniverse n =
              (creatorArgsOf plainNetwork (AiNodeGetName layeredUniverse last)
                plainNetwork.output).1) →
          r.result = true) ∧
        (∀ n ∈ ([2, 1, 3, 0] : List Nat), n ∉ r.reusedNodes →
          r.arnold.destroyed.count n = layeredUniverse.destroyed.count n + 1) ∧
        (∀ n ∈ ([2, 1, 3, 0] : List Nat), n ∈ r.reusedNodes →
          r.arnold.destroyed.count n = layeredUniverse.destroyed.count n))) :=
  ⟨fun m => List.reverse_perm m, by decide, by decide, by unfold WellFormed; decide, by decide,
    by decide,
    ⟨_, rfl, rfl, rfl, by decide, by decide, rfl⟩,
    update_reuses_or_destroys List.reverse everything 8 [2, 1, 3, 0] plainNetwork layeredUniverse
      (fun m => List.reverse_perm m) (by decide) (by decide) (by unfold WellFormed; decide)
      (by decide)⟩

/-! ## When `convert` reads `result.back()` -/

theorem convert_of_output_unloaded (conv : ShaderNetwork → ShaderNetwork)
    (loads : String → Bool) (fuel : Nat) (shaderNetwork : ShaderNetwork) (u : Universe)
    (name : String) (shader : Shader)
    (hout : (conv shaderNetwork).output.shader ≠ "")
    (hsh : (conv shaderNetwork).getShader (conv shaderNetwork).output.shader = some shader)
    (hload : loads (nodeTypeOf shader) = false) :
    (shader.blindData ≠ [] →
      convert conv loads (fuel + 1) shaderNetwork u name = .error .emptyBack) ∧
    (shader.blindData = [] →
      convert conv loads (fuel + 1) shaderNetwork u name = .ok ([], u)) := by
  have hw : convertWalk (AiNode loads) (conv shaderNetwork) name (fuel + 1)
      (conv shaderNetwork).output (emptyWalk u) =
      .ok (none, { arnold := u, nodes := [], converted :=
        [(((conv shaderNetwork).output.shader,
          oslOutputOf shader (conv shaderNetwork).output), none)] }) := by
    rw [convertWalk]
    simp [hsh, emptyWalk, lookupKey, AiNode, hload, assignKey]
  constructor
  · intro hb
    obtain ⟨b, rest, hbd⟩ := List.exists_cons_of_ne_nil hb
    simp [convert, hout, hw, hsh, hbd, setBlindData, back]
  · intro hb
    simp [convert, hout, hw, hsh, hb, setBlindData]

theorem convert_of_output_loaded (conv : ShaderNetwork → ShaderNetwork)
    (loads : String → Bool) (fuel : Nat) (shaderNetwork : ShaderNetwork) (u : Universe)
    (name : String) (shader : Shader)
    (hout : (conv shaderNetwork).output.shader ≠ "")
    (hwf : WellFormed (conv shaderNetwork))
    (hsh : (conv shaderNetwork).getShader (conv shaderNetwork).output.shader = some shader)
    (hload : loads (nodeTypeOf shader) = true)
    (hfuel : (conv shaderNetwork).connections.length + 2 ≤ fuel) :
    ∃ (result : List Nat) (u1 : Universe),
      convert conv loads fuel shaderNetwork u name = .ok (result, u1) ∧
      result.getLast? = some u.created.length := by
  have hpend : pending (conv shaderNetwork) (emptyWalk u).converted < fuel :=
    lt_of_le_of_lt (pending_nil_le _) (by omega)
  obtain ⟨r, st, hw, _⟩ := convertWalk_preserves (AiNode loads) (conv shaderNetwork) name hwf
    (fun _ => True) (fun _ _ => True) (fun _ _ _ _ => trivial) (fun _ _ _ _ _ _ => trivial)
    (fun _ _ _ _ _ _ => trivial) fuel (conv shaderNetwork).output (emptyWalk u)
    (List.mem_cons_self _ _) hpend trivial (fun _ _ => trivial)
  obtain ⟨hr, _, hsome⟩ := convertWalk_new_key (AiNode loads) (conv shaderNetwork) name fuel
    (conv shaderNetwork).output _ r st shader hw hsh (by simp [emptyWalk, lookupKey])
  rw [aiNode_of_loads loads _ _ _ hload] at hr
  have hl := hsome _ hr
  simp only [emptyWalk] at hl
  refine ⟨st.nodes, st.arnold, ?_, hl⟩
  simp only [convert, hout, if_false, hw, hsh, setBlindData_ok st.nodes _ hl]

end IECoreArnold
